import Mathlib

/-!
Verification development for the fcman file-collection manager.

The definitions below are shallow embeddings of the Python source of the
repository (`mrbavii/fcman`): the collection node model (`collection.py`),
the dependency resolver (`actions/action_checkmeta.py`), the reconciliation
engine (`actions/action_update.py`, `actions/action_check.py`) and the
metadata rule engine (`actions/action_updatemeta.py`).  Machine strings are
modelled as Lean `String`/`List Char`, Python integers as `Int`, and the
mutable tree operations as pure functions threading the tree state.

Representation convention: a Python dict (a directory's `children`, a
filesystem directory listing, the package index) is modelled as an
association list.  Children lists and filesystem listings are kept in
ascending name order (the canonical representation of the dict), so the
ubiquitous `for i in sorted(...)` loops of the source coincide with plain
list-order iteration; well-formedness predicates state this canonical
order where a theorem depends on it.

The file is organised as: all definitions first, then all theorems.
-/

namespace Fcman

/-! ## Definitions -/

/-! ### Python primitive helpers

`pyIsSpace`, `pyStrip`, `pySplitChar`, `pyIntChars` model the Python
builtins `str.strip()` (its whitespace set), `str.split(sep)` for a
one-character separator, and `int(str)`.
-/

/-- Characters removed by Python `str.strip()` (ASCII whitespace). -/
def pyIsSpace (c : Char) : Bool :=
  c = ' ' || c = '\t' || c = '\n' || c = '\r' || c.toNat = 11 || c.toNat = 12

/-- Python `str.strip()` on a character list. -/
def pyStrip (cs : List Char) : List Char :=
  ((cs.dropWhile pyIsSpace).reverse.dropWhile pyIsSpace).reverse

/-- Python `str.split(sep)` for a single-character separator: always returns a
nonempty list of (possibly empty) groups; `"".split(sep) = [""]`. -/
def pySplitChar (sep : Char) : List Char → List (List Char)
  | [] => [[]]
  | c :: rest =>
    if c = sep then [] :: pySplitChar sep rest
    else
      match pySplitChar sep rest with
      | [] => [[c]]
      | g :: gs => (c :: g) :: gs

/-- Numeric value of a decimal digit character. -/
def digitVal (c : Char) : Nat := c.toNat - 48

/-- Digit run after the first digit: Python `int()` allows a single
underscore between digits. -/
def pyDigitsAux (acc : Nat) : List Char → Option Nat
  | [] => some acc
  | c :: rest =>
    if c.isDigit then pyDigitsAux (10 * acc + digitVal c) rest
    else if c = '_' then
      match rest with
      | c2 :: rest2 =>
        if c2.isDigit then pyDigitsAux (10 * acc + digitVal c2) rest2 else none
      | [] => none
    else none

/-- Parse a nonempty decimal digit sequence (underscores between digits
allowed, as in Python 3 `int()`). -/
def pyDigits : List Char → Option Nat
  | [] => none
  | c :: rest => if c.isDigit then pyDigitsAux (digitVal c) rest else none

/-- Python `int(s)` on a character list: optional surrounding whitespace,
optional sign, decimal digits; `none` models `ValueError`. -/
def pyIntChars (cs : List Char) : Option Int :=
  match pyStrip cs with
  | '+' :: rest => (pyDigits rest).map (fun n => (n : Int))
  | '-' :: rest => (pyDigits rest).map (fun n => -(n : Int))
  | other => (pyDigits other).map (fun n => (n : Int))

/-- Python `int(s)`. -/
def pyInt (s : String) : Option Int :=
  pyIntChars s.toList

/-! ### Version comparison (`CheckMetaAction._checkdeps_compare`)

The Python method splits both version strings on `"."`, converts every
component with `int()`, zero-pads the shorter list and compares the lists.
On a `ValueError` it returns `False` — which, used by the caller through
`result < 0` / `result > 0`, behaves exactly like the integer `0` because
Python booleans are numerically `False == 0`.  `PyCmp.failed` records that
return value; `cmpLtZero`/`cmpGtZero` embed the caller's comparisons.
-/

/-- Result of `_checkdeps_compare`: `-1`, `0`, `1`, or the `False` returned
from the `except ValueError` branch. -/
inductive PyCmp where
  | lt
  | eq
  | gt
  | failed
  deriving DecidableEq, Repr

/-- `map(int, ver.split("."))` — `none` models the `ValueError` branch. -/
def parseVersion (s : String) : Option (List Int) :=
  (pySplitChar '.' s.toList).mapM pyIntChars

/-- Right-pad an integer list with zeros to length `n`. -/
def padZero (l : List Int) (n : Nat) : List Int :=
  l ++ List.replicate (n - l.length) 0

/-- Python list comparison on integer lists (elementwise, first difference
decides, a strict prefix is smaller). -/
def listCmp : List Int → List Int → PyCmp
  | [], [] => .eq
  | [], _ :: _ => .lt
  | _ :: _, [] => .gt
  | a :: as, b :: bs =>
    if a < b then .lt else if b < a then .gt else listCmp as bs

/-- `CheckMetaAction._checkdeps_compare(ver1, ver2)`. -/
def checkdeps_compare (ver1 ver2 : String) : PyCmp :=
  match parseVersion ver1, parseVersion ver2 with
  | some l1, some l2 =>
    let n := max l1.length l2.length
    listCmp (padZero l1 n) (padZero l2 n)
  | _, _ => .failed

/-- The caller's test `_checkdeps_compare(a, b) < 0`.  Note `False < 0` is
false in Python, so the `failed` outcome does not count as less. -/
def cmpLtZero : PyCmp → Bool
  | .lt => true
  | _ => false

/-- The caller's test `_checkdeps_compare(a, b) > 0`.  Note `False > 0` is
false in Python, so the `failed` outcome does not count as greater. -/
def cmpGtZero : PyCmp → Bool
  | .gt => true
  | _ => false

/-! ### The node model (`collection.py`)

`Node.meta` is a Python dict from a metadata type to a set of frozensets of
key/value pairs.  A record (`MetaRec`) models one frozenset as an
association list; `Meta` models the dict as an association list whose
value lists stand for sets.  The tree itself (`FNode`) models `Symlink`,
`File` and `Directory` nodes; `Directory.children` is a dict keyed by each
child's `name`, modelled canonically as a name-sorted list of children.
The stored `pathlist` tuple is carried as the `plist` field.  The root
directory is the `dir` node at the top of the tree (its `name` is `None`
in Python, modelled as `""`; no claim depends on the root's name).
-/

/-- Python dict lookup `d[key]` / `d.get(key)` on an association list
(`none` when the key is absent; `key in d` is `(dictGet key d).isSome`). -/
def dictGet (key : String) : List (String × β) → Option β
  | [] => none
  | (k, v) :: rest => if key = k then some v else dictGet key rest

/-- One metadata record (a `frozenset` of key/value attribute pairs). -/
abbrev MetaRec := List (String × String)

/-- `Node.meta`: dict from meta type to the set of records of that type. -/
abbrev Meta := List (String × List MetaRec)

/-- A collection tree node (`Symlink` / `File` / `Directory`). -/
inductive FNode where
  | sym (name : String) (plist : List String) (meta : Meta) (target : String)
  | file (name : String) (plist : List String) (meta : Meta) (size : Int)
      (timestamp : Int) (checksum : String)
  | dir (name : String) (plist : List String) (meta : Meta)
      (ignores : List String) (children : List FNode)
  deriving Repr

/-- The node's `name`. -/
def FNode.name : FNode → String
  | .sym n _ _ _ => n
  | .file n _ _ _ _ _ => n
  | .dir n _ _ _ _ => n

/-- The node's stored `pathlist`. -/
def FNode.plist : FNode → List String
  | .sym _ p _ _ => p
  | .file _ p _ _ _ _ => p
  | .dir _ p _ _ _ => p

/-- The node's `meta` dict. -/
def FNode.meta : FNode → Meta
  | .sym _ _ m _ => m
  | .file _ _ m _ _ _ => m
  | .dir _ _ m _ _ => m

/-- `isinstance(node, Directory)`. -/
def FNode.isDir : FNode → Bool
  | .dir _ _ _ _ _ => true
  | _ => false

/-- `node.getmeta(metatype)`: the records of one metadata type. -/
def metaRecords (n : FNode) (metatype : String) : List MetaRec :=
  (dictGet metatype n.meta).getD []

/-- `meta.get(key)` on one record. -/
def recGet (rec : MetaRec) (k : String) : Option String :=
  dictGet k rec

/-- Python falsy-to-`None` normalisation `if not v: v = None` applied to an
optional string (both a missing key and an empty string become `None`). -/
def normEmpty : Option String → Option String
  | none => none
  | some v => if v = "" then none else some v

/-- `name = meta.get("name")`, skipped when falsy. -/
def provName (rec : MetaRec) : Option String :=
  normEmpty (recGet rec "name")

/-- `version = meta.get("version"); if not version: version = None`. -/
def provVersion (rec : MetaRec) : Option String :=
  normEmpty (recGet rec "version")

/-! ### The dependency resolver (`action_checkmeta.py`)

`_checkdeps` builds the package index with `_checkdeps_walk_collect` and
then reports every unsatisfied `depends` record with `_checkdeps_walk`.
The index is a dict `{name -> set of versions}` (`None` marks a
versionless provide), modelled as an association list of lists.
-/

/-- The package index `{name -> set of versions}`. -/
abbrev Packages := List (String × List (Option String))

/-- `packages.setdefault(name, set()).add(version)`. -/
def pkgsAdd (name : String) (ver : Option String) : Packages → Packages
  | [] => [(name, [ver])]
  | (k, vs) :: rest =>
    if k = name then (k, if ver ∈ vs then vs else vs ++ [ver]) :: rest
    else (k, vs) :: pkgsAdd name ver rest

/-- One step of the provides loop of `_checkdeps_walk_collect`. -/
def provStep (acc : Packages) (rec : MetaRec) : Packages :=
  match provName rec with
  | none => acc
  | some nm => pkgsAdd nm (provVersion rec) acc

/-- The `for meta in node.getmeta("provides")` loop of
`_checkdeps_walk_collect`. -/
def collectMeta (n : FNode) (pkgs : Packages) : Packages :=
  (metaRecords n "provides").foldl provStep pkgs

mutual

/-- `CheckMetaAction._checkdeps_walk_collect(node, packages)`; the children
dict is iterated in (canonical) sorted name order. -/
def collectNode (n : FNode) (pkgs : Packages) : Packages :=
  match n with
  | .dir nm pl m ig ch => collectList ch (collectMeta (.dir nm pl m ig ch) pkgs)
  | other => collectMeta other pkgs

/-- The recursive children loop of `_checkdeps_walk_collect`. -/
def collectList (cs : List FNode) (pkgs : Packages) : Packages :=
  match cs with
  | [] => pkgs
  | c :: rest => collectList rest (collectNode c pkgs)

end

/-- A `(name, minver, maxver)` tuple from `_checkdeps_walk`. -/
abbrev DepTuple := String × Option String × Option String

/-- A reported unsatisfied dependency: the node's path and the tuple
(`self.writer.stdout.status(node.prettypath, "DEPENDS", str(depends))`). -/
abbrev DepReport := List String × DepTuple

/-- The `depends` tuples of one node, as gathered by the loop of
`_checkdeps_walk` (records with a falsy name are skipped; falsy min/max
versions become `None`). -/
def nodeDepends (n : FNode) : List DepTuple :=
  (metaRecords n "depends").filterMap fun rec =>
    match provName rec with
    | none => none
    | some nm =>
      some (nm, normEmpty (recGet rec "minversion"),
        normEmpty (recGet rec "maxversion"))

/-- The two `continue` guards of the version loop of `_checkdeps_find`:
version `ver` is retained unless a declared bound test
`_checkdeps_compare(...) < 0` / `> 0` rejects it. -/
def versionOkB (minver maxver : Option String) (ver : String) : Bool :=
  (match minver with
   | none => true
   | some m => !(cmpLtZero (checkdeps_compare ver m))) &&
  (match maxver with
   | none => true
   | some m => !(cmpGtZero (checkdeps_compare ver m)))

/-- `CheckMetaAction._checkdeps_find(depends, packages)` where
`depends = (name, minver, maxver)`; the Python implicit `return None` at the
end of the loop is falsy, hence `false`. -/
def checkdeps_find (name : String) (minver maxver : Option String)
    (pkgs : Packages) : Bool :=
  match dictGet name pkgs with
  | none => false
  | some versions =>
    match minver, maxver with
    | none, none => true
    | _, _ =>
      versions.any fun v =>
        match v with
        | none => false
        | some ver => versionOkB minver maxver ver

mutual

/-- `CheckMetaAction._checkdeps_walk(node, packages)`: the aggregate status
and the stream of `DEPENDS` failure reports. -/
def checkdepsWalkNode (n : FNode) (pkgs : Packages) : Bool × List DepReport :=
  let own := (nodeDepends n).filterMap fun d =>
    if checkdeps_find d.1 d.2.1 d.2.2 pkgs then none else some (n.plist, d)
  match n with
  | .dir _ _ _ _ ch =>
    let rest := checkdepsWalkList ch pkgs
    (own.isEmpty && rest.1, own ++ rest.2)
  | _ => (own.isEmpty, own)

/-- The recursive children loop of `_checkdeps_walk`. -/
def checkdepsWalkList (cs : List FNode) (pkgs : Packages) :
    Bool × List DepReport :=
  match cs with
  | [] => (true, [])
  | c :: rest =>
    let r1 := checkdepsWalkNode c pkgs
    let r2 := checkdepsWalkList rest pkgs
    (r1.1 && r2.1, r1.2 ++ r2.2)

end

/-- `CheckMetaAction._checkdeps()`: collect the index over the whole tree,
then walk the tree checking every dependency. -/
def checkdeps (root : FNode) : Bool × List DepReport :=
  checkdepsWalkNode root (collectNode root [])

/-! ### Specification-side predicates for the dependency resolver -/

/-- Membership of a node in a tree (the node itself or a descendant). -/
inductive NodeIn : FNode → FNode → Prop where
  | refl (t : FNode) : NodeIn t t
  | deeper {n c : FNode} {nm : String} {pl : List String} {m : Meta}
      {ig : List String} {ch : List FNode} (hc : c ∈ ch) (h : NodeIn n c) :
      NodeIn n (.dir nm pl m ig ch)

/-- The node's own metadata carries a `provides` record for `nm` with
normalised version `v`. -/
def OwnProvides (t : FNode) (nm : String) (v : Option String) : Prop :=
  ∃ rec, rec ∈ metaRecords t "provides" ∧ provName rec = some nm ∧
    provVersion rec = v

/-- Some node of the tree carries a `provides` record for package `nm`
with (normalised) version `v`. -/
def ProvidesIn (t : FNode) (nm : String) (v : Option String) : Prop :=
  ∃ n, NodeIn n t ∧ OwnProvides n nm v

/-- Version `s` passes the min/max bound checks of `_checkdeps_find`: no
declared bound compares strictly out of range.  A comparison that cannot
be carried out (`PyCmp.failed`) passes the check — the comparison fails
open. -/
def passesBounds (minv maxv : Option String) (s : String) : Prop :=
  (∀ m, minv = some m → checkdeps_compare s m ≠ .lt) ∧
  (∀ m, maxv = some m → checkdeps_compare s m ≠ .gt)

/-- A one-node collection whose root carries a `provides` record with the
non-numeric version `"abc"` and a `depends` record on the same package
bounded to `[1.0, 2.0]` (concrete input for the dependency-resolver
counterexamples). -/
def nonNumericTree : FNode :=
  .dir "" [] [
    ("provides", [[("type", "provides"), ("name", "p"), ("version", "abc")]]),
    ("depends", [[("type", "depends"), ("name", "p"),
      ("minversion", "1.0"), ("maxversion", "2.0")]])] [] []

/-- A one-node collection whose root provides `p` version `1.5` and
depends on `p` within `[1.0, 2.0]` (concrete satisfied-dependency input). -/
def numericTree : FNode :=
  .dir "" [] [
    ("provides", [[("type", "provides"), ("name", "p"), ("version", "1.5")]]),
    ("depends", [[("type", "depends"), ("name", "p"),
      ("minversion", "1.0"), ("maxversion", "2.0")]])] [] []

/-! ### Node addressing and mutation operations (`collection.py`)

The actions locate a node by walking the children dicts along a
normalized path, and the mutation methods `Node.reparent` /
`Node.rename` work on the located node objects.  In the functional
embedding a node of a tree is addressed by its position — the list of
names from the root — and the mutations are tree transformations; two
nodes of one tree are the same Python object exactly when they sit at
the same position, which embeds the `node is self` identity test of the
ancestor walk.  `wfNode` states the canonical dict representation
(children strictly ascending by name), and `plOk` states the stored
`pathlist` invariant (`pathList == parent.pathList + [name]`, i.e. every
stored `plist` equals the node's position).
-/

/-- Lexicographic code-point comparison of character lists: the ordering
Python uses on `str` (and hence the order of `sorted(...)` over names). -/
def strLtChars : List Char → List Char → Bool
  | [], [] => false
  | [], _ :: _ => true
  | _ :: _, [] => false
  | a :: as, b :: bs =>
    if a.toNat < b.toNat then true
    else if b.toNat < a.toNat then false
    else strLtChars as bs

/-- Python `a < b` on strings. -/
def strLt (a b : String) : Bool :=
  strLtChars a.toList b.toList

/-- `name in children` / `children[name]` on a children dict. -/
def findChild (seg : String) : List FNode → Option FNode
  | [] => none
  | c :: cs => if c.name = seg then some c else findChild seg cs

/-- `name in node.children` (false for non-directories). -/
def childNamed (t : FNode) (nm : String) : Bool :=
  match t with
  | .dir _ _ _ _ ch => (findChild nm ch).isSome
  | _ => false

/-- Locate the node at a position (`ActionBase.find_node`-style walk). -/
def getNode : List String → FNode → Option FNode
  | [], t => some t
  | seg :: rest, .dir _ _ _ _ ch =>
    match findChild seg ch with
    | some c => getNode rest c
    | none => none
  | _ :: _, _ => none

/-- The ancestor walk of `Node.reparent`: starting at the new parent,
walk `node = node.parent` checking `node is self`; at position level the
ancestor chain of `pos` is `pos, pos.dropLast, …, []`. -/
def ancestorWalkHits (selfP pos : List String) : Bool :=
  if pos = selfP then true
  else
    match pos with
    | [] => false
    | a :: rest => ancestorWalkHits selfP (a :: rest).dropLast
  termination_by pos.length
  decreasing_by
    simp only [List.length_dropLast, List.length_cons]
    omega

/-- Overwrite the node's `name` field. -/
def setName (nm : String) : FNode → FNode
  | .sym _ pl m t => .sym nm pl m t
  | .file _ pl m sz ts ck => .file nm pl m sz ts ck
  | .dir _ pl m ig ch => .dir nm pl m ig ch

mutual

/-- `Node._update_pathlist` / `Directory._update_pathlist`: recompute the
stored `pathlist` from the parent's stored `pathlist` `ppl`, recursively
for directories. -/
def setPlist (ppl : List String) : FNode → FNode
  | .sym n _ m t => .sym n (ppl ++ [n]) m t
  | .file n _ m sz ts ck => .file n (ppl ++ [n]) m sz ts ck
  | .dir n _ m ig ch => .dir n (ppl ++ [n]) m ig (setPlistList (ppl ++ [n]) ch)

/-- The children loop of `Directory._update_pathlist`. -/
def setPlistList (ppl : List String) : List FNode → List FNode
  | [] => []
  | c :: cs => setPlist ppl c :: setPlistList ppl cs

end

/-- `children.pop(name)` on a children dict. -/
def removeChild (nm : String) : List FNode → List FNode
  | [] => []
  | c :: cs => if c.name = nm then cs else c :: removeChild nm cs

/-- `children[c.name] = c` on a children dict: replace the entry with the
same name, otherwise insert keeping the canonical ascending order. -/
def childInsert (c : FNode) : List FNode → List FNode
  | [] => [c]
  | d :: ds =>
    if strLt c.name d.name then c :: d :: ds
    else if c.name = d.name then c :: ds
    else d :: childInsert c ds

/-- Drop the child named `nm` of a directory node. -/
def dirRemoveChild (nm : String) : FNode → FNode
  | .dir n pl m ig ch => .dir n pl m ig (removeChild nm ch)
  | other => other

/-- Register a child into a directory node's dict. -/
def dirInsertChild (c : FNode) : FNode → FNode
  | .dir n pl m ig ch => .dir n pl m ig (childInsert c ch)
  | other => other

/-- Rewrite the node at position `p` with `f` (leaving the tree unchanged
when the position does not exist). -/
def modifyAt (f : FNode → FNode) : List String → FNode → FNode
  | [], t => f t
  | seg :: rest, .dir n pl m ig ch =>
    .dir n pl m ig (ch.map fun c => if c.name = seg then modifyAt f rest c else c)
  | _ :: _, t => t

/-- `Node.reparent(parent)` for the node at `selfP` and the new parent at
`targetP`, following the checks of the source in order: the root cannot
be moved, the new parent must be a directory, the ancestor walk must not
meet the node itself, and the new parent must not already have a child
with the node's name.  On success the node is popped from the old
parent's children, registered into the new parent's, and its stored
pathlist is recomputed recursively from the new parent's. -/
def reparent (root : FNode) (selfP targetP : List String) : Option FNode :=
  match getNode selfP root, getNode targetP root with
  | some node, some target =>
    if selfP = [] then none
    else if target.isDir = false then none
    else if ancestorWalkHits selfP targetP = true then none
    else if childNamed target node.name = true then none
    else
      let t1 := modifyAt (dirRemoveChild node.name) selfP.dropLast root
      let moved := setPlist target.plist node
      some (modifyAt (dirInsertChild moved) targetP t1)
  | _, _ => none

/-- `Node.rename(newname)` for the node at `selfP`: the root cannot be
renamed, the new name must be non-empty and not already used by a
sibling; on success the node is re-keyed in its parent's children dict
with the new name and its stored pathlist recomputed. -/
def rename (root : FNode) (selfP : List String) (newname : String) :
    Option FNode :=
  match getNode selfP root, getNode selfP.dropLast root with
  | some node, some par =>
    if selfP = [] then none
    else if newname = "" then none
    else if childNamed par newname = true then none
    else
      let renamed := setPlist par.plist (setName newname node)
      some (modifyAt
        (fun p => dirInsertChild renamed (dirRemoveChild node.name p))
        selfP.dropLast root)
  | _, _ => none

mutual

/-- Canonical well-formedness of the children dicts: children strictly
ascending by name (hence sibling names are unique). -/
def wfNode : FNode → Bool
  | .sym _ _ _ _ => true
  | .file _ _ _ _ _ _ => true
  | .dir _ _ _ _ ch => wfChildren ch

/-- Canonical well-formedness of one children list. -/
def wfChildren : List FNode → Bool
  | [] => true
  | [c] => wfNode c
  | c :: d :: ds => wfNode c && strLt c.name d.name && wfChildren (d :: ds)

end

mutual

/-- The stored-pathlist invariant: the node at position `pos` stores
`plist = pos`, recursively. -/
def plOk (pos : List String) : FNode → Bool
  | .sym _ pl _ _ => decide (pl = pos)
  | .file _ pl _ _ _ _ => decide (pl = pos)
  | .dir _ pl _ _ ch => decide (pl = pos) && plOkChildren pos ch

/-- The stored-pathlist invariant for a children list under a directory
at position `pos`. -/
def plOkChildren (pos : List String) : List FNode → Bool
  | [] => true
  | c :: cs => plOk (pos ++ [c.name]) c && plOkChildren pos cs

end

/-- A small two-directory collection used as concrete input for the
mutation-operation witnesses. -/
def pairTree : FNode :=
  .dir "" [] [] [] [
    .dir "a" ["a"] [] [] [.file "f" ["a", "f"] [] 1 2 "cc"],
    .dir "b" ["b"] [] [] []]

/-! ### Reconciliation events and live `stat` data

Status events emitted by the check/verify/update actions.  The source
writes each event as a status line together with the node's pretty path;
no claim inspects the path of an event, so events are modelled by their
tag alone.  Verbose-only lines (`PROCESSING`, `SKIPPED`, `WORKPATH`) are
notifications gated behind the verbose flag and are not modelled.
-/

/-- A status event tag. -/
inductive Ev where
  | ADDED
  | DELETED
  | IGNORED
  | CHECKSUM
  | SYMLINK
  | TIMESTAMP
  | SIZE
  | MISSING
  | NEW
  | SHOULDIGNORE
  deriving DecidableEq, Repr

/-- The live `os.stat` data of a file: `st_size` and `st_mtime`.
`st_mtime` is a float in Python; it is modelled in whole seconds, which
makes `int(stat.st_mtime)` the identity. -/
structure PyStat where
  st_size : Int
  st_mtime : Int
  deriving DecidableEq, Repr

/-- `util.TIMEDIFF`: the timestamp tolerance (2 seconds). -/
def TIMEDIFF : Int := 2

/-! ### `UpdateAction.handle_file` and `CheckAction.handle_file`

`calc_checksum()` streams the file's content through MD5; it is modelled
by a `digest` argument carrying the hash of the current content.
`update_handle_file` returns the file's new `(size, timestamp, checksum)`
fields and the emitted events; `check_handle_file` returns the boolean
status, the events, and the updated verify-state list (the `-s` state
file's list of already-verified pretty paths; it is empty when no state
file is given).
-/

/-- `UpdateAction.handle_file(node)` on a file with recorded fields
`(sz, ts, ck)`, live stat `st` and current content hash `digest`. -/
def update_handle_file (force : Bool) (sz ts : Int) (ck : String)
    (st : PyStat) (digest : String) : (Int × Int × String) × List Ev :=
  if force = true ∨ |ts - st.st_mtime| > TIMEDIFF ∨ sz ≠ st.st_size ∨ ck = ""
  then ((st.st_size, st.st_mtime, digest), [.CHECKSUM])
  else ((sz, ts, ck), [])

/-- `CheckAction.handle_file(node)` (with `_fullcheck` true this is
`VerifyAction`): compares recorded fields against the live stat and, in
deep mode, the recomputed checksum, unless the pretty path `pp` is in the
resumable verify state. -/
def check_handle_file (fullcheck : Bool) (state : List String) (pp : String)
    (sz ts : Int) (ck : String) (st : PyStat) (digest : String) :
    Bool × List Ev × List String :=
  let tsBad : Bool := decide (|ts - st.st_mtime| > TIMEDIFF)
  let szBad : Bool := decide (sz ≠ st.st_size)
  let ev1 : List Ev :=
    (if tsBad then [.TIMESTAMP] else []) ++ (if szBad then [.SIZE] else [])
  if fullcheck then
    if pp ∈ state then (!tsBad && !szBad, ev1, state)
    else if ck ≠ digest then (false, ev1 ++ [.CHECKSUM], state)
    else (!tsBad && !szBad, ev1, state ++ [pp])
  else (!tsBad && !szBad, ev1, state)

/-! ### The metadata rule engine (`action_updatemeta.py`)

`UpdateMetaAction.find_target` resolves a rule's `target` string to the
directory the pattern is evaluated against; `applymeta` splits the
rule's `pattern` on commas, splits each alternative on `/`, keeps `.` and
`..` as structural segments and compiles every other segment with
`fnmatch.translate`, rewriting the placeholder token `FILEVERSION` to the
capturing group `(?P<version>[0-9\.]+)`; `_applymeta_walk` then walks the
tree one segment per level and attaches the rule's metadata (plus
auto-`provides` records when a version was captured) at the matched
nodes.  Glob segments are modelled as token lists (`Tok`), matched by a
backtracking matcher with the greedy semantics of the translated regular
expression.
-/

/-- One item of a `[...]` character class (a single character or a
range). -/
inductive ClsItem where
  | single (c : Char)
  | range (a b : Char)
  deriving DecidableEq, Repr

/-- One token of a translated glob segment: a literal character, `*`,
`?`, a character class, or the rewritten `FILEVERSION` capturing group
`(?P<version>[0-9\.]+)`. -/
inductive Tok where
  | lit (c : Char)
  | star
  | qmark
  | version
  | cls (neg : Bool) (items : List ClsItem)
  deriving DecidableEq, Repr

/-- Does a character match one class item? -/
def clsItemMatch (x : Char) : ClsItem → Bool
  | .single c => x = c
  | .range a b => a.toNat ≤ x.toNat && x.toNat ≤ b.toNat

/-- Does a character match a (possibly negated) character class? -/
def clsMatch (neg : Bool) (items : List ClsItem) (x : Char) : Bool :=
  if neg then !(items.any (clsItemMatch x)) else items.any (clsItemMatch x)

/-- Scan a class body up to the closing `]`; `none` when there is no
closing bracket (fnmatch then treats `[` as a literal). -/
def clsBody : List Char → Option (List Char × List Char)
  | [] => none
  | ']' :: rest => some ([], rest)
  | c :: rest => (clsBody rest).map fun p => (c :: p.1, p.2)

/-- Parse the class content into items (`a-b` ranges, else singles). -/
def clsItems : List Char → List ClsItem
  | a :: '-' :: b :: rest => .range a b :: clsItems rest
  | c :: rest => .single c :: clsItems rest
  | [] => []

/-- Parse a full `[...]` class after the opening bracket, following
`fnmatch.translate`: a leading `!` negates, a leading `]` is literal
content. -/
def clsScan (cs : List Char) : Option (Bool × List ClsItem × List Char) :=
  let (neg, cs2) :=
    match cs with
    | '!' :: rest => (true, rest)
    | other => (false, other)
  match cs2 with
  | ']' :: rest3 =>
    (clsBody rest3).map fun p => (neg, clsItems (']' :: p.1), p.2)
  | other2 => (clsBody other2).map fun p => (neg, clsItems p.1, p.2)

/-- Tokenize a glob segment (with fuel equal to the segment length — each
step consumes at least one character, so the fuel never runs out).  The
literal token `FILEVERSION` becomes the version capturing group, mirroring
`fnmatch.translate(part).replace("FILEVERSION", "(?P<version>[0-9\\.]+)")`. -/
def tokSegGo : Nat → List Char → List Tok
  | 0, _ => []
  | _ + 1, [] => []
  | n + 1, 'F' :: 'I' :: 'L' :: 'E' :: 'V' :: 'E' :: 'R' :: 'S' :: 'I' ::
      'O' :: 'N' :: rest => .version :: tokSegGo n rest
  | n + 1, '*' :: rest => .star :: tokSegGo n rest
  | n + 1, '?' :: rest => .qmark :: tokSegGo n rest
  | n + 1, '[' :: rest =>
    match clsScan rest with
    | some (neg, items, rest2) => .cls neg items :: tokSegGo n rest2
    | none => .lit '[' :: tokSegGo n rest
  | n + 1, c :: rest => .lit c :: tokSegGo n rest

/-- Tokenize a glob segment. -/
def tokenizeSeg (cs : List Char) : List Tok :=
  tokSegGo cs.length cs

mutual

/-- Backtracking matcher for a tokenized segment against a name, with the
greedy semantics of the translated regex (`*` is `.*` under `(?s)`, the
version group is `[0-9\.]+`); returns the final value of the `version`
capture on success.  The fuel decreases on every call while the potential
`2·|tokens| + |chars|` decreases as well, so the fuel supplied by
`segMatch` (which exceeds that potential) can never run out. -/
def tokMatchF : Nat → List Tok → List Char → Option String →
    Option (Option String)
  | 0, _, _, _ => none
  | _ + 1, [], [], v => some v
  | _ + 1, [], _ :: _, _ => none
  | n + 1, .lit c :: ts, xs, v =>
    match xs with
    | [] => none
    | x :: rest => if x = c then tokMatchF n ts rest v else none
  | n + 1, .qmark :: ts, xs, v =>
    match xs with
    | [] => none
    | _ :: rest => tokMatchF n ts rest v
  | n + 1, .cls neg items :: ts, xs, v =>
    match xs with
    | [] => none
    | x :: rest =>
      if clsMatch neg items x then tokMatchF n ts rest v else none
  | n + 1, .star :: ts, xs, v =>
    match xs with
    | [] => tokMatchF n ts [] v
    | x :: rest =>
      match tokMatchF n (.star :: ts) rest v with
      | some r => some r
      | none => tokMatchF n ts (x :: rest) v
  | n + 1, .version :: ts, xs, v => verTryF n ts [] xs v

/-- The version group `[0-9\.]+`: consume a maximal nonempty run of
digits and dots, backtracking one character at a time; `consumed` holds
the so-far-consumed run reversed. -/
def verTryF : Nat → List Tok → List Char → List Char → Option String →
    Option (Option String)
  | 0, _, _, _, _ => none
  | n + 1, ts, consumed, xs, v =>
    match xs with
    | [] =>
      match consumed with
      | [] => none
      | _ :: _ => tokMatchF n ts [] (some (String.mk consumed.reverse))
    | x :: rest =>
      if x.isDigit || x = '.' then
        match verTryF n ts (x :: consumed) rest v with
        | some r => some r
        | none =>
          match consumed with
          | [] => none
          | _ :: _ =>
            tokMatchF n ts (x :: rest) (some (String.mk consumed.reverse))
      else
        match consumed with
        | [] => none
        | _ :: _ =>
          tokMatchF n ts (x :: rest) (some (String.mk consumed.reverse))

end

/-- Match a tokenized segment against a name (`regex[0].match(name)` for
the translated, end-anchored pattern): `none` = no match, `some cap` =
match with `cap` the captured version group (if the pattern has one and
it matched). -/
def segMatch (toks : List Tok) (cs : List Char) : Option (Option String) :=
  tokMatchF (2 * toks.length + cs.length + 2) toks cs none

/-- One compiled pattern segment: structural `.` / `..`, or a glob. -/
inductive MSeg where
  | dot
  | dotdot
  | pat (toks : List Tok)
  deriving Repr

/-- Compile one `/`-separated pattern part (`applymeta`). -/
def compileSeg (cs : List Char) : MSeg :=
  if cs = ['.'] then .dot
  else if cs = ['.', '.'] then .dotdot
  else .pat (tokenizeSeg cs)

/-- Compile one comma-alternative of a rule pattern. -/
def compilePattern (p : List Char) : List MSeg :=
  (pySplitChar '/' p).map compileSeg

/-- Python `metadata["type"] = metatype` on a record (`Node.addmeta`). -/
def recSetType (t : String) (rec : MetaRec) : MetaRec :=
  if (dictGet "type" rec).isSome then
    rec.map fun kv => if kv.1 = "type" then (kv.1, t) else kv
  else rec ++ [("type", t)]

/-- `self.meta.setdefault(metatype, set()).add(frozenset(...))`.  Records
produced by one code path share their key order, so list equality stands
in for frozenset equality. -/
def metaAdd (metatype : String) (rec2 : MetaRec) : Meta → Meta
  | [] => [(metatype, [rec2])]
  | (k, rs) :: rest =>
    if k = metatype then (k, if rec2 ∈ rs then rs else rs ++ [rec2]) :: rest
    else (k, rs) :: metaAdd metatype rec2 rest

/-- `UpdateMetaAction.addmeta(node, meta, values)`:
`for entry in values: node.addmeta(entry.get("type", ""), entry)`. -/
def addmetaVals (vals : List MetaRec) (m : Meta) : Meta :=
  vals.foldl
    (fun acc rec =>
      metaAdd ((dictGet "type" rec).getD "")
        (recSetType ((dictGet "type" rec).getD "") rec) acc) m

/-- Apply `addmetaVals` to a node's `meta` dict. -/
def nodeAddMetaVals (vals : List MetaRec) : FNode → FNode
  | .sym n pl m t => .sym n pl (addmetaVals vals m) t
  | .file n pl m sz ts ck => .file n pl (addmetaVals vals m) sz ts ck
  | .dir n pl m ig ch => .dir n pl (addmetaVals vals m) ig ch

/-- `_MetaInfo.apply_version(version)`: one `provides` record per
`autoname` entry carrying the captured version.  (With an empty
`autoname` the Python method returns `None` and the caller crashes on
iterating it; the model returns the empty list, and the theorems about
auto-provides assume a nonempty `autoname`.) -/
def applyVersionRecs (autoname : List String) (version : String) :
    List MetaRec :=
  autoname.map fun nm =>
    [("type", "provides"), ("name", nm), ("version", version)]

/-- The metadata attached to a matched node: the rule's static records,
then — when a version was captured — the auto-`provides` records. -/
def attachFn (sm : List MetaRec) (an : List String) (v2 : Option String)
    (nd : FNode) : FNode :=
  match v2 with
  | some v => nodeAddMetaVals (applyVersionRecs an v) (nodeAddMetaVals sm nd)
  | none => nodeAddMetaVals sm nd

/-- `UpdateMetaAction._applymeta_walk(node, regex, meta, _version)` as a
transformation of the whole tree, with the walk position threaded as a
path.  Leading `.`/`..` segments adjust the position (`..` stays at the
root); an exhausted segment list attaches the rule's metadata at the
position; a glob segment is matched against the children (in sorted name
order, i.e. canonical list order), attaching at matched leaves of the
pattern and recursing into matched directories, threading both the
updated tree and the `_version` variable. -/
def applymetaGo (sm : List MetaRec) (an : List String) :
    List MSeg → FNode → List String → Option String → FNode
  | [], root, pos, _ => modifyAt (nodeAddMetaVals sm) pos root
  | .dot :: rest, root, pos, ver => applymetaGo sm an rest root pos ver
  | .dotdot :: rest, root, pos, ver =>
    applymetaGo sm an rest root pos.dropLast ver
  | .pat toks :: rest, root, pos, ver =>
    let names : List String :=
      match getNode pos root with
      | some (.dir _ _ _ _ ch) => ch.map FNode.name
      | _ => []
    (names.foldl
      (fun st name =>
        match segMatch toks name.toList with
        | none => st
        | some cap =>
          let v2 := match cap with
            | some v => some v
            | none => st.2
          match rest with
          | [] => (modifyAt (attachFn sm an v2) (pos ++ [name]) st.1, v2)
          | _ :: _ =>
            match getNode (pos ++ [name]) st.1 with
            | some (.dir _ _ _ _ _) =>
              (applymetaGo sm an rest st.1 (pos ++ [name]) v2, v2)
            | _ => (st.1, v2))
      (root, ver)).1

/-- The child loop of `_applymeta_walk` when the glob segment is the last
one (`len(regex) == 1`): attach at every matching child. -/
def attachStep (sm : List MetaRec) (an : List String) (toks : List Tok)
    (pos : List String) (st : FNode × Option String) (name : String) :
    FNode × Option String :=
  match segMatch toks name.toList with
  | none => st
  | some cap =>
    let v2 := match cap with
      | some v => some v
      | none => st.2
    (modifyAt (attachFn sm an v2) (pos ++ [name]) st.1, v2)

/-- `applymeta` for a single rule whose target resolved to `parentPos`:
split the pattern on commas, compile each alternative and walk it. -/
def applymetaOneRule (root : FNode) (parentPos : List String)
    (patternStr : String) (sm : List MetaRec) (an : List String) : FNode :=
  (pySplitChar ',' patternStr.toList).foldl
    (fun r pat => applymetaGo sm an (compilePattern pat) r parentPos none)
    root

/-- The segment loop of `UpdateMetaAction.find_target`: empty and `.`
segments are skipped, `..` moves to the parent — falling through to
`return None` at the root —, and any other segment steps into the named
child directory, failing when it is missing or not a directory. -/
def findTargetGo (root : FNode) : List String → List String →
    Option (List String)
  | pos, [] => some pos
  | pos, part :: rest =>
    if part = "" then findTargetGo root pos rest
    else if part = "." then findTargetGo root pos rest
    else if part = ".." then
      match pos with
      | [] => none
      | _ :: _ => findTargetGo root pos.dropLast rest
    else
      match getNode (pos ++ [part]) root with
      | some (.dir _ _ _ _ _) => findTargetGo root (pos ++ [part]) rest
      | _ => none

/-- `UpdateMetaAction.find_target(meta)`: split the stripped target on
`/`; a leading empty part starts the walk at the tree root, otherwise it
starts at the defining file's parent directory `sourceParent`. -/
def findTarget (root : FNode) (sourceParent : List String)
    (target : String) : Option (List String) :=
  match (pySplitChar '/' (pyStrip target.toList)).map
      (fun cs => String.mk cs) with
  | [] => some sourceParent
  | p0 :: rest =>
    if p0 = "" then findTargetGo root [] rest
    else findTargetGo root sourceParent (p0 :: rest)

/-- Specification-side resolution relation for the (amended) target
walk: `SegResolve root pos parts out` holds when walking `parts` from
position `pos` succeeds with final position `out`. -/
inductive SegResolve (root : FNode) : List String → List String →
    List String → Prop where
  | done (pos : List String) : SegResolve root pos [] pos
  | blank (pos : List String) (part : String) (rest out : List String)
      (h0 : part = "") (h : SegResolve root pos rest out) :
      SegResolve root pos (part :: rest) out
  | dot (pos : List String) (part : String) (rest out : List String)
      (h0 : part = ".") (h : SegResolve root pos rest out) :
      SegResolve root pos (part :: rest) out
  | up (pos : List String) (part : String) (rest out : List String)
      (h0 : part = "..") (hne : pos ≠ [])
      (h : SegResolve root pos.dropLast rest out) :
      SegResolve root pos (part :: rest) out
  | descend (pos : List String) (part : String) (rest out : List String)
      (h0 : part ≠ "") (h1 : part ≠ ".") (h2 : part ≠ "..")
      (dn : String) (pl : List String) (m : Meta) (ig : List String)
      (ch : List FNode)
      (hdir : getNode (pos ++ [part]) root = some (.dir dn pl m ig ch))
      (h : SegResolve root (pos ++ [part]) rest out) :
      SegResolve root pos (part :: rest) out

/-- A one-file collection whose file name has a non-numeric string in the
placeholder position of the pattern `pkg-FILEVERSION.txt`. -/
def abcTree : FNode :=
  .dir "" [] [] [] [.file "pkg-abc.txt" ["pkg-abc.txt"] [] 1 2 "x"]

/-- A one-file collection whose file name carries the dotted-numeric
version `1.2` in the placeholder position. -/
def numTree : FNode :=
  .dir "" [] [] [] [.file "pkg-1.2.txt" ["pkg-1.2.txt"] [] 1 2 "x"]

/-! ### XML persistence (`collection.py` load/save)

An XML element carries a tag, an attribute dict and a list of child
elements (text content is never read back by `Collection.load`, so it is
not modelled).  `Node.save` first emits the node's metadata as `meta`
child elements (`_savemeta`), then `_save` sets the attributes and, for
directories, appends one child element per child node in sorted name
order (canonical list order).  `Collection.save` wraps the root in a
`collection` element carrying the `root` attribute.  Loading mirrors
`Node.load` = `_load` + `_loadmeta`: the known child tags `symlink` /
`directory` / `file` are dispatched, everything else is skipped, and
`_loadmeta` collects the `meta` children.  Where Python would build a
node with a `None` name / target / checksum (a hand-written document
missing the attribute) the `String`-typed model returns `none`; on
documents produced by `save` the attributes are always present, so the
modelled and actual behaviour agree there.  `int()` failures on the
`size` / `timestamp` attributes (a `ValueError` in Python) are also
`none`.
-/

/-- An XML element. -/
inductive Xml where
  | elem (tag : String) (attrs : List (String × String))
      (children : List Xml)

/-- The element's tag. -/
def Xml.tag : Xml → String
  | .elem t _ _ => t

/-- Decimal digit character. -/
def digitChar : Nat → Char
  | 0 => '0' | 1 => '1' | 2 => '2' | 3 => '3' | 4 => '4'
  | 5 => '5' | 6 => '6' | 7 => '7' | 8 => '8' | _ => '9'

/-- Decimal representation of a natural number (most significant digit
first), as produced by Python `str()`. -/
def natRepr (n : Nat) : List Char :=
  if h : n < 10 then [digitChar n]
  else natRepr (n / 10) ++ [digitChar (n % 10)]
  decreasing_by exact Nat.div_lt_self (by omega) (by omega)

/-- Python `str()` of an `int`. -/
def intRepr (z : Int) : List Char :=
  if z < 0 then '-' :: natRepr z.natAbs else natRepr z.toNat

/-- Python `",".join(parts)`. -/
def joinCommaChars : List (List Char) → List Char
  | [] => []
  | [x] => x
  | x :: y :: rest => x ++ ',' :: joinCommaChars (y :: rest)

/-- `Directory._load`'s ignore-pattern parse:
`for pattern in xml.get("ignore", "").split(","): if pattern: append`. -/
def loadIgnoreChars (cs : List Char) : List String :=
  ((pySplitChar ',' cs).filter (fun p => !p.isEmpty)).map
    (fun p => String.mk p)

/-- `Node._loadmeta`'s loop body over the element's children, threading
the `self.meta` dict: every `meta`-tagged child contributes one record
under its `type` attribute (default `""`). -/
def loadMetaAux : List Xml → Meta → Meta
  | [], acc => acc
  | .elem tag attrs _ :: rest, acc =>
    loadMetaAux rest
      (if tag = "meta" then
        metaAdd ((dictGet "type" attrs).getD "") attrs acc
      else acc)

/-- `Node._loadmeta`. -/
def loadMeta (kids : List Xml) : Meta := loadMetaAux kids []

/-- `Node._savemeta`: one `meta` element per record, iterating the meta
dict in sorted key order (canonical list order) and each record set in
canonical list order; the record itself is the element's attribute
dict. -/
def saveMeta : Meta → List Xml
  | [] => []
  | (_, rs) :: rest =>
    rs.map (fun rec => Xml.elem "meta" rec []) ++ saveMeta rest

/-- The XML tag a parent uses for a child node (`Directory._save`'s
isinstance dispatch). -/
def tagOf : FNode → String
  | .sym _ _ _ _ => "symlink"
  | .file _ _ _ _ _ _ => "file"
  | .dir _ _ _ _ _ => "directory"

/-- The attributes `_save` sets for one (non-root) node. -/
def nodeAttrs : FNode → List (String × String)
  | .sym n _ _ t => [("name", n), ("target", t)]
  | .file n _ _ sz ts ck =>
    [("name", n), ("size", String.mk (intRepr sz)),
     ("timestamp", String.mk (intRepr ts)), ("checksum", ck)]
  | .dir n _ _ ig _ =>
    ("name", n) ::
      (if ig = [] then []
       else [("ignore", String.mk (joinCommaChars (ig.map String.toList)))])

mutual

/-- `Node.save` for a non-root node: metadata elements first
(`_savemeta`), then the attributes and, for a directory, the child
elements appended by `_save`. -/
def saveNode : FNode → Xml
  | .sym n pl m t =>
    .elem "symlink" (nodeAttrs (.sym n pl m t)) (saveMeta m)
  | .file n pl m sz ts ck =>
    .elem "file" (nodeAttrs (.file n pl m sz ts ck)) (saveMeta m)
  | .dir n pl m ig chl =>
    .elem "directory" (nodeAttrs (.dir n pl m ig chl))
      (saveMeta m ++ saveList chl)

/-- `Directory._save`'s child loop in sorted name order. -/
def saveList : List FNode → List Xml
  | [] => []
  | c :: cs => saveNode c :: saveList cs

end

/-- The child elements `_save` appends (none for non-directories). -/
def saveKids : FNode → List Xml
  | .dir _ _ _ _ chl => saveList chl
  | _ => []

/-- `Collection.save`: the `collection` element with the `root`
attribute (`"."` when `autoroot` is falsy), the root's ignore attribute,
its metadata elements and its children.  (`os.sep` / `/` replacement is
the identity in the path model.) -/
def saveCollection (autoroot : String) (root : FNode) : Xml :=
  .elem "collection"
    (("root", if autoroot = "" then "." else autoroot) ::
      (match root with
       | .dir _ _ _ ig _ =>
         if ig = [] then []
         else [("ignore", String.mk (joinCommaChars (ig.map String.toList)))]
       | _ => []))
    (saveMeta root.meta ++ saveKids root)

/-- Python `parent.children[name] = node` in `Node.__init__`: a dict
assignment keeps an existing key's position and otherwise appends. -/
def upsertChild (c : FNode) : List FNode → List FNode
  | [] => [c]
  | d :: ds => if d.name = c.name then c :: ds else d :: upsertChild c ds

/-- The child tags `Directory._load` dispatches on. -/
def isNodeTag (tag : String) : Bool :=
  tag = "symlink" || tag = "directory" || tag = "file"

mutual

/-- `Node.load` (`_load` + `_loadmeta`) for a non-root element, given
the parent's pathlist `ppl`.  Missing `name` / `target` / `checksum`
attributes, which Python turns into `None`-valued fields, and `int()`
failures on `size` / `timestamp` are modelled as `none`. -/
def loadNode (ppl : List String) : Xml → Option FNode
  | .elem tag attrs kids =>
    if tag = "symlink" then
      match dictGet "name" attrs, dictGet "target" attrs with
      | some n, some t =>
        some (.sym n (ppl ++ [n]) (loadMeta kids) t)
      | _, _ => none
    else if tag = "file" then
      match dictGet "name" attrs, dictGet "checksum" attrs with
      | some n, some ck =>
        match pyInt ((dictGet "size" attrs).getD "-1"),
            pyInt ((dictGet "timestamp" attrs).getD "-1") with
        | some sz, some ts =>
          some (.file n (ppl ++ [n]) (loadMeta kids) sz ts ck)
        | _, _ => none
      | _, _ => none
    else if tag = "directory" then
      match dictGet "name" attrs with
      | some n =>
        match loadChildren (ppl ++ [n]) kids [] with
        | some chl =>
          some (.dir n (ppl ++ [n]) (loadMeta kids)
            (loadIgnoreChars ((dictGet "ignore" attrs).getD "").toList) chl)
        | none => none
      | none => none
    else none

/-- `Directory._load`'s child loop: dispatch the three node tags, skip
everything else, insert into the children dict. -/
def loadChildren (ppl : List String) : List Xml → List FNode →
    Option (List FNode)
  | [], acc => some acc
  | x :: rest, acc =>
    if isNodeTag x.tag then
      match loadNode ppl x with
      | some c => loadChildren ppl rest (upsertChild c acc)
      | none => none
    else loadChildren ppl rest acc

end

/-- `Collection.load`: `None` unless the document element is
`collection`; the `root` attribute defaults to `"."`; the root node is a
`RootDirectory` (name `None`, modelled `""`, empty pathlist). -/
def loadCollection : Xml → Option (String × FNode)
  | .elem tag attrs kids =>
    if tag = "collection" then
      match loadChildren [] kids [] with
      | some chl =>
        some ((dictGet "root" attrs).getD ".",
          .dir "" [] (loadMeta kids)
            (loadIgnoreChars ((dictGet "ignore" attrs).getD "").toList) chl)
      | none => none
    else none

/-- Key-order check against the next dict entry. -/
def keyLtHead (t : String) : Meta → Bool
  | [] => true
  | (t2, _) :: _ => strLt t t2

/-- Record-set distinctness (models frozensets in a Python set). -/
def nodupRecs : List MetaRec → Bool
  | [] => true
  | r :: rs => decide (r ∉ rs) && nodupRecs rs

/-- The shape a node's meta dict always has in a live collection: keys
sorted ascending (so canonical list order equals Python's
`sorted(self.meta)`), each key's record set nonempty and duplicate-free,
and every record's `type` attribute (default `""`) equal to the key it
is stored under (guaranteed by `Node.addmeta` / `_loadmeta`). -/
def metaWf : Meta → Bool
  | [] => true
  | (t, rs) :: rest =>
    !rs.isEmpty && nodupRecs rs &&
    rs.all (fun r => decide ((dictGet "type" r).getD "" = t)) &&
    keyLtHead t rest && metaWf rest

/-- Ignore patterns representable in the comma-joined `ignore`
attribute: nonempty and comma-free. -/
def igWf (ig : List String) : Bool :=
  ig.all fun p => decide (p.toList ≠ []) && decide (',' ∉ p.toList)

mutual

/-- Savability: every node's meta dict is canonical and every
directory's ignore patterns survive the comma join. -/
def saveWf : FNode → Bool
  | .sym _ _ m _ => metaWf m
  | .file _ _ m _ _ _ => metaWf m
  | .dir _ _ m ig chl => metaWf m && igWf ig && saveWfList chl

/-- Savability of a children list. -/
def saveWfList : List FNode → Bool
  | [] => true
  | c :: cs => saveWf c && saveWfList cs

end

/-! ### The update action (`action_update.py`)

The live filesystem under a directory is a canonical listing of entries
(`os.listdir` in sorted order): symlinks (`os.readlink` target), regular
files (`st_size`, `st_mtime` in whole seconds, and the MD5 hexdigest
`calc_checksum` would produce — never the empty string for a real file),
subdirectories with their own listings, and unsupported entry kinds
(sockets, fifos — skipped by the add loop).  `UpdateAction.run` on a
directory runs `handle_directory`: the delete loop (ignored children
removed with `IGNORED`, children whose filesystem path no longer exists
with their kind's `exists()` test removed with `DELETED`), the add loop
(unignored listing entries missing from the children dict added with
`ADDED`, symlinks with empty target, files with zero size/timestamp and
empty checksum, empty directories), and the update loop (symlink targets
re-read, files re-checksummed per the `handle_file` condition,
directories recursed into when `--recurse` is set); finally `run` sets
`collection.dirty = True` unconditionally.  `Directory.ignore` matches
the name against the directory's `ignore_patterns` and its `ignore`
metadata records with `fnmatch.fnmatch` (the POSIX `normcase` is the
identity).  The walk is fuelled by the filesystem depth; `updateDir`
supplies fuel exceeding the depth, so the out-of-fuel branch is
unreachable.
-/

/-- One live filesystem entry. -/
inductive FSEnt where
  | fsSym (name : String) (target : String)
  | fsFile (name : String) (size : Int) (mtime : Int) (digest : String)
  | fsDir (name : String) (entries : List FSEnt)
  | fsOther (name : String)

/-- The entry's name. -/
def fsName : FSEnt → String
  | .fsSym n _ => n
  | .fsFile n _ _ _ => n
  | .fsDir n _ => n
  | .fsOther n => n

/-- Find the directory entry with a given name. -/
def fsLookup (nm : String) : List FSEnt → Option FSEnt
  | [] => none
  | e :: rest => if fsName e = nm then some e else fsLookup nm rest

/-- `fnmatch.translate` for a plain glob (no placeholder rewriting). -/
def tokGlobGo : Nat → List Char → List Tok
  | 0, _ => []
  | _ + 1, [] => []
  | n + 1, '*' :: rest => .star :: tokGlobGo n rest
  | n + 1, '?' :: rest => .qmark :: tokGlobGo n rest
  | n + 1, '[' :: rest =>
    match clsScan rest with
    | some (neg, items, rest2) => .cls neg items :: tokGlobGo n rest2
    | none => .lit '[' :: tokGlobGo n rest
  | n + 1, c :: rest => .lit c :: tokGlobGo n rest

/-- Tokenize a plain glob pattern. -/
def tokenizeGlob (cs : List Char) : List Tok := tokGlobGo cs.length cs

/-- `fnmatch.fnmatch(name, pat)` on POSIX. -/
def fnmatchB (name pat : String) : Bool :=
  (segMatch (tokenizeGlob pat.toList) name.toList).isSome

/-- `Directory.ignore(name)`: the directory's `ignore_patterns`, then the
`pattern` attribute of its `ignore` metadata records. -/
def ignoreB (ig : List String) (m : Meta) (name : String) : Bool :=
  ig.any (fun p => fnmatchB name p) ||
  ((dictGet "ignore" m).getD []).any
    (fun rec => fnmatchB name ((dictGet "pattern" rec).getD ""))

/-- `child.exists()` against the live listing: the node's kind test
(`islink` / `isfile and not islink` / `isdir and not islink`) holds
exactly for the matching entry kind. -/
def existsB (es : List FSEnt) (c : FNode) : Bool :=
  match fsLookup c.name es, c with
  | some (.fsSym _ _), .sym _ _ _ _ => true
  | some (.fsFile _ _ _ _), .file _ _ _ _ _ _ => true
  | some (.fsDir _ _), .dir _ _ _ _ _ => true
  | _, _ => false

/-- The node the add loop creates for a listing entry (`none` for
unsupported kinds, which are skipped with `continue`). -/
def newNode (pl : List String) : FSEnt → Option FNode
  | .fsSym i _ => some (.sym i (pl ++ [i]) [] "")
  | .fsFile i _ _ _ => some (.file i (pl ++ [i]) [] 0 0 "")
  | .fsDir i _ => some (.dir i (pl ++ [i]) [] [] [])
  | .fsOther _ => none

/-- The delete loop of `handle_directory` over the children in sorted
(canonical list) order. -/
def updDelPhase (es : List FSEnt) (m : Meta) (ig : List String) :
    List FNode → List FNode × List Ev
  | [] => ([], [])
  | c :: cs =>
    let r := updDelPhase es m ig cs
    if ignoreB ig m c.name = true then (r.1, Ev.IGNORED :: r.2)
    else if existsB es c = false then (r.1, Ev.DELETED :: r.2)
    else (c :: r.1, r.2)

/-- The add loop of `handle_directory` over the sorted listing,
threading the children dict (`Node.__init__` inserts; the canonical
children list stays name-sorted via `childInsert`). -/
def updAddPhase (m : Meta) (ig : List String) (pl : List String) :
    List FSEnt → List FNode → List FNode × List Ev
  | [], chl => (chl, [])
  | e :: rest, chl =>
    if ignoreB ig m (fsName e) = false ∧
        (findChild (fsName e) chl).isSome = false then
      match newNode pl e with
      | some nd =>
        let r := updAddPhase m ig pl rest (childInsert nd chl)
        (r.1, Ev.ADDED :: r.2)
      | none => updAddPhase m ig pl rest chl
    else updAddPhase m ig pl rest chl

/-- `UpdateAction.handle_directory`, fuelled: the delete loop, the add
loop, then the update loop dispatching `handle_symlink` /
`handle_file` / recursive `handle_directory` (the latter only with the
recurse option).  The update loop's filesystem lookups cannot miss or
kind-mismatch after the first two loops; those unreachable branches
leave the child unchanged.  `handle_directory` is only invoked on
directory nodes; the fuel-exhausted and non-directory branches return
the node unchanged. -/
def updateDirF (recurse force : Bool) : Nat → List FSEnt → FNode →
    FNode × List Ev
  | 0, _, t => (t, [])
  | fuel + 1, es, .dir n pl m ig chl =>
    let p1 := updDelPhase es m ig chl
    let p2 := updAddPhase m ig pl es p1.1
    let step : FNode → FNode × List Ev := fun c =>
      match c with
      | .sym n2 pl2 m2 t2 =>
        match fsLookup n2 es with
        | some (.fsSym _ tgt) =>
          if tgt ≠ t2 then (.sym n2 pl2 m2 tgt, [Ev.SYMLINK])
          else (.sym n2 pl2 m2 t2, [])
        | _ => (.sym n2 pl2 m2 t2, [])
      | .file n2 pl2 m2 sz ts ck =>
        match fsLookup n2 es with
        | some (.fsFile _ s2 mt dg) =>
          let r := update_handle_file force sz ts ck ⟨s2, mt⟩ dg
          (.file n2 pl2 m2 r.1.1 r.1.2.1 r.1.2.2, r.2)
        | _ => (.file n2 pl2 m2 sz ts ck, [])
      | .dir n2 pl2 m2 ig2 chl2 =>
        if recurse = true then
          match fsLookup n2 es with
          | some (.fsDir _ sub) =>
            updateDirF recurse force fuel sub (.dir n2 pl2 m2 ig2 chl2)
          | _ => (.dir n2 pl2 m2 ig2 chl2, [])
        else (.dir n2 pl2 m2 ig2 chl2, [])
    let p3 := p2.1.foldl
      (fun acc c => (acc.1 ++ [(step c).1], acc.2 ++ (step c).2)) ([], [])
    (.dir n pl m ig p3.1, p1.2 ++ p2.2 ++ p3.2)
  | _ + 1, _, t => (t, [])

/-- The update loop's dispatch for one child (the `step` closure of
`updateDirF`, named for the proofs). -/
def updStep (recurse force : Bool) (fuel : Nat) (es : List FSEnt) :
    FNode → FNode × List Ev
  | .sym n2 pl2 m2 t2 =>
    match fsLookup n2 es with
    | some (.fsSym _ tgt) =>
      if tgt ≠ t2 then (.sym n2 pl2 m2 tgt, [Ev.SYMLINK])
      else (.sym n2 pl2 m2 t2, [])
    | _ => (.sym n2 pl2 m2 t2, [])
  | .file n2 pl2 m2 sz ts ck =>
    match fsLookup n2 es with
    | some (.fsFile _ s2 mt dg) =>
      let r := update_handle_file force sz ts ck ⟨s2, mt⟩ dg
      (.file n2 pl2 m2 r.1.1 r.1.2.1 r.1.2.2, r.2)
    | _ => (.file n2 pl2 m2 sz ts ck, [])
  | .dir n2 pl2 m2 ig2 chl2 =>
    if recurse = true then
      match fsLookup n2 es with
      | some (.fsDir _ sub) =>
        updateDirF recurse force fuel sub (.dir n2 pl2 m2 ig2 chl2)
      | _ => (.dir n2 pl2 m2 ig2 chl2, [])
    else (.dir n2 pl2 m2 ig2 chl2, [])

mutual

/-- Nesting depth of a listing. -/
def fsDepthList : List FSEnt → Nat
  | [] => 0
  | e :: rest => max (fsDepth e) (fsDepthList rest)

/-- Nesting depth of one entry. -/
def fsDepth : FSEnt → Nat
  | .fsDir _ es => 1 + fsDepthList es
  | _ => 0

end

/-- `UpdateAction.handle_directory` with sufficient fuel. -/
def updateDir (recurse force : Bool) (es : List FSEnt) (t : FNode) :
    FNode × List Ev :=
  updateDirF recurse force (fsDepthList es + 1) es t

/-- `UpdateAction.run` on a directory node: handle it, then set
`collection.dirty = True` unconditionally. -/
def runUpdate (recurse force : Bool) (es : List FSEnt) (t : FNode) :
    FNode × List Ev × Bool :=
  let r := updateDir recurse force es t
  (r.1, r.2, true)

mutual

/-- Realism of a live listing: sibling names are unique (as in any real
directory) and file digests are nonempty (an MD5 hexdigest is 32
characters). -/
def fsWfL : List FSEnt → Bool
  | [] => true
  | e :: rest =>
    fsWfE e && decide (fsName e ∉ rest.map fsName) && fsWfL rest

/-- Realism of one entry. -/
def fsWfE : FSEnt → Bool
  | .fsFile _ _ _ dg => decide (dg ≠ "")
  | .fsDir _ sub => fsWfL sub
  | _ => true

end

/-- A listing entry the add loop can represent (not an unsupported
kind). -/
def realEnt : FSEnt → Bool
  | .fsOther _ => false
  | _ => true

/-- The synchronised state `update` establishes: every child is
unignored and backed by the like-kinded listing entry of its name with
up-to-date fields (symlink targets equal; file size equal, timestamp
within the tolerance and checksum nonempty — exactly the complement of
the `handle_file` recompute condition with force unset; subdirectories
recursively synchronised when the recurse option is on), and every
representable unignored listing entry is present in the children
dict. -/
inductive Synced (recurse : Bool) : List FSEnt → FNode → Prop where
  | dir (es : List FSEnt) (n : String) (pl : List String) (m : Meta)
      (ig : List String) (chl : List FNode)
      (hIg : ∀ c ∈ chl, ignoreB ig m c.name = false)
      (hSym : ∀ c ∈ chl, ∀ n2 pl2 m2 t2, c = .sym n2 pl2 m2 t2 →
        ∃ fn, fsLookup n2 es = some (.fsSym fn t2))
      (hFile : ∀ c ∈ chl, ∀ n2 pl2 m2 sz ts ck,
        c = .file n2 pl2 m2 sz ts ck →
        ∃ fn s2 mt dg, fsLookup n2 es = some (.fsFile fn s2 mt dg) ∧
          ¬(|ts - mt| > TIMEDIFF) ∧ sz = s2 ∧ ck ≠ "")
      (hDir : ∀ c ∈ chl, ∀ n2 pl2 m2 ig2 chl2,
        c = .dir n2 pl2 m2 ig2 chl2 →
        ∃ fn sub, fsLookup n2 es = some (.fsDir fn sub))
      (hDirSync : ∀ c ∈ chl, ∀ n2 pl2 m2 ig2 chl2,
        c = .dir n2 pl2 m2 ig2 chl2 → ∀ fn sub,
        fsLookup n2 es = some (.fsDir fn sub) → recurse = true →
        Synced recurse sub (.dir n2 pl2 m2 ig2 chl2))
      (hCov : ∀ e ∈ es, realEnt e = true →
        ignoreB ig m (fsName e) = false →
        (findChild (fsName e) chl).isSome = true) :
      Synced recurse es (.dir n pl m ig chl)

/-- A small savable collection (metadata, ignore patterns, a nested
directory, a file and a symlink) used as the round-trip witness input. -/
def rtTree : FNode :=
  .dir "" [] [("tag", [[("type", "tag"), ("tag", "x")]])] ["*.tmp"]
    [.dir "a" ["a"] [] [] [.file "f" ["a", "f"] [] 5 7 "cc"],
     .sym "s" ["s"] [] "tgt"]

/-! ## Theorems -/

/-! ### C1: version comparison fails open, not closed -/

theorem checkdeps_compare_failed_of_parse_none (v1 v2 : String)
    (h : parseVersion v1 = none ∨ parseVersion v2 = none) :
    checkdeps_compare v1 v2 = .failed := by
  unfold checkdeps_compare
  rcases h with h | h
  · rw [h]
  · rw [h]
    cases parseVersion v1 <;> rfl

/-- C1 (counterexample): the claim says a provided version with a
non-numeric component never satisfies a bounded dependency.  In the code,
`_checkdeps_compare` returns `False` on the `ValueError`, and `False`
compares as `0` in the caller's `< 0` / `> 0` tests, so the version `"abc"`
is treated as in-bounds: the dependency on `"p"` with `minversion "1.0"`
is reported satisfied although its only provided version is non-numeric. -/
theorem checkdeps_find_nonnumeric_satisfies_counterexample :
    checkdeps_find "p" (some "1.0") (some "2.0") [("p", [some "abc"])] = true
      ∧ parseVersion "abc" = none := by
  constructor
  · rfl
  · rfl

/-- C1 (amended): the comparison fails open.  Whenever the index contains
the dependency's package name with some provided version string that does
not parse as a dotted numeric version, `_checkdeps_find` reports the
dependency satisfied, no matter which min/max bounds it declares. -/
theorem checkdeps_find_fails_open (pkgs : Packages) (name s : String)
    (minver maxver : Option String) (vs : List (Option String))
    (hl : dictGet name pkgs = some vs) (hv : some s ∈ vs)
    (hp : parseVersion s = none) :
    checkdeps_find name minver maxver pkgs = true := by
  unfold checkdeps_find
  rw [hl]
  cases hm : minver with
  | none =>
    cases hx : maxver with
    | none => rfl
    | some mx =>
      simp only [List.any_eq_true]
      refine ⟨some s, hv, ?_⟩
      show (true && !cmpGtZero (checkdeps_compare s mx)) = true
      rw [checkdeps_compare_failed_of_parse_none s mx (Or.inl hp)]
      rfl
  | some mn =>
    have hc : checkdeps_compare s mn = .failed :=
      checkdeps_compare_failed_of_parse_none s mn (Or.inl hp)
    cases hx : maxver with
    | none =>
      simp only [List.any_eq_true]
      refine ⟨some s, hv, ?_⟩
      show (!cmpLtZero (checkdeps_compare s mn) && true) = true
      rw [hc]
      rfl
    | some mx =>
      simp only [List.any_eq_true]
      refine ⟨some s, hv, ?_⟩
      show (!cmpLtZero (checkdeps_compare s mn)
        && !cmpGtZero (checkdeps_compare s mx)) = true
      rw [hc, checkdeps_compare_failed_of_parse_none s mx (Or.inl hp)]
      rfl

/-- Witness for `checkdeps_find_fails_open` at a concrete input. -/
theorem checkdeps_find_fails_open_witness :
    checkdeps_find "q" (some "3") none [("q", [none, some "1.x"])] = true :=
  checkdeps_find_fails_open [("q", [none, some "1.x"])] "q" "1.x"
    (some "3") none [none, some "1.x"] rfl (by decide) (by decide)

/-! ### C2: helper lemmas about the package index -/

theorem mem_setAdd (w v : Option String) (vs : List (Option String)) :
    (w ∈ if v ∈ vs then vs else vs ++ [v]) ↔ w = v ∨ w ∈ vs := by
  split
  · constructor
    · exact fun h => Or.inr h
    · rintro (rfl | h) <;> assumption
  · simp only [List.mem_append, List.mem_singleton]
    tauto

theorem lookup_pkgsAdd_isSome (nm n : String) (v : Option String)
    (P : Packages) :
    (dictGet nm (pkgsAdd n v P)).isSome ↔
      nm = n ∨ (dictGet nm P).isSome := by
  induction P with
  | nil =>
    by_cases h : nm = n <;> simp [pkgsAdd, dictGet, h]
  | cons p rest ih =>
    obtain ⟨k, vs⟩ := p
    simp only [pkgsAdd]
    by_cases hk : k = n
    · subst hk
      rw [if_pos rfl]
      by_cases h2 : nm = k <;> simp [dictGet, h2]
    · rw [if_neg hk]
      by_cases h2 : nm = k
      · subst h2
        simp [dictGet, hk]
      · simp [dictGet, h2, ih]

theorem mem_lookup_pkgsAdd (nm n : String) (v w : Option String)
    (P : Packages) :
    (∃ vs, dictGet nm (pkgsAdd n v P) = some vs ∧ w ∈ vs) ↔
      ((nm = n ∧ w = v) ∨
        ∃ vs, dictGet nm P = some vs ∧ w ∈ vs) := by
  induction P with
  | nil =>
    by_cases h : nm = n <;> simp [pkgsAdd, dictGet, h]
  | cons p rest ih =>
    obtain ⟨k, vs⟩ := p
    simp only [pkgsAdd]
    by_cases hk : k = n
    · subst hk
      rw [if_pos rfl]
      by_cases h2 : nm = k
      · subst h2
        simp only [dictGet, eq_self_iff_true, if_true, Option.some.injEq]
        constructor
        · rintro ⟨vs2, rfl, hw⟩
          rw [mem_setAdd] at hw
          rcases hw with rfl | hw
          · exact Or.inl ⟨trivial, rfl⟩
          · exact Or.inr ⟨vs, rfl, hw⟩
        · rintro (⟨-, rfl⟩ | ⟨vs2, rfl, hw⟩)
          · exact ⟨_, rfl, (mem_setAdd _ _ _).mpr (Or.inl rfl)⟩
          · exact ⟨_, rfl, (mem_setAdd _ _ _).mpr (Or.inr hw)⟩
      · simp [dictGet, h2]
    · rw [if_neg hk]
      by_cases h2 : nm = k
      · subst h2
        simp [dictGet, hk]
      · simp [dictGet, h2, ih]

theorem isSome_foldProv (recs : List MetaRec) (base : Packages)
    (nm : String) :
    (dictGet nm (recs.foldl provStep base)).isSome ↔
      (dictGet nm base).isSome ∨
        ∃ rec ∈ recs, provName rec = some nm := by
  induction recs generalizing base with
  | nil => simp
  | cons r rs ih =>
    rw [List.foldl_cons, ih]
    unfold provStep
    cases hr : provName r with
    | none => simp [hr]
    | some pn =>
      rw [lookup_pkgsAdd_isSome]
      simp only [List.mem_cons, hr]
      constructor
      · rintro ((rfl | h) | ⟨rec, hrec, hn⟩)
        · exact Or.inr ⟨r, Or.inl rfl, hr⟩
        · exact Or.inl h
        · exact Or.inr ⟨rec, Or.inr hrec, hn⟩
      · rintro (h | ⟨rec, (rfl | hrec), hn⟩)
        · exact Or.inl (Or.inr h)
        · rw [hr] at hn
          exact Or.inl (Or.inl (Option.some_injective _ hn).symm)
        · exact Or.inr ⟨rec, hrec, hn⟩

theorem mem_foldProv (recs : List MetaRec) (base : Packages) (nm : String)
    (w : Option String) :
    (∃ vs, dictGet nm (recs.foldl provStep base) = some vs ∧ w ∈ vs) ↔
      (∃ vs, dictGet nm base = some vs ∧ w ∈ vs) ∨
        ∃ rec ∈ recs, provName rec = some nm ∧ provVersion rec = w := by
  induction recs generalizing base with
  | nil => simp
  | cons r rs ih =>
    rw [List.foldl_cons, ih]
    unfold provStep
    cases hr : provName r with
    | none => simp [hr]
    | some pn =>
      rw [mem_lookup_pkgsAdd]
      simp only [List.mem_cons, hr]
      constructor
      · rintro ((⟨rfl, rfl⟩ | h) | ⟨rec, hrec, hn, hv⟩)
        · exact Or.inr ⟨r, Or.inl rfl, hr, rfl⟩
        · exact Or.inl h
        · exact Or.inr ⟨rec, Or.inr hrec, hn, hv⟩
      · rintro (h | ⟨rec, (rfl | hrec), hn, hv⟩)
        · exact Or.inl (Or.inr h)
        · rw [hr] at hn
          exact Or.inl (Or.inl ⟨(Option.some_injective _ hn).symm, hv.symm⟩)
        · exact Or.inr ⟨rec, hrec, hn, hv⟩

theorem cmpLtZero_eq_true_iff (x : PyCmp) : cmpLtZero x = true ↔ x = .lt := by
  cases x <;> simp [cmpLtZero]

theorem cmpGtZero_eq_true_iff (x : PyCmp) : cmpGtZero x = true ↔ x = .gt := by
  cases x <;> simp [cmpGtZero]

/-! ### C2: helper lemmas about tree membership -/

theorem nodeIn_sym_iff {n : FNode} {nm : String} {pl : List String}
    {m : Meta} {tg : String} :
    NodeIn n (.sym nm pl m tg) ↔ n = .sym nm pl m tg := by
  constructor
  · intro h
    cases h
    rfl
  · rintro rfl
    exact .refl _

theorem nodeIn_file_iff {n : FNode} {nm : String} {pl : List String}
    {m : Meta} {sz ts : Int} {ck : String} :
    NodeIn n (.file nm pl m sz ts ck) ↔ n = .file nm pl m sz ts ck := by
  constructor
  · intro h
    cases h
    rfl
  · rintro rfl
    exact .refl _

theorem nodeIn_dir_iff {n : FNode} {nm : String} {pl : List String}
    {m : Meta} {ig : List String} {ch : List FNode} :
    NodeIn n (.dir nm pl m ig ch) ↔
      n = .dir nm pl m ig ch ∨ ∃ c ∈ ch, NodeIn n c := by
  constructor
  · intro h
    cases h with
    | refl => exact Or.inl rfl
    | deeper hc h => exact Or.inr ⟨_, hc, h⟩
  · rintro (rfl | ⟨c, hc, h⟩)
    · exact .refl _
    · exact .deeper hc h

theorem providesIn_sym_iff {nm : String} {pl : List String} {m : Meta}
    {tg : String} {pk : String} {v : Option String} :
    ProvidesIn (.sym nm pl m tg) pk v ↔ OwnProvides (.sym nm pl m tg) pk v := by
  unfold ProvidesIn
  simp [nodeIn_sym_iff]

theorem providesIn_file_iff {nm : String} {pl : List String} {m : Meta}
    {sz ts : Int} {ck : String} {pk : String} {v : Option String} :
    ProvidesIn (.file nm pl m sz ts ck) pk v ↔
      OwnProvides (.file nm pl m sz ts ck) pk v := by
  unfold ProvidesIn
  simp [nodeIn_file_iff]

theorem providesIn_dir_iff {nm : String} {pl : List String} {m : Meta}
    {ig : List String} {ch : List FNode} {pk : String} {v : Option String} :
    ProvidesIn (.dir nm pl m ig ch) pk v ↔
      OwnProvides (.dir nm pl m ig ch) pk v ∨ ∃ c ∈ ch, ProvidesIn c pk v := by
  unfold ProvidesIn
  constructor
  · rintro ⟨n, hn, hp⟩
    rw [nodeIn_dir_iff] at hn
    rcases hn with rfl | ⟨c, hc, hn⟩
    · exact Or.inl hp
    · exact Or.inr ⟨c, hc, n, hn, hp⟩
  · rintro (hp | ⟨c, hc, n, hn, hp⟩)
    · exact ⟨_, .refl _, hp⟩
    · exact ⟨n, .deeper hc hn, hp⟩

/-! ### C2: the package index collected over a tree -/

mutual

theorem isSome_collectNode (t : FNode) (pkgs : Packages) (nm : String) :
    (dictGet nm (collectNode t pkgs)).isSome ↔
      (dictGet nm pkgs).isSome ∨ ∃ v, ProvidesIn t nm v := by
  cases t with
  | sym a pl m tg =>
    show (dictGet nm (collectMeta (.sym a pl m tg) pkgs)).isSome ↔ _
    unfold collectMeta
    rw [isSome_foldProv]
    simp only [providesIn_sym_iff]
    unfold OwnProvides
    constructor
    · rintro (h | ⟨rec, hrec, hn⟩)
      · exact Or.inl h
      · exact Or.inr ⟨provVersion rec, rec, hrec, hn, rfl⟩
    · rintro (h | ⟨v, rec, hrec, hn, hv⟩)
      · exact Or.inl h
      · exact Or.inr ⟨rec, hrec, hn⟩
  | file a pl m sz ts ck =>
    show (dictGet nm (collectMeta (.file a pl m sz ts ck) pkgs)).isSome ↔ _
    unfold collectMeta
    rw [isSome_foldProv]
    simp only [providesIn_file_iff]
    unfold OwnProvides
    constructor
    · rintro (h | ⟨rec, hrec, hn⟩)
      · exact Or.inl h
      · exact Or.inr ⟨provVersion rec, rec, hrec, hn, rfl⟩
    · rintro (h | ⟨v, rec, hrec, hn, hv⟩)
      · exact Or.inl h
      · exact Or.inr ⟨rec, hrec, hn⟩
  | dir dn pl m ig ch =>
    show (dictGet nm
      (collectList ch (collectMeta (.dir dn pl m ig ch) pkgs))).isSome ↔ _
    rw [isSome_collectList ch (collectMeta (.dir dn pl m ig ch) pkgs) nm]
    unfold collectMeta
    rw [isSome_foldProv]
    simp only [providesIn_dir_iff]
    unfold OwnProvides
    constructor
    · rintro ((h | ⟨rec, hrec, hn⟩) | ⟨c, hc, v, hp⟩)
      · exact Or.inl h
      · exact Or.inr ⟨provVersion rec, Or.inl ⟨rec, hrec, hn, rfl⟩⟩
      · exact Or.inr ⟨v, Or.inr ⟨c, hc, hp⟩⟩
    · rintro (h | ⟨v, ⟨rec, hrec, hn, hv⟩ | ⟨c, hc, hp⟩⟩)
      · exact Or.inl (Or.inl h)
      · exact Or.inl (Or.inr ⟨rec, hrec, hn⟩)
      · exact Or.inr ⟨c, hc, v, hp⟩

theorem isSome_collectList (cs : List FNode) (pkgs : Packages) (nm : String) :
    (dictGet nm (collectList cs pkgs)).isSome ↔
      (dictGet nm pkgs).isSome ∨ ∃ c ∈ cs, ∃ v, ProvidesIn c nm v := by
  cases cs with
  | nil => simp [collectList]
  | cons c rest =>
    show (dictGet nm (collectList rest (collectNode c pkgs))).isSome ↔ _
    rw [isSome_collectList rest (collectNode c pkgs) nm,
      isSome_collectNode c pkgs nm]
    simp only [List.mem_cons]
    constructor
    · rintro ((h | ⟨v, hp⟩) | ⟨d, hd, v, hp⟩)
      · exact Or.inl h
      · exact Or.inr ⟨c, Or.inl rfl, v, hp⟩
      · exact Or.inr ⟨d, Or.inr hd, v, hp⟩
    · rintro (h | ⟨d, rfl | hd, v, hp⟩)
      · exact Or.inl (Or.inl h)
      · exact Or.inl (Or.inr ⟨v, hp⟩)
      · exact Or.inr ⟨d, hd, v, hp⟩

end

mutual

theorem mem_collectNode (t : FNode) (pkgs : Packages) (nm : String)
    (w : Option String) :
    (∃ vs, dictGet nm (collectNode t pkgs) = some vs ∧ w ∈ vs) ↔
      (∃ vs, dictGet nm pkgs = some vs ∧ w ∈ vs) ∨ ProvidesIn t nm w := by
  cases t with
  | sym a pl m tg =>
    show (∃ vs, dictGet nm (collectMeta (.sym a pl m tg) pkgs) = some vs
      ∧ w ∈ vs) ↔ _
    unfold collectMeta
    rw [mem_foldProv]
    rw [providesIn_sym_iff]
    unfold OwnProvides
    apply or_congr Iff.rfl
    constructor
    · rintro ⟨rec, hrec, hn, hv⟩
      exact ⟨rec, hrec, hn, hv⟩
    · rintro ⟨rec, hrec, hn, hv⟩
      exact ⟨rec, hrec, hn, hv⟩
  | file a pl m sz ts ck =>
    show (∃ vs, dictGet nm (collectMeta (.file a pl m sz ts ck) pkgs) = some vs
      ∧ w ∈ vs) ↔ _
    unfold collectMeta
    rw [mem_foldProv]
    rw [providesIn_file_iff]
    unfold OwnProvides
    apply or_congr Iff.rfl
    constructor
    · rintro ⟨rec, hrec, hn, hv⟩
      exact ⟨rec, hrec, hn, hv⟩
    · rintro ⟨rec, hrec, hn, hv⟩
      exact ⟨rec, hrec, hn, hv⟩
  | dir dn pl m ig ch =>
    show (∃ vs, dictGet nm
      (collectList ch (collectMeta (.dir dn pl m ig ch) pkgs)) = some vs
      ∧ w ∈ vs) ↔ _
    rw [mem_collectList ch (collectMeta (.dir dn pl m ig ch) pkgs) nm w]
    unfold collectMeta
    rw [mem_foldProv]
    rw [providesIn_dir_iff]
    unfold OwnProvides
    constructor
    · rintro ((h | ⟨rec, hrec, hn⟩) | ⟨c, hc, hp⟩)
      · exact Or.inl h
      · exact Or.inr (Or.inl ⟨rec, hrec, hn⟩)
      · exact Or.inr (Or.inr ⟨c, hc, hp⟩)
    · rintro (h | ⟨rec, hrec, hn⟩ | ⟨c, hc, hp⟩)
      · exact Or.inl (Or.inl h)
      · exact Or.inl (Or.inr ⟨rec, hrec, hn⟩)
      · exact Or.inr ⟨c, hc, hp⟩

theorem mem_collectList (cs : List FNode) (pkgs : Packages) (nm : String)
    (w : Option String) :
    (∃ vs, dictGet nm (collectList cs pkgs) = some vs ∧ w ∈ vs) ↔
      (∃ vs, dictGet nm pkgs = some vs ∧ w ∈ vs) ∨
        ∃ c ∈ cs, ProvidesIn c nm w := by
  cases cs with
  | nil => simp [collectList]
  | cons c rest =>
    show (∃ vs, dictGet nm (collectList rest (collectNode c pkgs)) = some vs
      ∧ w ∈ vs) ↔ _
    rw [mem_collectList rest (collectNode c pkgs) nm w,
      mem_collectNode c pkgs nm w]
    simp only [List.mem_cons]
    constructor
    · rintro ((h | hp) | ⟨d, hd, hp⟩)
      · exact Or.inl h
      · exact Or.inr ⟨c, Or.inl rfl, hp⟩
      · exact Or.inr ⟨d, Or.inr hd, hp⟩
    · rintro (h | ⟨d, rfl | hd, hp⟩)
      · exact Or.inl (Or.inl h)
      · exact Or.inl (Or.inr hp)
      · exact Or.inr ⟨d, hd, hp⟩

end

/-! ### C2: the satisfaction test unfolded -/

theorem versionOkB_iff (minv maxv : Option String) (s : String) :
    versionOkB minv maxv s = true ↔ passesBounds minv maxv s := by
  unfold versionOkB passesBounds
  rw [Bool.and_eq_true]
  apply and_congr
  · cases minv with
    | none => simp
    | some m =>
      simp only [Option.some.injEq, forall_eq']
      cases hx : checkdeps_compare s m <;> simp [cmpLtZero, hx]
  · cases maxv with
    | none => simp
    | some m =>
      simp only [Option.some.injEq, forall_eq']
      cases hx : checkdeps_compare s m <;> simp [cmpGtZero, hx]

theorem checkdeps_find_iff (nm : String) (minv maxv : Option String)
    (pkgs : Packages) :
    checkdeps_find nm minv maxv pkgs = true ↔
      (dictGet nm pkgs).isSome ∧
      ((minv = none ∧ maxv = none) ∨
       ∃ s, (∃ vs, dictGet nm pkgs = some vs ∧ some s ∈ vs) ∧
         passesBounds minv maxv s) := by
  unfold checkdeps_find
  cases hl : dictGet nm pkgs with
  | none => simp
  | some vs =>
    simp only [Option.isSome_some, true_and, Option.some.injEq]
    have hany : (vs.any fun v => match v with
        | none => false
        | some ver => versionOkB minv maxv ver) = true ↔
        ∃ s, (∃ vs2, vs = vs2 ∧ some s ∈ vs2) ∧ passesBounds minv maxv s := by
      rw [List.any_eq_true]
      constructor
      · rintro ⟨v, hv, hb⟩
        cases v with
        | none => exact absurd hb (by simp)
        | some s => exact ⟨s, ⟨vs, rfl, hv⟩, (versionOkB_iff _ _ _).mp hb⟩
      · rintro ⟨s, ⟨vs2, rfl, hv⟩, hp⟩
        exact ⟨some s, hv, (versionOkB_iff _ _ _).mpr hp⟩
    cases minv with
    | none =>
      cases maxv with
      | none => simp
      | some mx =>
        rw [hany]
        simp
    | some mn =>
      cases maxv with
      | none =>
        rw [hany]
        simp
      | some mx =>
        rw [hany]
        simp

/-! ### C2: the reports stream of the dependency walk -/

theorem mem_own_reports (t : FNode) (pkgs : Packages) (r : DepReport) :
    (r ∈ (nodeDepends t).filterMap fun d =>
        if checkdeps_find d.1 d.2.1 d.2.2 pkgs then none
        else some (t.plist, d)) ↔
      (t.plist = r.1 ∧ r.2 ∈ nodeDepends t ∧
        checkdeps_find r.2.1 r.2.2.1 r.2.2.2 pkgs = false) := by
  obtain ⟨r1, r2⟩ := r
  rw [List.mem_filterMap]
  constructor
  · rintro ⟨d, hd, hif⟩
    by_cases hf : checkdeps_find d.1 d.2.1 d.2.2 pkgs = true
    · rw [if_pos hf] at hif
      exact absurd hif (by simp)
    · rw [if_neg hf] at hif
      obtain ⟨h1, h2⟩ := Prod.mk.injEq .. ▸ (Option.some_injective _ hif)
      subst h1
      subst h2
      exact ⟨rfl, hd, by simpa using hf⟩
  · rintro ⟨h1, h2, h3⟩
    refine ⟨r2, h2, ?_⟩
    rw [if_neg (by simp [h3]), h1]

mutual

theorem mem_walkNode (t : FNode) (pkgs : Packages) (r : DepReport) :
    r ∈ (checkdepsWalkNode t pkgs).2 ↔
      ∃ n, NodeIn n t ∧ n.plist = r.1 ∧ r.2 ∈ nodeDepends n ∧
        checkdeps_find r.2.1 r.2.2.1 r.2.2.2 pkgs = false := by
  cases t with
  | sym a pl m tg =>
    rw [show (checkdepsWalkNode (.sym a pl m tg) pkgs).2 =
      ((nodeDepends (.sym a pl m tg)).filterMap fun d =>
        if checkdeps_find d.1 d.2.1 d.2.2 pkgs then none
        else some ((FNode.sym a pl m tg).plist, d)) from rfl]
    rw [mem_own_reports]
    constructor
    · rintro ⟨h1, h2, h3⟩
      exact ⟨.sym a pl m tg, .refl _, h1, h2, h3⟩
    · rintro ⟨n, hn, h1, h2, h3⟩
      rw [nodeIn_sym_iff] at hn
      subst hn
      exact ⟨h1, h2, h3⟩
  | file a pl m sz ts ck =>
    rw [show (checkdepsWalkNode (.file a pl m sz ts ck) pkgs).2 =
      ((nodeDepends (.file a pl m sz ts ck)).filterMap fun d =>
        if checkdeps_find d.1 d.2.1 d.2.2 pkgs then none
        else some ((FNode.file a pl m sz ts ck).plist, d)) from rfl]
    rw [mem_own_reports]
    constructor
    · rintro ⟨h1, h2, h3⟩
      exact ⟨.file a pl m sz ts ck, .refl _, h1, h2, h3⟩
    · rintro ⟨n, hn, h1, h2, h3⟩
      rw [nodeIn_file_iff] at hn
      subst hn
      exact ⟨h1, h2, h3⟩
  | dir dn pl m ig ch =>
    rw [show (checkdepsWalkNode (.dir dn pl m ig ch) pkgs).2 =
      ((nodeDepends (.dir dn pl m ig ch)).filterMap fun d =>
        if checkdeps_find d.1 d.2.1 d.2.2 pkgs then none
        else some ((FNode.dir dn pl m ig ch).plist, d)) ++
        (checkdepsWalkList ch pkgs).2 from rfl]
    rw [List.mem_append, mem_own_reports, mem_walkList ch pkgs r]
    constructor
    · rintro (⟨h1, h2, h3⟩ | ⟨c, hc, n, hn, h1, h2, h3⟩)
      · exact ⟨.dir dn pl m ig ch, .refl _, h1, h2, h3⟩
      · exact ⟨n, .deeper hc hn, h1, h2, h3⟩
    · rintro ⟨n, hn, h1, h2, h3⟩
      rw [nodeIn_dir_iff] at hn
      rcases hn with rfl | ⟨c, hc, hn⟩
      · exact Or.inl ⟨h1, h2, h3⟩
      · exact Or.inr ⟨c, hc, n, hn, h1, h2, h3⟩

theorem mem_walkList (cs : List FNode) (pkgs : Packages) (r : DepReport) :
    r ∈ (checkdepsWalkList cs pkgs).2 ↔
      ∃ c ∈ cs, ∃ n, NodeIn n c ∧ n.plist = r.1 ∧ r.2 ∈ nodeDepends n ∧
        checkdeps_find r.2.1 r.2.2.1 r.2.2.2 pkgs = false := by
  cases cs with
  | nil => simp [checkdepsWalkList]
  | cons c rest =>
    rw [show (checkdepsWalkList (c :: rest) pkgs).2 =
      (checkdepsWalkNode c pkgs).2 ++ (checkdepsWalkList rest pkgs).2
      from rfl]
    rw [List.mem_append, mem_walkNode c pkgs r, mem_walkList rest pkgs r]
    simp only [List.mem_cons]
    constructor
    · rintro (⟨n, hn, h⟩ | ⟨d, hd, n, hn, h⟩)
      · exact ⟨c, Or.inl rfl, n, hn, h⟩
      · exact ⟨d, Or.inr hd, n, hn, h⟩
    · rintro ⟨d, rfl | hd, n, hn, h⟩
      · exact Or.inl ⟨n, hn, h⟩
      · exact Or.inr ⟨d, hd, n, hn, h⟩

end

/-- C2 (amended): for every node `n` of the tree and every `depends`
record `(N, min, max)` attached to it, `checkmeta` reports the dependency
satisfied (emits no `DEPENDS` line for it) iff `N` appears in the index
built from all `provides` records of the whole tree, AND (both bounds are
absent, OR at least one indexed non-versionless version of `N` passes the
bound checks — where a dotted-numeric comparison that cannot be carried
out counts as in-bounds, i.e. the comparison fails open).  A versionless
provide still satisfies only a dependency with no bounds. -/
theorem checkmeta_satisfied_iff (t n : FNode) (hn : NodeIn n t)
    (d : DepTuple) (hd : d ∈ nodeDepends n) :
    (n.plist, d) ∉ (checkdeps t).2 ↔
      ((∃ v, ProvidesIn t d.1 v) ∧
       ((d.2.1 = none ∧ d.2.2 = none) ∨
        ∃ s, ProvidesIn t d.1 (some s) ∧ passesBounds d.2.1 d.2.2 s)) := by
  have hfind : checkdeps_find d.1 d.2.1 d.2.2 (collectNode t []) = true ↔
      ((∃ v, ProvidesIn t d.1 v) ∧
       ((d.2.1 = none ∧ d.2.2 = none) ∨
        ∃ s, ProvidesIn t d.1 (some s) ∧ passesBounds d.2.1 d.2.2 s)) := by
    rw [checkdeps_find_iff]
    apply and_congr
    · rw [isSome_collectNode t [] d.1]
      simp [dictGet]
    · apply or_congr Iff.rfl
      apply exists_congr
      intro s
      apply and_congr _ Iff.rfl
      rw [mem_collectNode t [] d.1 (some s)]
      simp [dictGet]
  unfold checkdeps
  rw [← hfind]
  constructor
  · intro h
    by_contra hc
    have hfalse : checkdeps_find d.1 d.2.1 d.2.2 (collectNode t []) = false :=
      by simpa using hc
    exact h ((mem_walkNode t (collectNode t []) (n.plist, d)).mpr
      ⟨n, hn, rfl, hd, hfalse⟩)
  · intro htrue hmem
    obtain ⟨m, hm, hpl, hdm, hfalse⟩ :=
      (mem_walkNode t (collectNode t []) (n.plist, d)).mp hmem
    rw [htrue] at hfalse
    exact absurd hfalse (by simp)

/-- C2 (counterexample): the claim requires an indexed version numerically
within `min ≤ v ≤ max` for the dependency to be reported satisfied.  In
`nonNumericTree` the only indexed version of `"p"` is the non-numeric
`"abc"` — not comparable under the dotted-numeric ordering — yet the
bounded dependency on `"p"` produces no `DEPENDS` report: `checkmeta`
treats it as satisfied. -/
theorem checkmeta_nonnumeric_counterexample :
    collectNode nonNumericTree [] = [("p", [some "abc"])] ∧
      nodeDepends nonNumericTree = [("p", some "1.0", some "2.0")] ∧
      parseVersion "abc" = none ∧
      (checkdeps nonNumericTree).2 = [] := by
  exact ⟨rfl, rfl, rfl, rfl⟩

/-- Witness for `checkmeta_satisfied_iff` at a concrete input: in
`numericTree` the bounded dependency on `"p"` is reported satisfied. -/
theorem checkmeta_satisfied_iff_witness :
    ([], ("p", some "1.0", some "2.0")) ∉ (checkdeps numericTree).2 := by
  have hrec : OwnProvides numericTree "p" (some "1.5") :=
    ⟨[("type", "provides"), ("name", "p"), ("version", "1.5")],
      by decide, rfl, rfl⟩
  exact (checkmeta_satisfied_iff numericTree numericTree (.refl _)
    ("p", some "1.0", some "2.0") (by decide)).mpr
    ⟨⟨some "1.5", numericTree, .refl _, hrec⟩,
     Or.inr ⟨"1.5", ⟨numericTree, .refl _, hrec⟩,
       ⟨fun m hm => by cases hm; decide, fun m hm => by cases hm; decide⟩⟩⟩

/-! ### C4: the checksum-skip policy of update -/

/-- C4: for a file whose live size equals the recorded size, whose live
mtime is within the tolerance of the recorded timestamp, and whose
recorded checksum is non-empty, `update` with the force flag unset does
not recompute the checksum and leaves the checksum, size and timestamp
fields unchanged (and emits no event); with the force flag set it always
recomputes (fields refreshed from the live stat and content hash, and a
`CHECKSUM` event is emitted). -/
theorem update_checksum_skip (force : Bool) (sz ts : Int) (ck : String)
    (st : PyStat) (digest : String) (hsz : sz = st.st_size)
    (hts : |ts - st.st_mtime| ≤ TIMEDIFF) (hck : ck ≠ "") :
    (force = false →
      update_handle_file force sz ts ck st digest = ((sz, ts, ck), [])) ∧
    (force = true →
      update_handle_file force sz ts ck st digest =
        ((st.st_size, st.st_mtime, digest), [.CHECKSUM])) := by
  constructor
  · intro hf
    subst hf
    rw [update_handle_file, if_neg]
    push_neg
    refine ⟨by simp, hts, hsz, hck⟩
  · intro hf
    subst hf
    rw [update_handle_file, if_pos (Or.inl rfl)]

/-- Witness for `update_checksum_skip` at a concrete input. -/
theorem update_checksum_skip_witness :
    ((false = false) →
      update_handle_file false 5 100 "aa" ⟨5, 101⟩ "bb" = ((5, 100, "aa"), [])) ∧
    ((false = true) →
      update_handle_file false 5 100 "aa" ⟨5, 101⟩ "bb" =
        ((5, 101, "bb"), [.CHECKSUM])) :=
  update_checksum_skip false 5 100 "aa" ⟨5, 101⟩ "bb" (by decide) (by decide)
    (by decide)

/-! ### C6: the mismatch events of check / verify -/

/-- C6: checking a file against live stat data emits `TIMESTAMP` iff the
recorded timestamp differs from the live mtime by more than the 2-second
tolerance, emits `SIZE` iff the recorded size differs from the live size,
and in deep (verify) mode additionally emits `CHECKSUM` iff the
recomputed content hash differs from the recorded checksum (never in
shallow mode); the result is `false` exactly when at least one mismatch
was emitted, and no mismatch suppresses the remaining comparisons.  The
resumable verify state is assumed not to list the file (it is empty when
no `-s` state file is given). -/
theorem check_file_events (fullcheck : Bool) (state : List String)
    (pp : String) (sz ts : Int) (ck : String) (st : PyStat)
    (digest : String) (hst : pp ∉ state) :
    (Ev.TIMESTAMP ∈ (check_handle_file fullcheck state pp sz ts ck st digest).2.1
      ↔ |ts - st.st_mtime| > TIMEDIFF) ∧
    (Ev.SIZE ∈ (check_handle_file fullcheck state pp sz ts ck st digest).2.1
      ↔ sz ≠ st.st_size) ∧
    (fullcheck = true →
      (Ev.CHECKSUM ∈ (check_handle_file fullcheck state pp sz ts ck st digest).2.1
        ↔ ck ≠ digest)) ∧
    (fullcheck = false →
      Ev.CHECKSUM ∉ (check_handle_file fullcheck state pp sz ts ck st digest).2.1) ∧
    ((check_handle_file fullcheck state pp sz ts ck st digest).1 = false
      ↔ (|ts - st.st_mtime| > TIMEDIFF ∨ sz ≠ st.st_size ∨
          (fullcheck = true ∧ ck ≠ digest))) := by
  unfold check_handle_file
  by_cases h1 : |ts - st.st_mtime| > TIMEDIFF <;>
    by_cases h2 : sz ≠ st.st_size <;>
      cases fullcheck <;>
        by_cases h3 : ck ≠ digest <;>
          simp [h1, h2, h3, hst]

/-- Witness for `check_file_events` at a concrete input. -/
theorem check_file_events_witness :
    (Ev.TIMESTAMP ∈ (check_handle_file true [] "/a" 5 100 "aa" ⟨5, 101⟩ "bb").2.1
      ↔ |(100 : Int) - (101 : Int)| > TIMEDIFF) ∧
    (Ev.SIZE ∈ (check_handle_file true [] "/a" 5 100 "aa" ⟨5, 101⟩ "bb").2.1
      ↔ (5 : Int) ≠ (5 : Int)) ∧
    (true = true →
      (Ev.CHECKSUM ∈ (check_handle_file true [] "/a" 5 100 "aa" ⟨5, 101⟩ "bb").2.1
        ↔ "aa" ≠ "bb")) ∧
    (true = false →
      Ev.CHECKSUM ∉ (check_handle_file true [] "/a" 5 100 "aa" ⟨5, 101⟩ "bb").2.1) ∧
    ((check_handle_file true [] "/a" 5 100 "aa" ⟨5, 101⟩ "bb").1 = false
      ↔ (|(100 : Int) - (101 : Int)| > TIMEDIFF ∨ (5 : Int) ≠ (5 : Int) ∨
          (true = true ∧ "aa" ≠ "bb"))) :=
  check_file_events true [] "/a" 5 100 "aa" ⟨5, 101⟩ "bb" (by decide)

/-! ### C7/C10: node addressing toolkit -/

theorem getNode_cons (a : String) (rest : List String) (n : String)
    (pl : List String) (m : Meta) (ig : List String) (ch : List FNode) :
    getNode (a :: rest) (.dir n pl m ig ch) =
      (findChild a ch).bind (getNode rest) := by
  show (match findChild a ch with
    | some c => getNode rest c
    | none => none) = _
  cases findChild a ch <;> rfl

theorem getNode_append (p q : List String) (t : FNode) :
    getNode (p ++ q) t = (getNode p t).bind (getNode q) := by
  induction p generalizing t with
  | nil => simp [getNode]
  | cons a rest ih =>
    cases t with
    | dir n pl m ig ch =>
      rw [List.cons_append, getNode_cons, getNode_cons]
      cases findChild a ch with
      | some c => simpa using ih c
      | none => rfl
    | sym n pl m tg => rfl
    | file n pl m sz ts ck => rfl

theorem findChild_name (x : String) (l : List FNode) (c : FNode)
    (h : findChild x l = some c) : c.name = x := by
  induction l with
  | nil => exact absurd h (by simp [findChild])
  | cons d ds ih =>
    rw [findChild] at h
    split at h
    · cases h
      assumption
    · exact ih h

theorem findChild_mem (x : String) (l : List FNode) (c : FNode)
    (h : findChild x l = some c) : c ∈ l := by
  induction l with
  | nil => exact absurd h (by simp [findChild])
  | cons d ds ih =>
    rw [findChild] at h
    split at h
    · cases h
      exact List.mem_cons_self _ _
    · exact List.mem_cons_of_mem _ (ih h)

theorem getNode_parent (p : List String) (hne : p ≠ []) (t n : FNode)
    (h : getNode p t = some n) :
    ∃ pn pl m ig ch, getNode p.dropLast t = some (.dir pn pl m ig ch) ∧
      findChild (p.getLast hne) ch = some n := by
  have hsplit : p.dropLast ++ [p.getLast hne] = p :=
    List.dropLast_append_getLast hne
  rw [← hsplit, getNode_append] at h
  cases hq : getNode p.dropLast t with
  | none =>
    rw [hq] at h
    exact absurd h (by simp)
  | some q =>
    rw [hq] at h
    simp only [Option.some_bind] at h
    cases q with
    | dir pn pl m ig ch =>
      refine ⟨pn, pl, m, ig, ch, rfl, ?_⟩
      rw [getNode_cons] at h
      cases hf : findChild (p.getLast hne) ch with
      | none =>
        rw [hf] at h
        exact absurd h (by simp)
      | some c =>
        rw [hf] at h
        simpa [getNode] using h
    | sym a b c d => exact absurd h (by simp [getNode])
    | file a b c d e g => exact absurd h (by simp [getNode])

theorem modifyAt_name (f : FNode → FNode) (hf : ∀ m, (f m).name = m.name)
    (p : List String) (t : FNode) : (modifyAt f p t).name = t.name := by
  cases p with
  | nil => exact hf t
  | cons a rest => cases t <;> rfl

theorem findChild_modifyMap_eq (f : FNode → FNode)
    (hf : ∀ m, (f m).name = m.name) (rest : List String) (seg : String)
    (ch : List FNode) :
    findChild seg (ch.map fun c =>
        if c.name = seg then modifyAt f rest c else c) =
      (findChild seg ch).map (modifyAt f rest) := by
  induction ch with
  | nil => rfl
  | cons c cs ih =>
    by_cases hc : c.name = seg
    · simp [findChild, hc, modifyAt_name f hf]
    · simp [findChild, hc, modifyAt_name f hf, ih]

theorem findChild_modifyMap_ne (f : FNode → FNode)
    (hf : ∀ m, (f m).name = m.name) (rest : List String) (seg x : String)
    (hx : x ≠ seg) (ch : List FNode) :
    findChild x (ch.map fun c =>
        if c.name = seg then modifyAt f rest c else c) =
      findChild x ch := by
  induction ch with
  | nil => rfl
  | cons c cs ih =>
    by_cases hc : c.name = seg
    · simp only [List.map_cons, hc, eq_self_iff_true, if_true, findChild,
        modifyAt_name f hf, if_neg (Ne.symm hx)]
      exact ih
    · simp only [List.map_cons, if_neg hc, findChild, ih]

theorem getNode_modifyAt_append (f : FNode → FNode)
    (hf : ∀ m, (f m).name = m.name) (p r : List String) (t n : FNode)
    (h : getNode p t = some n) :
    getNode (p ++ r) (modifyAt f p t) = getNode r (f n) := by
  induction p generalizing t with
  | nil =>
    simp only [getNode, Option.some.injEq] at h
    subst h
    rfl
  | cons a rest ih =>
    cases t with
    | dir nn pl m ig ch =>
      rw [getNode_cons] at h
      cases hfind : findChild a ch with
      | none =>
        rw [hfind] at h
        exact absurd h (by simp)
      | some c =>
        rw [hfind] at h
        simp only [Option.some_bind] at h
        show getNode (a :: rest ++ r) (.dir nn pl m ig (ch.map fun c =>
          if c.name = a then modifyAt f rest c else c)) = _
        rw [List.cons_append, getNode_cons, findChild_modifyMap_eq f hf,
          hfind]
        simpa using ih c h
    | sym a2 b c d => exact absurd h (by simp [getNode])
    | file a2 b c d e g => exact absurd h (by simp [getNode])

theorem getNode_modifyAt_disjoint (f : FNode → FNode)
    (hf : ∀ m, (f m).name = m.name) (p q : List String) (t : FNode)
    (h1 : ¬ p <+: q) (h2 : ¬ q <+: p) :
    getNode q (modifyAt f p t) = getNode q t := by
  induction p generalizing q t with
  | nil => exact absurd (List.nil_prefix) h1
  | cons a rest ih =>
    cases q with
    | nil => exact absurd (List.nil_prefix) h2
    | cons b q2 =>
      cases t with
      | dir nn pl m ig ch =>
        show getNode (b :: q2) (.dir nn pl m ig (ch.map fun c =>
          if c.name = a then modifyAt f rest c else c)) = _
        rw [getNode_cons, getNode_cons]
        by_cases hab : b = a
        · subst hab
          rw [findChild_modifyMap_eq f hf]
          cases hfind : findChild b ch with
          | none => rfl
          | some c =>
            simp only [Option.map_some', Option.some_bind]
            refine ih q2 c ?_ ?_
            · exact fun hp => h1 (List.cons_prefix_cons.mpr ⟨rfl, hp⟩)
            · exact fun hp => h2 (List.cons_prefix_cons.mpr ⟨rfl, hp⟩)
        · rw [findChild_modifyMap_ne f hf rest a b hab]
      | sym a2 b2 c d => rfl
      | file a2 b2 c d e g => rfl

theorem getNode_modifyAt_prefix (f : FNode → FNode)
    (hf : ∀ m, (f m).name = m.name) (q p : List String) (t m : FNode)
    (hpre : q <+: p) (hq : getNode q t = some m) :
    getNode q (modifyAt f p t) = some (modifyAt f (p.drop q.length) m) := by
  induction q generalizing p t with
  | nil =>
    simp only [getNode, Option.some.injEq] at hq
    subst hq
    simp [getNode]
  | cons b q2 ih =>
    cases p with
    | nil => exact absurd hpre (by simp)
    | cons a p2 =>
      obtain ⟨hab, hpre2⟩ := List.cons_prefix_cons.mp hpre
      subst hab
      cases t with
      | dir nn pl m2 ig ch =>
        rw [getNode_cons] at hq
        cases hfind : findChild b ch with
        | none =>
          rw [hfind] at hq
          exact absurd hq (by simp)
        | some c =>
          rw [hfind] at hq
          simp only [Option.some_bind] at hq
          show getNode (b :: q2) (.dir nn pl m2 ig (ch.map fun c =>
            if c.name = b then modifyAt f p2 c else c)) = _
          rw [getNode_cons, findChild_modifyMap_eq f hf, hfind]
          simp only [Option.map_some', Option.some_bind, List.length_cons,
            List.drop_succ_cons]
          exact ih p2 c hpre2 hq
      | sym a2 b2 c d => exact absurd hq (by simp [getNode])
      | file a2 b2 c d e g => exact absurd hq (by simp [getNode])

theorem ancestorWalkHits_iff_aux (k : Nat) :
    ∀ (s p : List String), p.length ≤ k →
      (ancestorWalkHits s p = true ↔ s <+: p) := by
  induction k with
  | zero =>
    intro s p hp
    have hnil : p = [] := List.length_eq_zero.mp (Nat.le_zero.mp hp)
    subst hnil
    rw [ancestorWalkHits.eq_def]
    by_cases h : ([] : List String) = s
    · subst h
      simp
    · rw [if_neg h]
      simp only [List.prefix_nil]
      exact iff_of_false (by simp) (fun hs => h hs.symm)
  | succ k ih =>
    intro s p hp
    rw [ancestorWalkHits.eq_def]
    by_cases h : p = s
    · subst h
      simp
    · rw [if_neg h]
      cases p with
      | nil =>
        simp only [List.prefix_nil]
        exact iff_of_false (by simp) (fun hs => h hs.symm)
      | cons a rest =>
        rw [ih s ((a :: rest).dropLast)
          (by simp only [List.length_dropLast, List.length_cons] at hp ⊢; omega)]
        constructor
        · intro hpre
          exact hpre.trans (List.dropLast_prefix _)
        · intro hpre
          have hlen : s.length ≤ (a :: rest).length := hpre.length_le
          have hne : s.length ≠ (a :: rest).length :=
            fun hl => h (List.IsPrefix.eq_of_length hpre hl).symm
          rw [List.dropLast_eq_take, List.prefix_take_iff]
          refine ⟨hpre, ?_⟩
          simp only [List.length_cons] at hlen hne ⊢
          omega

theorem ancestorWalkHits_iff (s p : List String) :
    ancestorWalkHits s p = true ↔ s <+: p :=
  ancestorWalkHits_iff_aux p.length s p le_rfl

/-! ### C7/C10: children dicts, well-formedness and the pathlist invariant -/

theorem findChild_eq_none_of_all (x : String) (l : List FNode)
    (h : ∀ c ∈ l, c.name ≠ x) : findChild x l = none := by
  induction l with
  | nil => rfl
  | cons c cs ih =>
    rw [findChild, if_neg (h c (List.mem_cons_self _ _))]
    exact ih fun d hd => h d (List.mem_cons_of_mem _ hd)

theorem strLtChars_trans : ∀ as bs cs : List Char,
    strLtChars as bs = true → strLtChars bs cs = true →
    strLtChars as cs = true := by
  intro as
  induction as with
  | nil =>
    intro bs cs h1 h2
    cases bs with
    | nil => exact absurd h1 (by simp [strLtChars])
    | cons b bs2 =>
      cases cs with
      | nil => exact absurd h2 (by simp [strLtChars])
      | cons c cs2 => simp [strLtChars]
  | cons a as2 ih =>
    intro bs cs h1 h2
    cases bs with
    | nil => exact absurd h1 (by simp [strLtChars])
    | cons b bs2 =>
      cases cs with
      | nil => exact absurd h2 (by simp [strLtChars])
      | cons c cs2 =>
        rw [strLtChars] at h1 h2 ⊢
        by_cases hab : a.toNat < b.toNat
        · by_cases hbc : b.toNat < c.toNat
          · rw [if_pos (by omega)]
          · rw [if_neg hbc] at h2
            by_cases hcb : c.toNat < b.toNat
            · rw [if_pos hcb] at h2
              exact absurd h2 (by simp)
            · rw [if_pos (by omega)]
        · rw [if_neg hab] at h1
          by_cases hba : b.toNat < a.toNat
          · rw [if_pos hba] at h1
            exact absurd h1 (by simp)
          · rw [if_neg hba] at h1
            by_cases hbc : b.toNat < c.toNat
            · rw [if_pos (by omega)]
            · rw [if_neg hbc] at h2
              by_cases hcb : c.toNat < b.toNat
              · rw [if_pos hcb] at h2
                exact absurd h2 (by simp)
              · rw [if_neg hcb] at h2
                rw [if_neg (by omega), if_neg (by omega)]
                exact ih bs2 cs2 h1 h2

theorem strLtChars_irrefl : ∀ as : List Char, strLtChars as as = false := by
  intro as
  induction as with
  | nil => rfl
  | cons a as2 ih =>
    rw [strLtChars, if_neg (by omega), if_neg (by omega)]
    exact ih

theorem strLt_trans (a b c : String) (h1 : strLt a b = true)
    (h2 : strLt b c = true) : strLt a c = true :=
  strLtChars_trans _ _ _ h1 h2

theorem strLt_ne (a b : String) (h : strLt a b = true) : a ≠ b := by
  intro he
  subst he
  rw [strLt, strLtChars_irrefl] at h
  exact absurd h (by simp)

theorem chain_names_lt (c : FNode) (cs : List FNode)
    (h : (c :: cs).Chain' (fun a b => strLt a.name b.name = true)) :
    ∀ d ∈ cs, strLt c.name d.name = true := by
  induction cs generalizing c with
  | nil => simp
  | cons d ds ih =>
    intro e he
    have h1 : strLt c.name d.name = true := (List.chain'_cons.mp h).1
    rcases List.mem_cons.mp he with rfl | he2
    · exact h1
    · exact strLt_trans _ _ _ h1 (ih d (List.chain'_cons.mp h).2 e he2)

theorem wfChildren_chain (l : List FNode) (h : wfChildren l = true) :
    l.Chain' (fun a b => strLt a.name b.name = true) := by
  induction l with
  | nil => simp
  | cons c cs ih =>
    cases cs with
    | nil => simp
    | cons d ds =>
      rw [show wfChildren (c :: d :: ds) =
        (wfNode c && strLt c.name d.name && wfChildren (d :: ds))
        from rfl] at h
      simp only [Bool.and_eq_true] at h
      exact List.chain'_cons.mpr ⟨h.1.2, ih h.2⟩

theorem wfChildren_wfNode (l : List FNode) (h : wfChildren l = true)
    (c : FNode) (hc : c ∈ l) : wfNode c = true := by
  induction l with
  | nil => exact absurd hc (by simp)
  | cons d ds ih =>
    cases ds with
    | nil =>
      rcases List.mem_cons.mp hc with rfl | hc2
      · exact h
      · exact absurd hc2 (by simp)
    | cons e es =>
      rw [show wfChildren (d :: e :: es) =
        (wfNode d && strLt d.name e.name && wfChildren (e :: es))
        from rfl] at h
      simp only [Bool.and_eq_true] at h
      rcases List.mem_cons.mp hc with rfl | hc2
      · exact h.1.1
      · exact ih h.2 hc2

theorem wf_getNode (p : List String) (t n : FNode)
    (hw : wfNode t = true) (h : getNode p t = some n) : wfNode n = true := by
  induction p generalizing t with
  | nil =>
    simp only [getNode, Option.some.injEq] at h
    subst h
    exact hw
  | cons a rest ih =>
    cases t with
    | dir nn pl m ig ch =>
      rw [getNode_cons] at h
      cases hf : findChild a ch with
      | none =>
        rw [hf] at h
        exact absurd h (by simp)
      | some c =>
        rw [hf] at h
        simp only [Option.some_bind] at h
        exact ih c (wfChildren_wfNode ch hw c (findChild_mem a ch c hf)) h
    | sym a2 b c d => exact absurd h (by simp [getNode])
    | file a2 b c d e g => exact absurd h (by simp [getNode])

theorem findChild_removeChild_ne (nm x : String) (h : x ≠ nm)
    (l : List FNode) : findChild x (removeChild nm l) = findChild x l := by
  induction l with
  | nil => rfl
  | cons c cs ih =>
    by_cases hc : c.name = nm
    · rw [removeChild, if_pos hc, findChild,
        if_neg (by rw [hc]; exact fun hh => h hh.symm)]
    · rw [removeChild, if_neg hc, findChild, findChild]
      split
      · rfl
      · exact ih

theorem findChild_removeChild_self (nm : String) (l : List FNode)
    (h : l.Chain' (fun a b => strLt a.name b.name = true)) :
    findChild nm (removeChild nm l) = none := by
  induction l with
  | nil => rfl
  | cons c cs ih =>
    by_cases hc : c.name = nm
    · rw [removeChild, if_pos hc]
      refine findChild_eq_none_of_all nm cs fun d hd => ?_
      have := chain_names_lt c cs h d hd
      rw [hc] at this
      exact Ne.symm (strLt_ne _ _ this)
    · rw [removeChild, if_neg hc, findChild, if_neg hc]
      exact ih h.tail

theorem findChild_childInsert_self (c : FNode) (l : List FNode) :
    findChild c.name (childInsert c l) = some c := by
  induction l with
  | nil => simp [childInsert, findChild]
  | cons d ds ih =>
    rw [childInsert]
    by_cases h1 : strLt c.name d.name = true
    · rw [if_pos h1, findChild, if_pos rfl]
    · rw [if_neg h1]
      by_cases h2 : c.name = d.name
      · rw [if_pos h2, findChild, if_pos rfl]
      · rw [if_neg h2, findChild, if_neg fun hh => h2 hh.symm]
        exact ih

theorem findChild_childInsert_ne (c : FNode) (x : String)
    (h : x ≠ c.name) (l : List FNode) :
    findChild x (childInsert c l) = findChild x l := by
  induction l with
  | nil =>
    show (if c.name = x then some c else findChild x ([] : List FNode)) =
      findChild x ([] : List FNode)
    rw [if_neg fun hh => h hh.symm]
  | cons d ds ih =>
    rw [childInsert]
    by_cases h1 : strLt c.name d.name = true
    · rw [if_pos h1, findChild, if_neg fun hh => h hh.symm]
    · rw [if_neg h1]
      by_cases h2 : c.name = d.name
      · rw [if_pos h2, findChild, if_neg fun hh => h hh.symm, findChild,
          if_neg (by rw [← h2]; exact fun hh => h hh.symm)]
      · rw [if_neg h2, findChild, findChild]
        split
        · rfl
        · exact ih

theorem setPlist_name (ppl : List String) (t : FNode) :
    (setPlist ppl t).name = t.name := by
  cases t <;> rfl

theorem dirRemoveChild_name (nm : String) (t : FNode) :
    (dirRemoveChild nm t).name = t.name := by
  cases t <;> rfl

theorem dirInsertChild_name (c : FNode) (t : FNode) :
    (dirInsertChild c t).name = t.name := by
  cases t <;> rfl

theorem plOkChildren_mem (pos : List String) (l : List FNode)
    (h : plOkChildren pos l = true) (c : FNode) (hc : c ∈ l) :
    plOk (pos ++ [c.name]) c = true := by
  induction l with
  | nil => exact absurd hc (by simp)
  | cons d ds ih =>
    rw [show plOkChildren pos (d :: ds) =
      (plOk (pos ++ [d.name]) d && plOkChildren pos ds) from rfl] at h
    simp only [Bool.and_eq_true] at h
    rcases List.mem_cons.mp hc with rfl | hc2
    · exact h.1
    · exact ih h.2 hc2

theorem plOk_plist (pos : List String) (t : FNode)
    (h : plOk pos t = true) : t.plist = pos := by
  cases t with
  | sym a pl m tg => simpa [plOk, FNode.plist] using h
  | file a pl m sz ts ck => simpa [plOk, FNode.plist] using h
  | dir a pl m ig ch =>
    rw [show plOk pos (.dir a pl m ig ch) =
      (decide (pl = pos) && plOkChildren pos ch) from rfl] at h
    simp only [Bool.and_eq_true, decide_eq_true_eq] at h
    exact h.1

theorem plOk_getNode (q pos : List String) (t n : FNode)
    (hpl : plOk pos t = true) (h : getNode q t = some n) :
    plOk (pos ++ q) n = true := by
  induction q generalizing pos t with
  | nil =>
    simp only [getNode, Option.some.injEq] at h
    subst h
    simpa using hpl
  | cons b q2 ih =>
    cases t with
    | dir nn pl m ig ch =>
      rw [getNode_cons] at h
      cases hf : findChild b ch with
      | none =>
        rw [hf] at h
        exact absurd h (by simp)
      | some c =>
        rw [hf] at h
        simp only [Option.some_bind] at h
        rw [show plOk pos (.dir nn pl m ig ch) =
          (decide (pl = pos) && plOkChildren pos ch) from rfl] at hpl
        simp only [Bool.and_eq_true, decide_eq_true_eq] at hpl
        have hc := plOkChildren_mem pos ch hpl.2 c (findChild_mem b ch c hf)
        rw [findChild_name b ch c hf] at hc
        have := ih (pos ++ [b]) c hc h
        rwa [List.append_assoc, List.singleton_append] at this
    | sym a2 b2 c d => exact absurd h (by simp [getNode])
    | file a2 b2 c d e g => exact absurd h (by simp [getNode])

theorem plOkChildren_pointwise (pos : List String) (ch : List FNode)
    (g : FNode → FNode) (hg : ∀ c ∈ ch, (g c).name = c.name)
    (hp : ∀ c ∈ ch, plOk (pos ++ [c.name]) c = true →
      plOk (pos ++ [c.name]) (g c) = true)
    (h : plOkChildren pos ch = true) :
    plOkChildren pos (ch.map g) = true := by
  induction ch with
  | nil => rfl
  | cons c cs ih =>
    rw [show plOkChildren pos (c :: cs) =
      (plOk (pos ++ [c.name]) c && plOkChildren pos cs) from rfl] at h
    simp only [Bool.and_eq_true] at h
    rw [List.map_cons, show plOkChildren pos (g c :: cs.map g) =
      (plOk (pos ++ [(g c).name]) (g c) && plOkChildren pos (cs.map g))
      from rfl]
    simp only [Bool.and_eq_true]
    refine ⟨?_, ih (fun d hd => hg d (List.mem_cons_of_mem _ hd))
      (fun d hd => hp d (List.mem_cons_of_mem _ hd)) h.2⟩
    rw [hg c (List.mem_cons_self _ _)]
    exact hp c (List.mem_cons_self _ _) h.1

theorem plOk_modifyAt (f : FNode → FNode)
    (hname : ∀ m, (f m).name = m.name) (p pos : List String) (t : FNode)
    (hpl : plOk pos t = true)
    (hf : ∀ m, plOk (pos ++ p) m = true → plOk (pos ++ p) (f m) = true) :
    plOk pos (modifyAt f p t) = true := by
  induction p generalizing pos t with
  | nil =>
    have := hf t (by simpa using hpl)
    simpa [modifyAt] using this
  | cons a rest ih =>
    cases t with
    | dir nn pl m ig ch =>
      rw [show plOk pos (.dir nn pl m ig ch) =
        (decide (pl = pos) && plOkChildren pos ch) from rfl] at hpl
      simp only [Bool.and_eq_true, decide_eq_true_eq] at hpl
      show plOk pos (.dir nn pl m ig (ch.map fun c =>
        if c.name = a then modifyAt f rest c else c)) = true
      rw [show plOk pos (.dir nn pl m ig (ch.map fun c =>
        if c.name = a then modifyAt f rest c else c)) =
        (decide (pl = pos) && plOkChildren pos (ch.map fun c =>
          if c.name = a then modifyAt f rest c else c)) from rfl]
      simp only [Bool.and_eq_true, decide_eq_true_eq]
      refine ⟨hpl.1, ?_⟩
      refine plOkChildren_pointwise pos ch _ ?_ ?_ hpl.2
      · intro c _
        by_cases hc : c.name = a
        · rw [if_pos hc]
          exact modifyAt_name f hname rest c
        · rw [if_neg hc]
      · intro c _ hcpl
        by_cases hc : c.name = a
        · rw [if_pos hc]
          refine ih (pos ++ [c.name]) c hcpl fun m hm => ?_
          have := hf m (by rwa [hc, List.append_assoc,
            List.singleton_append] at hm)
          rwa [hc, List.append_assoc, List.singleton_append]
        · rw [if_neg hc]
          exact hcpl
    | sym a2 b2 c d => simpa [modifyAt] using hpl
    | file a2 b2 c d e g => simpa [modifyAt] using hpl

theorem plOkChildren_removeChild (pos : List String) (nm : String)
    (ch : List FNode) (h : plOkChildren pos ch = true) :
    plOkChildren pos (removeChild nm ch) = true := by
  induction ch with
  | nil => rfl
  | cons c cs ih =>
    rw [show plOkChildren pos (c :: cs) =
      (plOk (pos ++ [c.name]) c && plOkChildren pos cs) from rfl] at h
    simp only [Bool.and_eq_true] at h
    rw [removeChild]
    split
    · exact h.2
    · rw [show plOkChildren pos (c :: removeChild nm cs) =
        (plOk (pos ++ [c.name]) c && plOkChildren pos (removeChild nm cs))
        from rfl]
      simp only [Bool.and_eq_true]
      exact ⟨h.1, ih h.2⟩

theorem plOk_dirRemoveChild (q : List String) (nm : String) (m : FNode)
    (h : plOk q m = true) : plOk q (dirRemoveChild nm m) = true := by
  cases m with
  | dir nn pl m2 ig ch =>
    rw [show plOk q (.dir nn pl m2 ig ch) =
      (decide (pl = q) && plOkChildren q ch) from rfl] at h
    simp only [Bool.and_eq_true] at h
    rw [show plOk q (dirRemoveChild nm (.dir nn pl m2 ig ch)) =
      (decide (pl = q) && plOkChildren q (removeChild nm ch)) from rfl]
    simp only [Bool.and_eq_true]
    exact ⟨h.1, plOkChildren_removeChild q nm ch h.2⟩
  | sym a b c d => exact h
  | file a b c d e g => exact h

theorem plOkChildren_childInsert (pos : List String) (c : FNode)
    (ch : List FNode) (hc : plOk (pos ++ [c.name]) c = true)
    (h : plOkChildren pos ch = true) :
    plOkChildren pos (childInsert c ch) = true := by
  induction ch with
  | nil =>
    rw [childInsert, show plOkChildren pos [c] =
      (plOk (pos ++ [c.name]) c && true) from rfl]
    simp [hc]
  | cons d ds ih =>
    rw [show plOkChildren pos (d :: ds) =
      (plOk (pos ++ [d.name]) d && plOkChildren pos ds) from rfl] at h
    simp only [Bool.and_eq_true] at h
    rw [childInsert]
    by_cases h1 : strLt c.name d.name = true
    · rw [if_pos h1]
      rw [show plOkChildren pos (c :: d :: ds) =
        (plOk (pos ++ [c.name]) c && plOkChildren pos (d :: ds)) from rfl]
      simp only [Bool.and_eq_true]
      refine ⟨hc, ?_⟩
      rw [show plOkChildren pos (d :: ds) =
        (plOk (pos ++ [d.name]) d && plOkChildren pos ds) from rfl]
      simp only [Bool.and_eq_true]
      exact ⟨h.1, h.2⟩
    · rw [if_neg h1]
      by_cases h2 : c.name = d.name
      · rw [if_pos h2]
        rw [show plOkChildren pos (c :: ds) =
          (plOk (pos ++ [c.name]) c && plOkChildren pos ds) from rfl]
        simp only [Bool.and_eq_true]
        exact ⟨hc, h.2⟩
      · rw [if_neg h2]
        rw [show plOkChildren pos (d :: childInsert c ds) =
          (plOk (pos ++ [d.name]) d && plOkChildren pos (childInsert c ds))
          from rfl]
        simp only [Bool.and_eq_true]
        exact ⟨h.1, ih h.2⟩

theorem plOk_dirInsertChild (q : List String) (c m : FNode)
    (hc : plOk (q ++ [c.name]) c = true) (h : plOk q m = true) :
    plOk q (dirInsertChild c m) = true := by
  cases m with
  | dir nn pl m2 ig ch =>
    rw [show plOk q (.dir nn pl m2 ig ch) =
      (decide (pl = q) && plOkChildren q ch) from rfl] at h
    simp only [Bool.and_eq_true] at h
    rw [show plOk q (dirInsertChild c (.dir nn pl m2 ig ch)) =
      (decide (pl = q) && plOkChildren q (childInsert c ch)) from rfl]
    simp only [Bool.and_eq_true]
    exact ⟨h.1, plOkChildren_childInsert q c ch hc h.2⟩
  | sym a b c2 d => exact h
  | file a b c2 d e g => exact h

mutual

theorem plOk_setPlist (ppl : List String) (t : FNode) :
    plOk (ppl ++ [t.name]) (setPlist ppl t) = true := by
  cases t with
  | sym a pl m tg => simp [setPlist, plOk, FNode.name]
  | file a pl m sz ts ck => simp [setPlist, plOk, FNode.name]
  | dir a pl m ig ch =>
    show plOk (ppl ++ [a]) (.dir a (ppl ++ [a]) m ig
      (setPlistList (ppl ++ [a]) ch)) = true
    rw [show plOk (ppl ++ [a]) (.dir a (ppl ++ [a]) m ig
      (setPlistList (ppl ++ [a]) ch)) =
      (decide ((ppl ++ [a] : List String) = ppl ++ [a]) &&
        plOkChildren (ppl ++ [a]) (setPlistList (ppl ++ [a]) ch)) from rfl]
    simp only [Bool.and_eq_true, decide_eq_true_eq]
    exact ⟨by simp, plOkChildren_setPlistList (ppl ++ [a]) ch⟩

theorem plOkChildren_setPlistList (np : List String) (l : List FNode) :
    plOkChildren np (setPlistList np l) = true := by
  cases l with
  | nil => rfl
  | cons c cs =>
    show plOkChildren np (setPlist np c :: setPlistList np cs) = true
    rw [show plOkChildren np (setPlist np c :: setPlistList np cs) =
      (plOk (np ++ [(setPlist np c).name]) (setPlist np c) &&
        plOkChildren np (setPlistList np cs)) from rfl]
    simp only [Bool.and_eq_true]
    refine ⟨?_, plOkChildren_setPlistList np cs⟩
    rw [setPlist_name]
    exact plOk_setPlist np c

end

/-! ### C7: the reparent operation -/

theorem prefix_strict_decomp {a b : List String} (h : a <+: b) (ne : b ≠ a) :
    ∃ y ys, b = a ++ y :: ys := by
  obtain ⟨t, rfl⟩ := h
  cases t with
  | nil => exact absurd (List.append_nil a) ne
  | cons y ys => exact ⟨y, ys, rfl⟩

theorem modifyAt_cons_dir (f : FNode → FNode) (a : String)
    (rest : List String) (nn : String) (pl : List String) (m : Meta)
    (ig : List String) (ch : List FNode) :
    modifyAt f (a :: rest) (.dir nn pl m ig ch) =
      .dir nn pl m ig (ch.map fun c =>
        if c.name = a then modifyAt f rest c else c) := rfl

theorem getNode_singleton (x nn : String) (pl : List String) (m : Meta)
    (ig : List String) (ch : List FNode) :
    getNode [x] (.dir nn pl m ig ch) = findChild x ch := by
  rw [getNode_cons]
  cases findChild x ch <;> rfl

/-- C7: located at positions of one tree, `reparent(node, newParent)`
fails — returning `False` before any mutation — exactly when the node is
the root, or the new parent is not a directory, or the new parent is the
node itself or one of its descendants (the ancestor walk meets the node),
or the new parent already has a child with the node's name; on success
the node is removed from the old parent's children (its old position no
longer resolves), inserted into the new parent's children with its
pathlist recomputed recursively (`pathList = parent.pathList + [name]`),
and the whole tree satisfies the stored-pathlist invariant. -/
theorem reparent_spec (root : FNode) (selfP targetP : List String)
    (node target : FNode) (hself : getNode selfP root = some node)
    (htgt : getNode targetP root = some target)
    (hwf : wfNode root = true) (hpl : plOk [] root = true) :
    (reparent root selfP targetP = none ↔
      (selfP = [] ∨ target.isDir = false ∨ selfP <+: targetP ∨
        childNamed target node.name = true)) ∧
    (∀ t2, reparent root selfP targetP = some t2 →
      getNode selfP t2 = none ∧
      getNode (targetP ++ [node.name]) t2 =
        some (setPlist target.plist node) ∧
      plOk [] t2 = true) := by
  have hred : reparent root selfP targetP =
      (if selfP = [] then none
       else if target.isDir = false then none
       else if ancestorWalkHits selfP targetP = true then none
       else if childNamed target node.name = true then none
       else some (modifyAt (dirInsertChild (setPlist target.plist node))
         targetP (modifyAt (dirRemoveChild node.name) selfP.dropLast root))) := by
    unfold reparent
    rw [hself, htgt]
  have hiff : reparent root selfP targetP = none ↔
      (selfP = [] ∨ target.isDir = false ∨
        ancestorWalkHits selfP targetP = true ∨
        childNamed target node.name = true) := by
    rw [hred]
    by_cases c1 : selfP = []
    · simp [c1]
    · rw [if_neg c1]
      by_cases c2 : target.isDir = false
      · simp [c1, c2]
      · rw [if_neg c2]
        by_cases c3 : ancestorWalkHits selfP targetP = true
        · simp [c1, c2, c3]
        · rw [if_neg c3]
          by_cases c4 : childNamed target node.name = true
          · simp [c1, c2, c3, c4]
          · rw [if_neg c4]
            simp [c1, c2, c3, c4]
  refine ⟨by rw [hiff, ancestorWalkHits_iff], ?_⟩
  intro t2 ht2
  have hcond : ¬(selfP = [] ∨ target.isDir = false ∨
      ancestorWalkHits selfP targetP = true ∨
      childNamed target node.name = true) := by
    intro hc
    rw [← hiff] at hc
    rw [hc] at ht2
    exact absurd ht2 (by simp)
  push_neg at hcond
  obtain ⟨c1, c2, c3, c4⟩ := hcond
  have npre : ¬ selfP <+: targetP :=
    fun hp => c3 ((ancestorWalkHits_iff selfP targetP).mpr hp)
  have ht2eq : t2 = modifyAt (dirInsertChild (setPlist target.plist node))
      targetP (modifyAt (dirRemoveChild node.name) selfP.dropLast root) := by
    rw [hred, if_neg c1, if_neg c2, if_neg c3, if_neg c4] at ht2
    exact (Option.some_injective _ ht2).symm
  subst ht2eq
  -- the old parent
  obtain ⟨pn, ppl, pm, pig, pch, hpar, hfind⟩ :=
    getNode_parent selfP c1 root node hself
  have hnm : node.name = selfP.getLast c1 :=
    findChild_name (selfP.getLast c1) pch node hfind
  have hselfdecomp : selfP.dropLast ++ [node.name] = selfP := by
    rw [hnm]
    exact List.dropLast_append_getLast c1
  have hremname : ∀ m, (dirRemoveChild node.name m).name = m.name :=
    dirRemoveChild_name node.name
  have hinsname : ∀ m,
      (dirInsertChild (setPlist target.plist node) m).name = m.name :=
    dirInsertChild_name (setPlist target.plist node)
  have hwfold : wfNode (.dir pn ppl pm pig pch) = true :=
    wf_getNode selfP.dropLast root _ hwf hpar
  have hchain : pch.Chain' (fun a b => strLt a.name b.name = true) :=
    wfChildren_chain pch hwfold
  -- the tree after removal
  have H1 : getNode selfP
      (modifyAt (dirRemoveChild node.name) selfP.dropLast root) = none := by
    nth_rewrite 1 [← hselfdecomp]
    rw [getNode_modifyAt_append _ hremname selfP.dropLast [node.name] root _
        hpar]
    show getNode [node.name]
      (.dir pn ppl pm pig (removeChild node.name pch)) = none
    rw [getNode_singleton, hnm, findChild_removeChild_self _ _ hchain]
  -- the new parent target must be a directory
  have hdirT : target.isDir = true := by
    cases hd : target.isDir
    · exact absurd hd c2
    · rfl
  obtain ⟨tn, tpl, tm, tig, tch, htgte⟩ :
      ∃ tn tpl tm tig tch, target = .dir tn tpl tm tig tch := by
    cases target with
    | dir a b c d e => exact ⟨a, b, c, d, e, rfl⟩
    | sym a b c d => exact absurd rfl c2
    | file a b c d e g => exact absurd rfl c2
  subst htgte
  -- targetP is not the old parent position
  have hTne : targetP ≠ selfP.dropLast := by
    intro he
    rw [he, hpar] at htgt
    have : (FNode.dir tn tpl tm tig tch) = (.dir pn ppl pm pig pch) :=
      Option.some_injective _ htgt.symm
    apply c4
    rw [this]
    show (findChild node.name pch).isSome = true
    rw [hnm, hfind]
    rfl
  -- after removal, the node at targetP is still a directory with
  -- predictable children
  have hT1 : ∃ tch2, getNode targetP
        (modifyAt (dirRemoveChild node.name) selfP.dropLast root) =
        some (.dir tn tpl tm tig tch2) ∧
      (∀ x, x ≠ node.name →
        (findChild x tch2).isSome = (findChild x tch).isSome) := by
    by_cases hTP : targetP <+: selfP.dropLast
    · -- the new parent is a proper ancestor of the old parent
      have hM4 := getNode_modifyAt_prefix _ hremname targetP selfP.dropLast
        root _ hTP htgt
      obtain ⟨y, ys, hys⟩ := prefix_strict_decomp hTP (Ne.symm hTne)
      have hdrop : selfP.dropLast.drop targetP.length = y :: ys := by
        rw [hys]
        simp
      rw [hdrop, modifyAt_cons_dir] at hM4
      refine ⟨_, hM4, ?_⟩
      intro x hx
      by_cases hxy : x = y
      · subst hxy
        rw [findChild_modifyMap_eq _ hremname]
        cases findChild x tch <;> rfl
      · rw [findChild_modifyMap_ne _ hremname ys y x hxy]
    · by_cases hPT : selfP.dropLast <+: targetP
      · -- the new parent is below the old parent
        obtain ⟨y, ys, hys⟩ := prefix_strict_decomp hPT hTne
        have hyne : y ≠ node.name := by
          intro he
          apply npre
          rw [← hselfdecomp, hys, he]
          exact ⟨ys, by simp⟩
        refine ⟨tch, ?_, fun x _ => rfl⟩
        have hstep := getNode_modifyAt_append _ hremname selfP.dropLast
          (y :: ys) root _ hpar
        rw [← hys] at hstep
        rw [hstep]
        show getNode (y :: ys)
          (.dir pn ppl pm pig (removeChild node.name pch)) = _
        rw [getNode_cons, findChild_removeChild_ne node.name y hyne pch]
        have hload : (findChild y pch).bind (getNode ys) =
            some (FNode.dir tn tpl tm tig tch) := by
          have h2 := htgt
          rw [hys, getNode_append, hpar] at h2
          simp only [Option.some_bind] at h2
          rw [getNode_cons] at h2
          exact h2
        exact hload
      · rw [getNode_modifyAt_disjoint _ hremname selfP.dropLast targetP root
          hPT hTP, htgt]
        exact ⟨tch, rfl, fun x _ => rfl⟩
  obtain ⟨tch2, hT1eq, hT1names⟩ := hT1
  have hmovedname : (setPlist (FNode.dir tn tpl tm tig tch).plist node).name = node.name := by
    rw [setPlist_name]
  refine ⟨?_, ?_, ?_⟩
  · -- the node's old position no longer resolves
    by_cases hTS : targetP <+: selfP
    · have hTSne : selfP ≠ targetP := fun he => npre (he ▸ List.prefix_refl _)
      obtain ⟨x, xs, hxs⟩ := prefix_strict_decomp hTS hTSne
      -- the segment x is a child name of the target, hence not node.name
      have hxch : (findChild x tch).isSome = true := by
        have := hself
        rw [hxs, getNode_append, htgt] at this
        simp only [Option.some_bind] at this
        rw [getNode_cons] at this
        cases hfx : findChild x tch with
        | none =>
          rw [hfx] at this
          exact absurd this (by simp)
        | some c => rfl
      have hxne : x ≠ node.name := by
        intro he
        apply c4
        show (findChild node.name tch).isSome = true
        rw [← he]
        exact hxch
      nth_rewrite 1 [hxs]
      rw [getNode_modifyAt_append _ hinsname targetP (x :: xs) _ _ hT1eq]
      show getNode (x :: xs) (.dir tn tpl tm tig
        (childInsert (setPlist (FNode.dir tn tpl tm tig tch).plist node)
          tch2)) = none
      rw [getNode_cons,
        findChild_childInsert_ne _ x (by rw [hmovedname]; exact hxne) tch2]
      have : getNode (x :: xs) (.dir tn tpl tm tig tch2) =
          getNode (targetP ++ x :: xs)
            (modifyAt (dirRemoveChild node.name) selfP.dropLast root) := by
        rw [getNode_append, hT1eq]
        simp only [Option.some_bind]
      rw [getNode_cons] at this
      rw [this, ← hxs, H1]
    · rw [getNode_modifyAt_disjoint _ hinsname targetP selfP _ hTS npre]
      exact H1
  · -- the node now sits under the new parent with recomputed pathlist
    rw [getNode_modifyAt_append _ hinsname targetP [node.name] _ _ hT1eq]
    show getNode [node.name] (.dir tn tpl tm tig
      (childInsert (setPlist (FNode.dir tn tpl tm tig tch).plist node)
        tch2)) = _
    rw [getNode_singleton, ← hmovedname, findChild_childInsert_self]
  · -- the stored-pathlist invariant holds tree-wide
    have htplist : (FNode.dir tn tpl tm tig tch).plist = targetP := by
      have := plOk_getNode targetP [] root (.dir tn tpl tm tig tch) hpl htgt
      rw [List.nil_append] at this
      exact plOk_plist targetP _ this
    have hpl1 : plOk []
        (modifyAt (dirRemoveChild node.name) selfP.dropLast root) = true := by
      refine plOk_modifyAt _ hremname selfP.dropLast [] root hpl ?_
      intro m hm
      exact plOk_dirRemoveChild _ node.name m hm
    refine plOk_modifyAt _ hinsname targetP [] _ hpl1 ?_
    intro m hm
    refine plOk_dirInsertChild _ _ m ?_ hm
    rw [List.nil_append, hmovedname, htplist]
    have := plOk_setPlist (FNode.dir tn tpl tm tig tch).plist node
    rwa [htplist] at this

/-- Witness for `reparent_spec` at a concrete input: moving `/a/f` into
`/b` in `pairTree`. -/
theorem reparent_spec_witness :
    (reparent pairTree ["a", "f"] ["b"] = none ↔
      ((["a", "f"] : List String) = [] ∨
        (FNode.dir "b" ["b"] [] [] []).isDir = false ∨
        ["a", "f"] <+: ["b"] ∨
        childNamed (.dir "b" ["b"] [] [] [])
          (FNode.file "f" ["a", "f"] [] 1 2 "cc").name = true)) ∧
    (∀ t2, reparent pairTree ["a", "f"] ["b"] = some t2 →
      getNode ["a", "f"] t2 = none ∧
      getNode (["b"] ++ [(FNode.file "f" ["a", "f"] [] 1 2 "cc").name]) t2 =
        some (setPlist (FNode.dir "b" ["b"] [] [] []).plist
          (.file "f" ["a", "f"] [] 1 2 "cc")) ∧
      plOk [] t2 = true) :=
  reparent_spec pairTree ["a", "f"] ["b"]
    (.file "f" ["a", "f"] [] 1 2 "cc") (.dir "b" ["b"] [] [] [])
    rfl rfl (by decide) (by decide)

/-! ### C10: renaming a node to its own name -/

/-- C10: for a non-root node, `rename(node, node.name)` fails and changes
nothing (the source returns `False` before any mutation): the collision
check `newname in self.parent.children` consults the parent's children
dict, in which the node itself occupies its own name, so renaming a node
to its current name is a failure, not a successful no-op. -/
theorem rename_same_name_fails (root : FNode) (selfP : List String)
    (node : FNode) (hne : selfP ≠ [])
    (hself : getNode selfP root = some node) :
    rename root selfP node.name = none := by
  obtain ⟨pn, ppl, pm, pig, pch, hpar, hfind⟩ :=
    getNode_parent selfP hne root node hself
  have hnm : node.name = selfP.getLast hne :=
    findChild_name _ pch node hfind
  have hred : rename root selfP node.name =
      (if selfP = [] then none
       else if node.name = "" then none
       else if childNamed (.dir pn ppl pm pig pch) node.name = true then none
       else some (modifyAt (fun p => dirInsertChild
         (setPlist (FNode.dir pn ppl pm pig pch).plist
           (setName node.name node))
         (dirRemoveChild node.name p)) selfP.dropLast root)) := by
    unfold rename
    rw [hself, hpar]
  rw [hred, if_neg hne]
  by_cases h2 : node.name = ""
  · rw [if_pos h2]
  · rw [if_neg h2]
    have hcol : childNamed (.dir pn ppl pm pig pch) node.name = true := by
      show (findChild node.name pch).isSome = true
      rw [hnm, hfind]
      rfl
    rw [if_pos hcol]

/-- Witness for `rename_same_name_fails` at a concrete input: renaming
`/a` of `pairTree` to `"a"` fails. -/
theorem rename_same_name_fails_witness :
    rename pairTree ["a"] "a" = none :=
  rename_same_name_fails pairTree ["a"]
    (.dir "a" ["a"] [] [] [.file "f" ["a", "f"] [] 1 2 "cc"])
    (by decide) rfl

/-! ### C8: metadata target resolution -/

/-- The segment loop of `find_target` succeeds exactly as described by
the `SegResolve` relation. -/
theorem findTargetGo_iff (root : FNode) (parts : List String) :
    ∀ (pos out : List String),
      findTargetGo root pos parts = some out ↔ SegResolve root pos parts out := by
  induction parts with
  | nil =>
    intro pos out
    constructor
    · intro h
      obtain rfl : pos = out := by simpa [findTargetGo] using h
      exact .done pos
    · intro h
      cases h with
      | done => simp [findTargetGo]
  | cons part rest ih =>
    intro pos out
    by_cases h0 : part = ""
    · subst h0
      simp only [findTargetGo, if_pos rfl]
      constructor
      · intro h
        exact .blank pos "" rest out rfl ((ih pos out).mp h)
      · intro h
        cases h with
        | blank _ _ _ _ _ hsub => exact (ih pos out).mpr hsub
        | dot _ _ _ _ he _ => exact absurd he (by decide)
        | up _ _ _ _ he _ _ => exact absurd he (by decide)
        | descend _ _ _ _ he _ _ _ _ _ _ _ _ _ => exact absurd rfl he
    · by_cases h1 : part = "."
      · subst h1
        simp only [findTargetGo, if_neg h0, if_pos rfl]
        constructor
        · intro h
          exact .dot pos "." rest out rfl ((ih pos out).mp h)
        · intro h
          cases h with
          | blank _ _ _ _ he _ => exact absurd he (by decide)
          | dot _ _ _ _ _ hsub => exact (ih pos out).mpr hsub
          | up _ _ _ _ he _ _ => exact absurd he (by decide)
          | descend _ _ _ _ _ he _ _ _ _ _ _ _ _ => exact absurd rfl he
      · by_cases h2 : part = ".."
        · subst h2
          simp only [findTargetGo, if_neg h0, if_neg h1, if_pos rfl]
          cases pos with
          | nil =>
            constructor
            · intro h
              exact absurd h (by simp)
            · intro h
              cases h with
              | blank _ _ _ _ he _ => exact absurd he (by decide)
              | dot _ _ _ _ he _ => exact absurd he (by decide)
              | up _ _ _ _ _ hne _ => exact absurd rfl hne
              | descend _ _ _ _ _ _ he _ _ _ _ _ _ _ => exact absurd rfl he
          | cons a l =>
            constructor
            · intro h
              exact .up (a :: l) ".." rest out rfl (by simp)
                ((ih (a :: l).dropLast out).mp h)
            · intro h
              cases h with
              | blank _ _ _ _ he _ => exact absurd he (by decide)
              | dot _ _ _ _ he _ => exact absurd he (by decide)
              | up _ _ _ _ _ _ hsub => exact (ih (a :: l).dropLast out).mpr hsub
              | descend _ _ _ _ _ _ he _ _ _ _ _ _ _ => exact absurd rfl he
        · simp only [findTargetGo, if_neg h0, if_neg h1, if_neg h2]
          cases hg : getNode (pos ++ [part]) root with
          | none =>
            constructor
            · intro h
              exact absurd h (by simp)
            · intro h
              cases h with
              | blank _ _ _ _ he _ => exact absurd he h0
              | dot _ _ _ _ he _ => exact absurd he h1
              | up _ _ _ _ he _ _ => exact absurd he h2
              | descend _ _ _ _ _ _ _ _ _ _ _ _ hdir _ =>
                rw [hg] at hdir
                exact absurd hdir (by simp)
          | some nd =>
            cases nd with
            | dir dn pl m ig ch =>
              constructor
              · intro h
                exact .descend pos part rest out h0 h1 h2 dn pl m ig ch hg
                  ((ih (pos ++ [part]) out).mp h)
              · intro h
                cases h with
                | blank _ _ _ _ he _ => exact absurd he h0
                | dot _ _ _ _ he _ => exact absurd he h1
                | up _ _ _ _ he _ _ => exact absurd he h2
                | descend _ _ _ _ _ _ _ _ _ _ _ _ hdir hsub =>
                  exact (ih (pos ++ [part]) out).mpr hsub
            | sym sn spl sm st =>
              constructor
              · intro h
                exact absurd h (by simp)
              · intro h
                cases h with
                | blank _ _ _ _ he _ => exact absurd he h0
                | dot _ _ _ _ he _ => exact absurd he h1
                | up _ _ _ _ he _ _ => exact absurd he h2
                | descend _ _ _ _ _ _ _ _ _ _ _ _ hdir _ =>
                  rw [hg] at hdir
                  exact absurd hdir (by simp)
            | file fn fpl fm fsz fts fck =>
              constructor
              · intro h
                exact absurd h (by simp)
              · intro h
                cases h with
                | blank _ _ _ _ he _ => exact absurd he h0
                | dot _ _ _ _ he _ => exact absurd he h1
                | up _ _ _ _ he _ _ => exact absurd he h2
                | descend _ _ _ _ _ _ _ _ _ _ _ _ hdir _ =>
                  rw [hg] at hdir
                  exact absurd hdir (by simp)

/-- Python `str.split(sep)` never yields an empty list of parts. -/
theorem pySplitChar_ne_nil (sep : Char) (cs : List Char) :
    pySplitChar sep cs ≠ [] := by
  induction cs with
  | nil => simp [pySplitChar]
  | cons c rest ih =>
    simp only [pySplitChar]
    split
    · simp
    · cases h : pySplitChar sep rest <;> simp

/-- C8 counterexample: the claim says a `..` segment at the root leaves
the walk at the root.  In `find_target` a `..` at the root is NOT
clamped: the `if node.parent:` guard fails, control falls through to
`return None`, and the rule becomes inapplicable — while a `.` segment
at the root really is a no-op. -/
theorem find_target_root_dotdot_counterexample :
    findTarget pairTree [] "/.." = none ∧
    findTarget pairTree [] "/." = some [] := ⟨rfl, rfl⟩

/-- C8 (amended): `find_target` splits the stripped target on `/`,
starts at the tree root when the target begins with `/` and otherwise at
the defining file's parent, and resolves the remaining segments per
`SegResolve`: empty and `.` segments are no-ops, `..` moves to the
parent and FAILS at the root (the rule becomes inapplicable; it is not
clamped), and any other segment steps into the named child, failing when
it is missing or not a directory. -/
theorem find_target_spec (root : FNode) (sourceParent : List String)
    (target : String) (out : List String) :
    findTarget root sourceParent target = some out ↔
      ∃ p0 rest,
        (pySplitChar '/' (pyStrip target.toList)).map
          (fun cs => String.mk cs) = p0 :: rest ∧
        (if p0 = "" then SegResolve root [] rest out
         else SegResolve root sourceParent (p0 :: rest) out) := by
  unfold findTarget
  cases hp : (pySplitChar '/' (pyStrip target.toList)).map
      (fun cs => String.mk cs) with
  | nil =>
    rw [List.map_eq_nil_iff] at hp
    exact absurd hp (pySplitChar_ne_nil '/' (pyStrip target.toList))
  | cons p0 rest =>
    dsimp only
    by_cases h0 : p0 = ""
    · subst h0
      rw [if_pos rfl]
      constructor
      · intro h
        exact ⟨"", rest, rfl, by
          rw [if_pos rfl]
          exact (findTargetGo_iff root rest [] out).mp h⟩
      · rintro ⟨q0, qrest, hq, hres⟩
        injection hq with hA hB
        subst hA
        subst hB
        rw [if_pos rfl] at hres
        exact (findTargetGo_iff root rest [] out).mpr hres
    · rw [if_neg h0]
      constructor
      · intro h
        exact ⟨p0, rest, rfl, by
          rw [if_neg h0]
          exact (findTargetGo_iff root (p0 :: rest) sourceParent out).mp h⟩
      · rintro ⟨q0, qrest, hq, hres⟩
        injection hq with hA hB
        subst hA
        subst hB
        rw [if_neg h0] at hres
        exact (findTargetGo_iff root (p0 :: rest) sourceParent out).mpr hres

/-- Witness for `find_target_spec` at a concrete input: resolving the
target `/a` in `pairTree`. -/
theorem find_target_spec_witness :
    ∃ p0 rest,
      (pySplitChar '/' (pyStrip "/a".toList)).map
        (fun cs => String.mk cs) = p0 :: rest ∧
      (if p0 = "" then SegResolve pairTree [] rest ["a"]
       else SegResolve pairTree [] (p0 :: rest) ["a"]) :=
  (find_target_spec pairTree [] "/a" ["a"]).mp rfl

/-! ### C9: pattern matching and version capture -/

/-- `attachFn` never changes a node's name. -/
theorem attachFn_name (sm : List MetaRec) (an : List String)
    (v2 : Option String) (nd : FNode) : (attachFn sm an v2 nd).name = nd.name := by
  cases v2 <;> cases nd <;> rfl

/-- A well-formed children list minus its head is well formed. -/
theorem wfChildren_tail (d : FNode) (ds : List FNode)
    (h : wfChildren (d :: ds) = true) : wfChildren ds = true := by
  cases ds with
  | nil => rfl
  | cons e es =>
    rw [show wfChildren (d :: e :: es) =
      (wfNode d && strLt d.name e.name && wfChildren (e :: es))
      from rfl] at h
    simp only [Bool.and_eq_true] at h
    exact h.2

/-- In a well-formed children list, looking up a member's name finds that
member. -/
theorem wf_findChild_of_mem (ch : List FNode) (hwf : wfChildren ch = true)
    (c : FNode) (hc : c ∈ ch) : findChild c.name ch = some c := by
  induction ch with
  | nil => exact absurd hc (by simp)
  | cons d ds ih =>
    rcases List.mem_cons.mp hc with rfl | hc2
    · simp [findChild]
    · have hlt : strLt d.name c.name = true :=
        chain_names_lt d ds (wfChildren_chain _ hwf) c hc2
      rw [findChild, if_neg (strLt_ne _ _ hlt)]
      exact ih (wfChildren_tail d ds hwf) hc2

/-- A well-formed children list has pairwise-distinct names. -/
theorem wfChildren_names_nodup (l : List FNode) (h : wfChildren l = true) :
    (l.map FNode.name).Nodup := by
  induction l with
  | nil => simp
  | cons c cs ih =>
    rw [List.map_cons, List.nodup_cons]
    refine ⟨?_, ih (wfChildren_tail c cs h)⟩
    intro hmem
    obtain ⟨d, hd, hdn⟩ := List.mem_map.mp hmem
    exact strLt_ne _ _ (chain_names_lt c cs (wfChildren_chain _ h) d hd)
      hdn.symm

/-- Sibling positions under a common parent are prefix-incomparable. -/
theorem append_singleton_incomparable (pos : List String) (a b : String)
    (h : a ≠ b) : ¬ (pos ++ [a] <+: pos ++ [b]) := by
  induction pos with
  | nil =>
    intro hp
    exact h (List.cons_prefix_cons.mp hp).1
  | cons x xs ih =>
    intro hp
    exact ih (List.cons_prefix_cons.mp hp).2

/-- One `attachStep` leaves positions other than the stepped child — and
the stepped child itself when its name does not match — untouched. -/
theorem attachStep_getNode (sm : List MetaRec) (an : List String)
    (toks : List Tok) (pos : List String) (st : FNode × Option String)
    (a nm : String) (hcase : a ≠ nm ∨ segMatch toks a.toList = none) :
    getNode (pos ++ [nm]) (attachStep sm an toks pos st a).1 =
      getNode (pos ++ [nm]) st.1 := by
  unfold attachStep
  cases hm : segMatch toks a.toList with
  | none => rfl
  | some cap =>
    have hanm : a ≠ nm := by
      rcases hcase with h | h
      · exact h
      · rw [hm] at h
        exact absurd h (by simp)
    dsimp only
    exact getNode_modifyAt_disjoint _ (attachFn_name sm an _)
      (pos ++ [a]) (pos ++ [nm]) st.1
      (append_singleton_incomparable pos a nm hanm)
      (append_singleton_incomparable pos nm a (Ne.symm hanm))

/-- The child loop leaves a non-matching child's position untouched. -/
theorem foldl_attachStep_preserve (sm : List MetaRec) (an : List String)
    (toks : List Tok) (pos : List String) (names : List String)
    (nm : String) (hcap : segMatch toks nm.toList = none) :
    ∀ st : FNode × Option String,
      getNode (pos ++ [nm])
        ((names.foldl (attachStep sm an toks pos) st)).1 =
      getNode (pos ++ [nm]) st.1 := by
  induction names with
  | nil => intro st; rfl
  | cons a rest ih =>
    intro st
    rw [List.foldl_cons, ih]
    refine attachStep_getNode sm an toks pos st a nm ?_
    by_cases hanm : a = nm
    · subst hanm
      exact Or.inr hcap
    · exact Or.inl hanm

/-- The child loop over names not containing `nm` leaves position
`pos ++ [nm]` untouched. -/
theorem foldl_attachStep_skip (sm : List MetaRec) (an : List String)
    (toks : List Tok) (pos : List String) (names : List String)
    (nm : String) (hnot : nm ∉ names) :
    ∀ st : FNode × Option String,
      getNode (pos ++ [nm])
        ((names.foldl (attachStep sm an toks pos) st)).1 =
      getNode (pos ++ [nm]) st.1 := by
  induction names with
  | nil => intro st; rfl
  | cons a rest ih =>
    intro st
    rw [List.foldl_cons,
      ih (fun h => hnot (List.mem_cons_of_mem a h))]
    exact attachStep_getNode sm an toks pos st a nm
      (Or.inl fun he => hnot (he ▸ List.mem_cons_self a rest))

/-- The child loop attaches the static and captured-version metadata at a
child whose name matches with capture `v` and occurs once in the list. -/
theorem foldl_attachStep_hit (sm : List MetaRec) (an : List String)
    (toks : List Tok) (pos : List String) (nm : String) (v : String)
    (hcap : segMatch toks nm.toList = some (some v)) :
    ∀ (pre post : List String) (st : FNode × Option String) (c : FNode),
      nm ∉ pre → nm ∉ post →
      getNode (pos ++ [nm]) st.1 = some c →
      getNode (pos ++ [nm])
        ((pre ++ nm :: post).foldl (attachStep sm an toks pos) st).1 =
        some (attachFn sm an (some v) c) := by
  intro pre
  induction pre with
  | nil =>
    intro post st c _ hpost hc
    rw [List.nil_append, List.foldl_cons]
    have hstep : attachStep sm an toks pos st nm =
        (modifyAt (attachFn sm an (some v)) (pos ++ [nm]) st.1, some v) := by
      unfold attachStep
      rw [hcap]
    rw [hstep, foldl_attachStep_skip sm an toks pos post nm hpost]
    have := getNode_modifyAt_append (attachFn sm an (some v))
      (attachFn_name sm an (some v)) (pos ++ [nm]) [] st.1 c hc
    simpa using this
  | cons a pre2 ih =>
    intro post st c hpre hpost hc
    rw [List.cons_append, List.foldl_cons]
    refine ih post _ c (fun h => hpre (List.mem_cons_of_mem a h)) hpost ?_
    rw [attachStep_getNode sm an toks pos st a nm
      (Or.inl fun he => hpre (he ▸ List.mem_cons_self a pre2))]
    exact hc

/-- `_applymeta_walk` on a last glob segment is the attach loop over the
children's names. -/
theorem applymetaGo_single_pat (sm : List MetaRec) (an : List String)
    (toks : List Tok) (root : FNode) (pos : List String)
    (ver : Option String) (dn : String) (pl : List String) (m : Meta)
    (ig : List String) (ch : List FNode)
    (hroot : getNode pos root = some (.dir dn pl m ig ch)) :
    applymetaGo sm an [.pat toks] root pos ver =
      ((ch.map FNode.name).foldl (attachStep sm an toks pos)
        (root, ver)).1 := by
  unfold applymetaGo
  rw [hroot]
  rfl

/-- C9 counterexample: with the rule pattern `pkg-FILEVERSION.txt`
(placeholder in the version position), the placeholder becomes the
regex group `(?P<version>[0-9\.]+)`, so the compiled pattern does not
match `pkg-abc.txt` at all: the rule attaches NOTHING to that file — not
its static meta either, contrary to the claim.  The dotted-numeric case
`pkg-1.2.txt` behaves as claimed: static meta plus one auto-`provides`
record per autoname entry with the captured version `1.2`. -/
theorem applymeta_nonnumeric_counterexample :
    applymetaOneRule abcTree [] "pkg-FILEVERSION.txt"
      [[("type", "tag"), ("tag", "t")]] ["p"] = abcTree ∧
    applymetaOneRule numTree [] "pkg-FILEVERSION.txt"
      [[("type", "tag"), ("tag", "t")]] ["p"] =
      .dir "" [] [] []
        [.file "pkg-1.2.txt" ["pkg-1.2.txt"]
          [("tag", [[("type", "tag"), ("tag", "t")]]),
           ("provides",
             [[("type", "provides"), ("name", "p"), ("version", "1.2")]])]
          1 2 "x"] := ⟨rfl, rfl⟩

/-- C9 (amended): for a rule whose (last) pattern segment contains the
version placeholder, walking a well-formed directory: a child whose name
matches with a dotted-numeric string in the placeholder position gets
the rule's static meta plus one `provides` record per autoname entry
carrying the captured version; a child whose name does NOT match the
compiled pattern (in particular one with a non-numeric string in the
placeholder position, since the placeholder group requires `[0-9.]+`) is
left completely unchanged — it does not receive the static meta. -/
theorem applymeta_version_capture (sm : List MetaRec) (an : List String)
    (toks : List Tok) (root : FNode) (pos : List String) (dn : String)
    (pl : List String) (m : Meta) (ig : List String) (ch : List FNode)
    (c : FNode) (hroot : getNode pos root = some (.dir dn pl m ig ch))
    (hwf : wfChildren ch = true) (hc : c ∈ ch) :
    (segMatch toks c.name.toList = none →
      getNode (pos ++ [c.name])
        (applymetaGo sm an [.pat toks] root pos none) = some c) ∧
    ∀ v, segMatch toks c.name.toList = some (some v) →
      getNode (pos ++ [c.name])
        (applymetaGo sm an [.pat toks] root pos none) =
        some (nodeAddMetaVals (applyVersionRecs an v)
          (nodeAddMetaVals sm c)) := by
  have hgc : getNode (pos ++ [c.name]) root = some c := by
    rw [getNode_append, hroot, Option.some_bind, getNode_singleton,
      wf_findChild_of_mem ch hwf c hc]
  have hnames := applymetaGo_single_pat sm an toks root pos none
    dn pl m ig ch hroot
  constructor
  · intro hnone
    rw [hnames,
      foldl_attachStep_preserve sm an toks pos (ch.map FNode.name)
        c.name hnone (root, none)]
    exact hgc
  · intro v hv
    obtain ⟨pre, post, hsplit⟩ :=
      List.append_of_mem (List.mem_map_of_mem FNode.name hc)
    have hnodup := wfChildren_names_nodup ch hwf
    rw [hsplit] at hnodup
    have hnotin : c.name ∉ pre ++ post :=
      (List.nodup_cons.mp (List.nodup_middle.mp hnodup)).1
    rw [hnames, hsplit]
    exact foldl_attachStep_hit sm an toks pos c.name v hv pre post
      (root, none) c (fun h => hnotin (List.mem_append_left _ h))
      (fun h => hnotin (List.mem_append_right _ h)) hgc

/-- Witness for `applymeta_version_capture` on `numTree` and the pattern
`pkg-FILEVERSION.txt`. -/
theorem applymeta_version_capture_witness :
    (segMatch (tokenizeSeg "pkg-FILEVERSION.txt".toList)
        ("pkg-1.2.txt" : String).toList = none →
      getNode ([] ++ ["pkg-1.2.txt"])
        (applymetaGo [[("type", "tag"), ("tag", "t")]] ["p"]
          [.pat (tokenizeSeg "pkg-FILEVERSION.txt".toList)]
          numTree [] none) =
        some (.file "pkg-1.2.txt" ["pkg-1.2.txt"] [] 1 2 "x")) ∧
    ∀ v, segMatch (tokenizeSeg "pkg-FILEVERSION.txt".toList)
        ("pkg-1.2.txt" : String).toList = some (some v) →
      getNode ([] ++ ["pkg-1.2.txt"])
        (applymetaGo [[("type", "tag"), ("tag", "t")]] ["p"]
          [.pat (tokenizeSeg "pkg-FILEVERSION.txt".toList)]
          numTree [] none) =
        some (nodeAddMetaVals (applyVersionRecs ["p"] v)
          (nodeAddMetaVals [[("type", "tag"), ("tag", "t")]]
            (.file "pkg-1.2.txt" ["pkg-1.2.txt"] [] 1 2 "x"))) :=
  applymeta_version_capture [[("type", "tag"), ("tag", "t")]] ["p"]
    (tokenizeSeg "pkg-FILEVERSION.txt".toList) numTree [] "" [] [] []
    [.file "pkg-1.2.txt" ["pkg-1.2.txt"] [] 1 2 "x"]
    (.file "pkg-1.2.txt" ["pkg-1.2.txt"] [] 1 2 "x") rfl (by decide)
    (List.mem_singleton.mpr rfl)

/-! ### C3: decimal, comma-join and metadata round-trip lemmas -/

/-- The ten digit characters: digit value, classification and
disambiguation facts. -/
theorem digitChar_facts (d : Nat) (h : d < 10) :
    (digitChar d).isDigit = true ∧ digitVal (digitChar d) = d ∧
    pyIsSpace (digitChar d) = false ∧ digitChar d ≠ '+' ∧
    digitChar d ≠ '-' := by
  interval_cases d <;> decide

/-- `str()` of a natural number is nonempty. -/
theorem natRepr_ne_nil (n : Nat) : natRepr n ≠ [] := by
  rw [natRepr.eq_def]
  split
  · simp
  · simp

/-- Every character of `str()` of a natural number is a digit char. -/
theorem natRepr_mem (n : Nat) :
    ∀ c ∈ natRepr n, ∃ d, d < 10 ∧ c = digitChar d := by
  induction n using Nat.strong_induction_on with
  | _ n ih =>
    rw [natRepr.eq_def]
    split
    next h =>
      intro c hc
      simp only [List.mem_singleton] at hc
      exact ⟨n, h, hc⟩
    next h =>
      intro c hc
      rw [List.mem_append] at hc
      rcases hc with hc | hc
      · exact ih (n / 10) (Nat.div_lt_self (by omega) (by omega)) c hc
      · simp only [List.mem_singleton] at hc
        exact ⟨n % 10, Nat.mod_lt _ (by omega), hc⟩

/-- `pyDigitsAux` on an all-digit list accumulates the decimal value. -/
theorem pyDigitsAux_digits (cs : List Char)
    (h : ∀ c ∈ cs, c.isDigit = true) :
    ∀ a, pyDigitsAux a cs =
      some (cs.foldl (fun x c => 10 * x + digitVal c) a) := by
  induction cs with
  | nil => intro a; rfl
  | cons c rest ih =>
    intro a
    have hc : c.isDigit = true := h c (List.mem_cons_self c rest)
    have hstep : pyDigitsAux a (c :: rest) =
        pyDigitsAux (10 * a + digitVal c) rest := by
      rw [pyDigitsAux.eq_def]
      dsimp only
      rw [if_pos hc]
    rw [hstep, ih (fun x hx => h x (List.mem_cons_of_mem c hx)),
      List.foldl_cons]

/-- The decimal value of `str(n)` read back with any accumulator. -/
theorem foldl_natRepr (n : Nat) :
    ∀ a : Nat, (natRepr n).foldl (fun x c => 10 * x + digitVal c) a =
      a * 10 ^ (natRepr n).length + n := by
  induction n using Nat.strong_induction_on with
  | _ n ih =>
    intro a
    rw [natRepr.eq_def]
    split
    next h =>
      simp only [List.foldl_cons, List.foldl_nil, List.length_singleton,
        (digitChar_facts n h).2.1]
      omega
    next h =>
      rw [List.foldl_append, List.length_append,
        ih (n / 10) (Nat.div_lt_self (by omega) (by omega)) a]
      simp only [List.foldl_cons, List.foldl_nil, List.length_singleton,
        (digitChar_facts (n % 10) (Nat.mod_lt _ (by omega))).2.1]
      have hdm : 10 * (n / 10) + n % 10 = n := Nat.div_add_mod n 10
      have hp : 10 ^ ((natRepr (n / 10)).length + 1) =
          10 ^ (natRepr (n / 10)).length * 10 := pow_succ 10 _
      have : 10 * (a * 10 ^ (natRepr (n / 10)).length + n / 10) + n % 10 =
          a * (10 ^ (natRepr (n / 10)).length * 10) +
            (10 * (n / 10) + n % 10) := by ring
      rw [this, hdm, hp]

/-- `int(str(n)) = n` for natural numbers (digit-run parse). -/
theorem pyDigits_natRepr (n : Nat) : pyDigits (natRepr n) = some n := by
  cases hnr : natRepr n with
  | nil => exact absurd hnr (natRepr_ne_nil n)
  | cons c rest =>
    have hdig : ∀ x ∈ c :: rest, x.isDigit = true := by
      intro x hx
      obtain ⟨d, hd, hcd⟩ := natRepr_mem n x (hnr ▸ hx)
      subst hcd
      exact (digitChar_facts d hd).1
    have hstep : pyDigits (c :: rest) = pyDigitsAux (digitVal c) rest := by
      rw [pyDigits.eq_def]
      dsimp only
      rw [if_pos (hdig c (List.mem_cons_self c rest))]
    rw [hstep, pyDigitsAux_digits rest
      (fun x hx => hdig x (List.mem_cons_of_mem c hx)) (digitVal c)]
    have h0 : rest.foldl (fun x c => 10 * x + digitVal c) (digitVal c) =
        (c :: rest).foldl (fun x c => 10 * x + digitVal c) 0 := by
      simp only [List.foldl_cons]
      congr 1
      omega
    rw [h0, ← hnr, foldl_natRepr n 0, Nat.zero_mul, Nat.zero_add]

/-- A list with no stripped characters is left unchanged by
`dropWhile`. -/
theorem dropWhile_no (p : Char → Bool) (l : List Char)
    (h : ∀ c ∈ l, p c = false) : l.dropWhile p = l := by
  cases l with
  | nil => rfl
  | cons c rest =>
    rw [List.dropWhile_cons, h c (List.mem_cons_self c rest)]
    simp

/-- `str.strip()` of a string with no whitespace characters. -/
theorem pyStrip_no_space (cs : List Char)
    (h : ∀ c ∈ cs, pyIsSpace c = false) : pyStrip cs = cs := by
  unfold pyStrip
  rw [dropWhile_no _ _ h,
    dropWhile_no _ _ (fun c hc => h c (List.mem_reverse.mp hc)),
    List.reverse_reverse]

/-- `int(str(z)) = z` for Python integers. -/
theorem pyIntChars_intRepr (z : Int) : pyIntChars (intRepr z) = some z := by
  unfold intRepr
  split
  next hz =>
    have hstrip : pyStrip ('-' :: natRepr z.natAbs) =
        '-' :: natRepr z.natAbs := by
      refine pyStrip_no_space _ ?_
      intro c hc
      rcases List.mem_cons.mp hc with rfl | hc2
      · decide
      · obtain ⟨d, hd, hcd⟩ := natRepr_mem _ c hc2
        subst hcd
        exact (digitChar_facts d hd).2.2.1
    show (match pyStrip ('-' :: natRepr z.natAbs) with
      | '+' :: rest => (pyDigits rest).map (fun n => (n : Int))
      | '-' :: rest => (pyDigits rest).map (fun n => -(n : Int))
      | other => (pyDigits other).map (fun n => (n : Int))) = some z
    rw [hstrip]
    show (pyDigits (natRepr z.natAbs)).map (fun n => -(n : Int)) = some z
    rw [pyDigits_natRepr]
    exact congrArg some (show -(z.natAbs : Int) = z by omega)
  next hz =>
    cases hnr : natRepr z.toNat with
    | nil => exact absurd hnr (natRepr_ne_nil _)
    | cons c rest =>
      have hmem : ∀ x ∈ c :: rest, ∃ d, d < 10 ∧ x = digitChar d :=
        fun x hx => natRepr_mem _ x (hnr ▸ hx)
      have hstrip : pyStrip (c :: rest) = c :: rest := by
        refine pyStrip_no_space _ ?_
        intro x hx
        obtain ⟨d, hd, hcd⟩ := hmem x hx
        subst hcd
        exact (digitChar_facts d hd).2.2.1
      obtain ⟨d, hd, hcd⟩ := hmem c (List.mem_cons_self c rest)
      show (match pyStrip (c :: rest) with
        | '+' :: r => (pyDigits r).map (fun n => (n : Int))
        | '-' :: r => (pyDigits r).map (fun n => -(n : Int))
        | other => (pyDigits other).map (fun n => (n : Int))) = some z
      rw [hstrip]
      have hcp : c ≠ '+' := hcd ▸ (digitChar_facts d hd).2.2.2.1
      have hcm : c ≠ '-' := hcd ▸ (digitChar_facts d hd).2.2.2.2
      split
      next heq => exact absurd (List.cons.inj heq).1 hcp
      next heq => exact absurd (List.cons.inj heq).1 hcm
      next =>
        rw [← hnr, pyDigits_natRepr]
        exact congrArg some (show ((z.toNat : Int)) = z by omega)

/-- `int(str(z)) = z` at the `String` interface used by the loader. -/
theorem pyInt_intRepr (z : Int) : pyInt (String.mk (intRepr z)) = some z :=
  pyIntChars_intRepr z

/-- Splitting a comma-free string on commas yields one part. -/
theorem split_comma_free (cs : List Char) (h : ',' ∉ cs) :
    pySplitChar ',' cs = [cs] := by
  induction cs with
  | nil => rfl
  | cons c rest ih =>
    rw [pySplitChar,
      if_neg (fun he => h (by rw [← he]; exact List.mem_cons_self c rest)),
      ih (fun hm => h (List.mem_cons_of_mem c hm))]

/-- Splitting at the first comma after a comma-free prefix. -/
theorem split_append_comma (xs ys : List Char) (h : ',' ∉ xs) :
    pySplitChar ',' (xs ++ ',' :: ys) = xs :: pySplitChar ',' ys := by
  induction xs with
  | nil =>
    rw [List.nil_append, pySplitChar, if_pos rfl]
  | cons c rest ih =>
    rw [List.cons_append, pySplitChar,
      if_neg (fun he => h (by rw [← he]; exact List.mem_cons_self c rest)),
      ih (fun hm => h (List.mem_cons_of_mem c hm))]

/-- Rebuilding a `String` from its characters. -/
theorem mk_toList (s : String) : String.mk s.toList = s := rfl

/-- The ignore-pattern list survives the comma join and re-split. -/
theorem loadIgnore_roundtrip (ig : List String) (h : igWf ig = true) :
    loadIgnoreChars (joinCommaChars (ig.map String.toList)) = ig := by
  induction ig with
  | nil => rfl
  | cons p ps ih =>
    rw [igWf, List.all_cons, Bool.and_eq_true, Bool.and_eq_true,
      decide_eq_true_eq, decide_eq_true_eq] at h
    obtain ⟨⟨hne, hnc⟩, hps⟩ := h
    have hemp : p.toList.isEmpty = false := by
      cases hp : p.toList with
      | nil => exact absurd hp hne
      | cons _ _ => rfl
    cases ps with
    | nil =>
      show loadIgnoreChars (joinCommaChars [p.toList]) = [p]
      unfold loadIgnoreChars
      rw [show joinCommaChars [p.toList] = p.toList from rfl,
        split_comma_free p.toList hnc]
      rw [List.filter_cons, hemp]
      simp [mk_toList]
    | cons q qs =>
      show loadIgnoreChars
        (p.toList ++ ',' :: joinCommaChars ((q :: qs).map String.toList)) =
          p :: q :: qs
      unfold loadIgnoreChars
      rw [split_append_comma _ _ hnc, List.filter_cons, hemp]
      simp only [Bool.not_false, if_true]
      rw [List.map_cons, mk_toList]
      have := ih hps
      unfold loadIgnoreChars at this
      rw [this]

/-- `loadMetaAux` processes element lists piecewise. -/
theorem loadMetaAux_append (xs ys : List Xml) :
    ∀ acc, loadMetaAux (xs ++ ys) acc = loadMetaAux ys (loadMetaAux xs acc) := by
  induction xs with
  | nil => intro acc; rfl
  | cons x rest ih =>
    intro acc
    cases x with
    | elem t a k => rw [List.cons_append, loadMetaAux, loadMetaAux, ih]

/-- Elements that are not `meta`-tagged are skipped by `_loadmeta`. -/
theorem loadMetaAux_skip (xs : List Xml) (h : ∀ x ∈ xs, x.tag ≠ "meta") :
    ∀ acc, loadMetaAux xs acc = acc := by
  induction xs with
  | nil => intro acc; rfl
  | cons x rest ih =>
    intro acc
    cases x with
    | elem t a k =>
      have ht : ¬(t = "meta") := h (.elem t a k) (List.mem_cons_self _ _)
      rw [loadMetaAux, if_neg ht,
        ih (fun y hy => h y (List.mem_cons_of_mem _ hy))]

/-- Unpacking one canonical meta-dict entry. -/
theorem metaWf_cons (t : String) (rs : List MetaRec) (rest : Meta)
    (h : metaWf ((t, rs) :: rest) = true) :
    rs ≠ [] ∧ nodupRecs rs = true ∧
    (∀ r ∈ rs, (dictGet "type" r).getD "" = t) ∧
    keyLtHead t rest = true ∧
    metaWf rest = true := by
  rw [metaWf.eq_def] at h
  dsimp only at h
  simp only [Bool.and_eq_true] at h
  obtain ⟨⟨⟨⟨h1, h2⟩, h3⟩, h4⟩, h5⟩ := h
  refine ⟨?_, h2, ?_, h4, h5⟩
  · intro he
    subst he
    simp at h1
  · intro r hr
    exact decide_eq_true_eq.mp (List.all_eq_true.mp h3 r hr)

/-- Unpacking record-set distinctness. -/
theorem nodupRecs_cons (r : MetaRec) (rs : List MetaRec)
    (h : nodupRecs (r :: rs) = true) : r ∉ rs ∧ nodupRecs rs = true := by
  simp only [nodupRecs, Bool.and_eq_true, decide_eq_true_eq] at h
  exact h

/-- Adding a record under a key absent from the dict appends the key. -/
theorem metaAdd_fresh (t : String) (rec : MetaRec) (m : Meta)
    (h : ∀ p ∈ m, p.1 ≠ t) : metaAdd t rec m = m ++ [(t, [rec])] := by
  induction m with
  | nil => rfl
  | cons kv rest ih =>
    obtain ⟨k, rs⟩ := kv
    rw [metaAdd, if_neg (h (k, rs) (List.mem_cons_self _ _)),
      ih (fun p hp => h p (List.mem_cons_of_mem _ hp)), List.cons_append]

/-- Adding a record under the dict's last key extends that key's set. -/
theorem metaAdd_last (t : String) (rec : MetaRec) (m : Meta)
    (rs : List MetaRec) (h : ∀ p ∈ m, p.1 ≠ t) :
    metaAdd t rec (m ++ [(t, rs)]) =
      m ++ [(t, if rec ∈ rs then rs else rs ++ [rec])] := by
  induction m with
  | nil =>
    rw [List.nil_append, List.nil_append, metaAdd, if_pos rfl]
  | cons kv rest ih =>
    obtain ⟨k, rs2⟩ := kv
    rw [List.cons_append, metaAdd,
      if_neg (h (k, rs2) (List.mem_cons_self _ _)),
      ih (fun p hp => h p (List.mem_cons_of_mem _ hp)), List.cons_append]

/-- Loading one key's saved record group extends that key's set in
order. -/
theorem loadMetaAux_group (t : String) (recs : List MetaRec) :
    ∀ (done : List MetaRec) (m : Meta),
      (∀ p ∈ m, p.1 ≠ t) →
      (∀ r ∈ recs, (dictGet "type" r).getD "" = t) →
      nodupRecs recs = true →
      (∀ r ∈ recs, r ∉ done) →
      loadMetaAux (recs.map (fun rec => Xml.elem "meta" rec []))
          (m ++ [(t, done)]) =
        m ++ [(t, done ++ recs)] := by
  induction recs with
  | nil =>
    intro done m _ _ _ _
    simp [loadMetaAux]
  | cons r rest ih =>
    intro done m hm htype hnd hdis
    obtain ⟨hnd1, hnd2⟩ := nodupRecs_cons r rest hnd
    rw [List.map_cons, loadMetaAux, if_pos rfl,
      htype r (List.mem_cons_self r rest), metaAdd_last t r m done hm,
      if_neg (hdis r (List.mem_cons_self r rest))]
    rw [ih (done ++ [r]) m hm
      (fun x hx => htype x (List.mem_cons_of_mem r hx)) hnd2
      (fun x hx hmem => by
        rcases List.mem_append.mp hmem with hmem2 | hmem2
        · exact hdis x (List.mem_cons_of_mem r hx) hmem2
        · rw [List.mem_singleton] at hmem2
          exact hnd1 (hmem2 ▸ hx))]
    simp

/-- In a canonical meta dict every later key is greater than the
head's. -/
theorem metaWf_keys_gt (t : String) (rs : List MetaRec) (rest : Meta)
    (h : metaWf ((t, rs) :: rest) = true) :
    ∀ p ∈ rest, strLt t p.1 = true := by
  induction rest generalizing t rs with
  | nil => simp
  | cons hd rest2 ih =>
    obtain ⟨t2, rs2⟩ := hd
    obtain ⟨-, -, -, hlt, htail⟩ := metaWf_cons t rs _ h
    intro p hp
    rcases List.mem_cons.mp hp with rfl | hp2
    · exact hlt
    · exact strLt_trans _ _ _ hlt (ih t2 rs2 htail p hp2)

/-- Loading the saved form of a canonical meta dict appends it to the
accumulated dict. -/
theorem loadMetaAux_saveMeta (g : Meta) :
    ∀ m : Meta, metaWf g = true →
      (∀ p ∈ g, ∀ q ∈ m, q.1 ≠ p.1) →
      loadMetaAux (saveMeta g) m = m ++ g := by
  induction g with
  | nil =>
    intro m _ _
    simp [saveMeta, loadMetaAux]
  | cons hd grest ih =>
    obtain ⟨t, rs⟩ := hd
    intro m hwf hfresh
    have hgt := metaWf_keys_gt t rs grest hwf
    obtain ⟨hne, hnd, hall, -, htail⟩ := metaWf_cons t rs grest hwf
    have hfr : ∀ p ∈ m, p.1 ≠ t :=
      fun p hp => hfresh (t, rs) (List.mem_cons_self _ _) p hp
    cases rs with
    | nil => exact absurd rfl hne
    | cons r0 rtail =>
      obtain ⟨hnd1, hnd2⟩ := nodupRecs_cons r0 rtail hnd
      rw [show saveMeta ((t, r0 :: rtail) :: grest) =
        (r0 :: rtail).map (fun rec => Xml.elem "meta" rec []) ++
          saveMeta grest from rfl]
      rw [loadMetaAux_append, List.map_cons, loadMetaAux, if_pos rfl,
        hall r0 (List.mem_cons_self r0 rtail),
        metaAdd_fresh t r0 m hfr]
      rw [loadMetaAux_group t rtail [r0] m hfr
        (fun x hx => hall x (List.mem_cons_of_mem r0 hx))
        hnd2
        (fun x hx hmem => hnd1 ((List.mem_singleton.mp hmem) ▸ hx))]
      rw [ih (m ++ [(t, [r0] ++ rtail)]) htail
        (fun p hp q hq => by
          rcases List.mem_append.mp hq with hq2 | hq2
          · exact hfresh p (List.mem_cons_of_mem _ hp) q hq2
          · rw [List.mem_singleton] at hq2
            subst hq2
            exact strLt_ne _ _ (hgt p hp))]
      simp

/-- `_loadmeta` of a saved canonical meta dict followed by non-`meta`
elements recovers the dict. -/
theorem loadMeta_roundtrip (m : Meta) (others : List Xml)
    (hwf : metaWf m = true) (hot : ∀ x ∈ others, x.tag ≠ "meta") :
    loadMeta (saveMeta m ++ others) = m := by
  unfold loadMeta
  rw [loadMetaAux_append, loadMetaAux_saveMeta m [] hwf (by simp),
    List.nil_append, loadMetaAux_skip others hot]

/-- The tag a saved node carries. -/
theorem saveNode_tag (c : FNode) : (saveNode c).tag = tagOf c := by
  cases c <;> rfl

/-- Saved node tags are dispatched by the loader. -/
theorem isNodeTag_tagOf (c : FNode) : isNodeTag (tagOf c) = true := by
  cases c <;> rfl

/-- Saved node tags are not `meta`. -/
theorem tagOf_ne_meta (c : FNode) : tagOf c ≠ "meta" := by
  cases c
  · exact (by decide : ("symlink" : String) ≠ "meta")
  · exact (by decide : ("file" : String) ≠ "meta")
  · exact (by decide : ("directory" : String) ≠ "meta")

/-- Every saved meta element is `meta`-tagged. -/
theorem saveMeta_tags (m : Meta) : ∀ x ∈ saveMeta m, x.tag = "meta" := by
  induction m with
  | nil => simp [saveMeta]
  | cons hd rest ih =>
    obtain ⟨t, rs⟩ := hd
    intro x hx
    rw [show saveMeta ((t, rs) :: rest) =
      rs.map (fun rec => Xml.elem "meta" rec []) ++ saveMeta rest
      from rfl, List.mem_append] at hx
    rcases hx with hx | hx
    · obtain ⟨rec, _, hrec⟩ := List.mem_map.mp hx
      rw [← hrec]
      rfl
    · exact ih x hx

/-- Membership in a saved children list. -/
theorem mem_saveList (chl : List FNode) :
    ∀ x ∈ saveList chl, ∃ c, c ∈ chl ∧ x = saveNode c := by
  induction chl with
  | nil => simp [saveList]
  | cons c cs ih =>
    intro x hx
    rw [show saveList (c :: cs) = saveNode c :: saveList cs from rfl] at hx
    rcases List.mem_cons.mp hx with rfl | hx2
    · exact ⟨c, List.mem_cons_self c cs, rfl⟩
    · obtain ⟨d, hd, hxd⟩ := ih x hx2
      exact ⟨d, List.mem_cons_of_mem c hd, hxd⟩

/-- The child loop skips a prefix of non-node elements (the saved meta
elements). -/
theorem loadChildren_skipPre (ppl : List String) (pre rest : List Xml)
    (h : ∀ x ∈ pre, isNodeTag x.tag = false) (acc : List FNode) :
    loadChildren ppl (pre ++ rest) acc = loadChildren ppl rest acc := by
  induction pre with
  | nil => rw [List.nil_append]
  | cons x pre2 ih =>
    rw [List.cons_append, loadChildren,
      h x (List.mem_cons_self x pre2)]
    simp only [Bool.false_eq_true, if_false]
    exact ih (fun y hy => h y (List.mem_cons_of_mem x hy))

/-- Dict assignment with a fresh key appends. -/
theorem upsertChild_fresh (c : FNode) (acc : List FNode)
    (h : ∀ d ∈ acc, d.name ≠ c.name) : upsertChild c acc = acc ++ [c] := by
  induction acc with
  | nil => rfl
  | cons d ds ih =>
    rw [upsertChild, if_neg (h d (List.mem_cons_self d ds)),
      ih (fun e he => h e (List.mem_cons_of_mem d he)), List.cons_append]

mutual

/-- Saving one well-formed node and loading the element back recovers the
node exactly, including the recomputed pathlist. -/
theorem loadNode_saveNode (c : FNode) (ppl : List String)
    (hwf : wfNode c = true) (hsw : saveWf c = true)
    (hpl : plOk (ppl ++ [c.name]) c = true) :
    loadNode ppl (saveNode c) = some c := by
  cases c with
  | sym n pl m t =>
    have hm : metaWf m = true := hsw
    have hpl2 : pl = ppl ++ [n] := by
      simpa [plOk, FNode.name] using hpl
    have hres : loadNode ppl (saveNode (.sym n pl m t)) =
        some (.sym n (ppl ++ [n]) (loadMeta (saveMeta m)) t) := rfl
    rw [hres]
    have hmeta := loadMeta_roundtrip m [] hm (by simp)
    rw [List.append_nil] at hmeta
    rw [hmeta, ← hpl2]
  | file n pl m sz ts ck =>
    have hm : metaWf m = true := hsw
    have hpl2 : pl = ppl ++ [n] := by
      simpa [plOk, FNode.name] using hpl
    have hres : loadNode ppl (saveNode (.file n pl m sz ts ck)) =
        (match pyInt (String.mk (intRepr sz)),
            pyInt (String.mk (intRepr ts)) with
         | some s2, some t2 =>
           some (.file n (ppl ++ [n]) (loadMeta (saveMeta m)) s2 t2 ck)
         | _, _ => none) := rfl
    rw [hres, pyInt_intRepr sz, pyInt_intRepr ts]
    have hmeta := loadMeta_roundtrip m [] hm (by simp)
    rw [List.append_nil] at hmeta
    show some (FNode.file n (ppl ++ [n]) (loadMeta (saveMeta m)) sz ts ck) = _
    rw [hmeta, ← hpl2]
  | dir n pl m ig chl =>
    have hsw2 : metaWf m = true ∧ igWf ig = true ∧ saveWfList chl = true := by
      have : saveWf (.dir n pl m ig chl) =
          (metaWf m && igWf ig && saveWfList chl) := rfl
      rw [this, Bool.and_eq_true, Bool.and_eq_true] at hsw
      exact ⟨hsw.1.1, hsw.1.2, hsw.2⟩
    have hwf2 : wfChildren chl = true := hwf
    have hpl2 : pl = ppl ++ [n] ∧
        plOkChildren (ppl ++ [n]) chl = true := by
      have : plOk (ppl ++ [FNode.name (.dir n pl m ig chl)])
          (.dir n pl m ig chl) =
          (decide (pl = ppl ++ [n]) && plOkChildren (ppl ++ [n]) chl) := rfl
      rw [this, Bool.and_eq_true, decide_eq_true_eq] at hpl
      exact hpl
    have hmeta := loadMeta_roundtrip m (saveList chl) hsw2.1 (by
      intro x hx
      obtain ⟨d, _, hxd⟩ := mem_saveList chl x hx
      rw [hxd, saveNode_tag]
      exact tagOf_ne_meta d)
    have hkids : loadChildren (ppl ++ [n]) (saveMeta m ++ saveList chl) [] =
        some chl := by
      rw [loadChildren_skipPre (ppl ++ [n]) (saveMeta m) (saveList chl)
        (fun x hx => by rw [saveMeta_tags m x hx]; rfl) []]
      have := loadChildren_saveList chl (ppl ++ [n]) hwf2 hsw2.2.2
        hpl2.2 [] (by simp)
      simpa using this
    have hres : loadNode ppl (saveNode (.dir n pl m ig chl)) =
        (match loadChildren (ppl ++ [n]) (saveMeta m ++ saveList chl) [] with
         | some chl2 =>
           some (.dir n (ppl ++ [n])
             (loadMeta (saveMeta m ++ saveList chl))
             (loadIgnoreChars
               ((dictGet "ignore"
                 (nodeAttrs (.dir n pl m ig chl))).getD "").toList) chl2)
         | none => none) := rfl
    rw [hres, hkids]
    show some (FNode.dir n (ppl ++ [n])
      (loadMeta (saveMeta m ++ saveList chl))
      (loadIgnoreChars
        ((dictGet "ignore" (nodeAttrs (.dir n pl m ig chl))).getD "").toList)
      chl) = _
    rw [hmeta, ← hpl2.1]
    by_cases hig : ig = []
    · subst hig
      rfl
    · have hattr : dictGet "ignore" (nodeAttrs (.dir n pl m ig chl)) =
          some (String.mk (joinCommaChars (ig.map String.toList))) := by
        show dictGet "ignore" (("name", n) ::
          (if ig = [] then []
           else [("ignore",
             String.mk (joinCommaChars (ig.map String.toList)))])) = _
        rw [if_neg hig]
        rfl
      rw [hattr]
      show some (FNode.dir n pl m
        (loadIgnoreChars (joinCommaChars (ig.map String.toList))) chl) = _
      rw [loadIgnore_roundtrip ig hsw2.2.1]

/-- Saving a well-formed children list and loading the elements back
appends the children, in order, to the accumulated dict. -/
theorem loadChildren_saveList (chl : List FNode) (ppl : List String)
    (hwf : wfChildren chl = true) (hsw : saveWfList chl = true)
    (hpl : plOkChildren ppl chl = true) :
    ∀ acc : List FNode, (∀ x ∈ chl, ∀ d ∈ acc, d.name ≠ x.name) →
      loadChildren ppl (saveList chl) acc = some (acc ++ chl) := by
  cases chl with
  | nil =>
    intro acc _
    simp [saveList, loadChildren]
  | cons c cs =>
    intro acc hdis
    have hwfc : wfNode c = true :=
      wfChildren_wfNode _ hwf c (List.mem_cons_self c cs)
    have hwfcs : wfChildren cs = true := wfChildren_tail c cs hwf
    have hswp : saveWf c = true ∧ saveWfList cs = true := by
      have : saveWfList (c :: cs) = (saveWf c && saveWfList cs) := rfl
      rw [this, Bool.and_eq_true] at hsw
      exact hsw
    have hplp : plOk (ppl ++ [c.name]) c = true ∧
        plOkChildren ppl cs = true := by
      have : plOkChildren ppl (c :: cs) =
          (plOk (ppl ++ [c.name]) c && plOkChildren ppl cs) := rfl
      rw [this, Bool.and_eq_true] at hpl
      exact hpl
    have htag : isNodeTag (saveNode c).tag = true := by
      rw [saveNode_tag]
      exact isNodeTag_tagOf c
    rw [show saveList (c :: cs) = saveNode c :: saveList cs from rfl,
      loadChildren, if_pos htag]
    rw [loadNode_saveNode c ppl hwfc hswp.1 hplp.1]
    show loadChildren ppl (saveList cs) (upsertChild c acc) =
      some (acc ++ c :: cs)
    rw [upsertChild_fresh c acc
      (fun d hd => hdis c (List.mem_cons_self c cs) d hd)]
    rw [loadChildren_saveList cs ppl hwfcs hswp.2 hplp.2 (acc ++ [c])
      (fun x hx d hd => by
        rcases List.mem_append.mp hd with hd2 | hd2
        · exact hdis x (List.mem_cons_of_mem c hx) d hd2
        · rw [List.mem_singleton] at hd2
          rw [hd2]
          exact strLt_ne _ _
            (chain_names_lt c cs (wfChildren_chain _ hwf) x hx))]
    simp

end

/-- C3: saving a well-formed collection and reloading the saved document
recovers exactly the same tree: node kinds, names, pathlists, file
sizes, timestamps, checksums, symlink targets, directory ignore-pattern
lists and per-node metadata records. -/
theorem collection_roundtrip (autoroot : String) (root : FNode)
    (hname : root.name = "") (hdir : root.isDir = true)
    (hwf : wfNode root = true) (hsw : saveWf root = true)
    (hpl : plOk [] root = true) :
    (loadCollection (saveCollection autoroot root)).map Prod.snd =
      some root := by
  cases root with
  | sym n pl m t => exact absurd hdir (by simp [FNode.isDir])
  | file n pl m sz ts ck => exact absurd hdir (by simp [FNode.isDir])
  | dir n pl m ig chl =>
    have hn : n = "" := hname
    subst hn
    have hsw2 : metaWf m = true ∧ igWf ig = true ∧ saveWfList chl = true := by
      have : saveWf (.dir "" pl m ig chl) =
          (metaWf m && igWf ig && saveWfList chl) := rfl
      rw [this, Bool.and_eq_true, Bool.and_eq_true] at hsw
      exact ⟨hsw.1.1, hsw.1.2, hsw.2⟩
    have hwf2 : wfChildren chl = true := hwf
    have hpl2 : pl = [] ∧ plOkChildren [] chl = true := by
      have : plOk [] (.dir "" pl m ig chl) =
          (decide (pl = []) && plOkChildren [] chl) := rfl
      rw [this, Bool.and_eq_true, decide_eq_true_eq] at hpl
      exact hpl
    have hmeta := loadMeta_roundtrip m (saveList chl) hsw2.1 (by
      intro x hx
      obtain ⟨d, _, hxd⟩ := mem_saveList chl x hx
      rw [hxd, saveNode_tag]
      exact tagOf_ne_meta d)
    have hkids : loadChildren [] (saveMeta m ++ saveList chl) [] =
        some chl := by
      rw [loadChildren_skipPre [] (saveMeta m) (saveList chl)
        (fun x hx => by rw [saveMeta_tags m x hx]; rfl) []]
      have := loadChildren_saveList chl [] hwf2 hsw2.2.2 hpl2.2 [] (by simp)
      simpa using this
    have hres : loadCollection (saveCollection autoroot (.dir "" pl m ig chl)) =
        (match loadChildren [] (saveMeta m ++ saveList chl) [] with
         | some chl2 =>
           some ((dictGet "root"
               (("root", if autoroot = "" then "." else autoroot) ::
                 (if ig = [] then []
                  else [("ignore", String.mk
                    (joinCommaChars (ig.map String.toList)))]))).getD ".",
             .dir "" [] (loadMeta (saveMeta m ++ saveList chl))
               (loadIgnoreChars
                 ((dictGet "ignore"
                   (("root", if autoroot = "" then "." else autoroot) ::
                     (if ig = [] then []
                      else [("ignore", String.mk
                        (joinCommaChars (ig.map String.toList)))]))).getD
                   "").toList)
               chl2)
         | none => none) := rfl
    rw [hres, hkids]
    show some (FNode.dir "" [] (loadMeta (saveMeta m ++ saveList chl))
      (loadIgnoreChars
        ((dictGet "ignore"
          (("root", if autoroot = "" then "." else autoroot) ::
            (if ig = [] then []
             else [("ignore", String.mk
               (joinCommaChars (ig.map String.toList)))]))).getD
          "").toList)
      chl) = some (FNode.dir "" pl m ig chl)
    rw [hmeta, hpl2.1]
    by_cases hig : ig = []
    · subst hig
      rfl
    · have hattr : dictGet "ignore"
          (("root", if autoroot = "" then "." else autoroot) ::
            (if ig = [] then []
             else [("ignore", String.mk
               (joinCommaChars (ig.map String.toList)))])) =
          some (String.mk (joinCommaChars (ig.map String.toList))) := by
        rw [if_neg hig]
        rfl
      rw [hattr]
      show some (FNode.dir "" [] m
        (loadIgnoreChars (joinCommaChars (ig.map String.toList))) chl) = _
      rw [loadIgnore_roundtrip ig hsw2.2.1]

/-- Witness for `collection_roundtrip` on the concrete collection
`rtTree`. -/
theorem collection_roundtrip_witness :
    (loadCollection (saveCollection "." rtTree)).map Prod.snd =
      some rtTree :=
  collection_roundtrip "." rtTree rfl rfl (by decide) (by decide)
    (by decide)

/-! ### C5: update idempotence -/

/-- The update loop's accumulator fold is a map plus event
concatenation. -/
theorem foldl_pair_append (step : FNode → FNode × List Ev) :
    ∀ (l : List FNode) (acc : List FNode × List Ev),
      l.foldl (fun acc c => (acc.1 ++ [(step c).1], acc.2 ++ (step c).2))
          acc =
        (acc.1 ++ l.map (fun c => (step c).1),
         acc.2 ++ (l.map (fun c => (step c).2)).join) := by
  intro l
  induction l with
  | nil => intro acc; simp
  | cons c cs ih =>
    intro acc
    rw [List.foldl_cons, ih]
    simp

/-- `updateDirF` on a directory with fuel, through the named step
function. -/
theorem updateDirF_dir_eq (r f : Bool) (fuel : Nat) (es : List FSEnt)
    (n : String) (pl : List String) (m : Meta) (ig : List String)
    (chl : List FNode) :
    updateDirF r f (fuel + 1) es (.dir n pl m ig chl) =
      ((.dir n pl m ig
        ((updAddPhase m ig pl es (updDelPhase es m ig chl).1).1.foldl
          (fun acc c => (acc.1 ++ [(updStep r f fuel es c).1],
            acc.2 ++ (updStep r f fuel es c).2)) ([], [])).1,
       (updDelPhase es m ig chl).2 ++
         (updAddPhase m ig pl es (updDelPhase es m ig chl).1).2 ++
         ((updAddPhase m ig pl es (updDelPhase es m ig chl).1).1.foldl
           (fun acc c => (acc.1 ++ [(updStep r f fuel es c).1],
             acc.2 ++ (updStep r f fuel es c).2)) ([], [])).2)) := rfl

/-- Membership after a dict insertion. -/
theorem mem_childInsert (nd : FNode) :
    ∀ (l : List FNode) (c : FNode), c ∈ childInsert nd l →
      c = nd ∨ c ∈ l := by
  intro l
  induction l with
  | nil =>
    intro c hc
    simp [childInsert] at hc
    exact Or.inl hc
  | cons d ds ih =>
    intro c hc
    rw [childInsert] at hc
    split at hc
    · rcases List.mem_cons.mp hc with rfl | hc2
      · exact Or.inl rfl
      · exact Or.inr hc2
    · split at hc
      · rcases List.mem_cons.mp hc with rfl | hc2
        · exact Or.inl rfl
        · exact Or.inr (List.mem_cons_of_mem d hc2)
      · rcases List.mem_cons.mp hc with rfl | hc2
        · exact Or.inr (List.mem_cons_self _ _)
        · rcases ih c hc2 with h | h
          · exact Or.inl h
          · exact Or.inr (List.mem_cons_of_mem d h)

/-- A present name stays present through a dict insertion. -/
theorem findChild_childInsert_isSome (nd : FNode) (l : List FNode)
    (x : String) (h : (findChild x l).isSome = true) :
    (findChild x (childInsert nd l)).isSome = true := by
  by_cases hx : x = nd.name
  · subst hx
    rw [findChild_childInsert_self]
    rfl
  · rw [findChild_childInsert_ne nd x hx]
    exact h

/-- The created node carries the listing entry's name. -/
theorem newNode_name (pl : List String) (e : FSEnt) (c : FNode)
    (h : newNode pl e = some c) : c.name = fsName e := by
  cases e <;> simp [newNode] at h <;> subst h <;> rfl

/-- Representable entries produce a node. -/
theorem realEnt_newNode (pl : List String) (e : FSEnt)
    (h : realEnt e = true) : ∃ c, newNode pl e = some c := by
  cases e with
  | fsSym a b => exact ⟨_, rfl⟩
  | fsFile a b c d => exact ⟨_, rfl⟩
  | fsDir a b => exact ⟨_, rfl⟩
  | fsOther a => exact absurd h (by simp [realEnt])

/-- A lookup hit is a member of the listing. -/
theorem fsLookup_mem (nm : String) :
    ∀ (es : List FSEnt) (e : FSEnt), fsLookup nm es = some e → e ∈ es := by
  intro es
  induction es with
  | nil => intro e h; exact absurd h (by simp [fsLookup])
  | cons d ds ih =>
    intro e h
    rw [fsLookup] at h
    split at h
    · cases h
      exact List.mem_cons_self _ _
    · exact List.mem_cons_of_mem d (ih e h)

/-- Unpacking listing realism. -/
theorem fsWfL_cons (e : FSEnt) (rest : List FSEnt)
    (h : fsWfL (e :: rest) = true) :
    fsWfE e = true ∧ fsName e ∉ rest.map fsName ∧ fsWfL rest = true := by
  rw [show fsWfL (e :: rest) =
    (fsWfE e && decide (fsName e ∉ rest.map fsName) && fsWfL rest)
    from rfl, Bool.and_eq_true, Bool.and_eq_true, decide_eq_true_eq] at h
  exact ⟨h.1.1, h.1.2, h.2⟩

/-- Realism of a member entry. -/
theorem fsWfE_of_mem : ∀ (es : List FSEnt), fsWfL es = true →
    ∀ e ∈ es, fsWfE e = true := by
  intro es
  induction es with
  | nil => simp
  | cons d ds ih =>
    intro h e he
    obtain ⟨h1, _, h3⟩ := fsWfL_cons d ds h
    rcases List.mem_cons.mp he with rfl | he2
    · exact h1
    · exact ih h3 e he2

/-- With unique sibling names, looking up a member's name finds it. -/
theorem fsLookup_of_mem_nodup : ∀ (es : List FSEnt), fsWfL es = true →
    ∀ e ∈ es, fsLookup (fsName e) es = some e := by
  intro es
  induction es with
  | nil => simp
  | cons d ds ih =>
    intro h e he
    obtain ⟨-, h2, h3⟩ := fsWfL_cons d ds h
    rcases List.mem_cons.mp he with rfl | he2
    · rw [fsLookup, if_pos rfl]
    · have hne : fsName d ≠ fsName e := by
        intro hx
        exact h2 (hx ▸ List.mem_map_of_mem fsName he2)
      rw [fsLookup, if_neg hne]
      exact ih h3 e he2

/-- A member's depth bounds below the listing depth. -/
theorem fsDepth_le_of_mem : ∀ (es : List FSEnt), ∀ e ∈ es,
    fsDepth e ≤ fsDepthList es := by
  intro es
  induction es with
  | nil => simp
  | cons d ds ih =>
    intro e he
    rcases List.mem_cons.mp he with rfl | he2
    · exact le_max_left _ _
    · exact le_trans (ih e he2) (le_max_right _ _)

/-- What survives the delete loop: members of the original children
list, unignored and existing on disk of the same kind. -/
theorem mem_updDelPhase (es : List FSEnt) (m : Meta) (ig : List String) :
    ∀ (chl : List FNode) (c : FNode), c ∈ (updDelPhase es m ig chl).1 →
      c ∈ chl ∧ ignoreB ig m c.name = false ∧ existsB es c = true := by
  intro chl
  induction chl with
  | nil => simp [updDelPhase]
  | cons d cs ih =>
    intro c hc
    rw [updDelPhase] at hc
    by_cases h1 : ignoreB ig m d.name = true
    · rw [if_pos h1] at hc
      obtain ⟨hm, h2, h3⟩ := ih c hc
      exact ⟨List.mem_cons_of_mem d hm, h2, h3⟩
    · rw [if_neg h1] at hc
      by_cases h2 : existsB es d = false
      · rw [if_pos h2] at hc
        obtain ⟨hm, h3, h4⟩ := ih c hc
        exact ⟨List.mem_cons_of_mem d hm, h3, h4⟩
      · rw [if_neg h2] at hc
        rcases List.mem_cons.mp hc with rfl | hc2
        · exact ⟨List.mem_cons_self _ _,
            Bool.not_eq_true _ ▸ h1, Bool.not_eq_false _ ▸ h2⟩
        · obtain ⟨hm, h3, h4⟩ := ih c hc2
          exact ⟨List.mem_cons_of_mem d hm, h3, h4⟩

/-- The delete loop is a no-op on synchronised children. -/
theorem updDelPhase_noop (es : List FSEnt) (m : Meta) (ig : List String) :
    ∀ chl : List FNode,
      (∀ c ∈ chl, ignoreB ig m c.name = false ∧ existsB es c = true) →
      updDelPhase es m ig chl = (chl, []) := by
  intro chl
  induction chl with
  | nil => intro _; rfl
  | cons d cs ih =>
    intro h
    obtain ⟨h1, h2⟩ := h d (List.mem_cons_self d cs)
    rw [updDelPhase, ih (fun c hc => h c (List.mem_cons_of_mem d hc))]
    rw [if_neg (by rw [h1]; exact fun hx => nomatch hx),
      if_neg (by rw [h2]; exact fun hx => nomatch hx)]

/-- A present name stays present through the add loop. -/
theorem updAddPhase_keep (m : Meta) (ig : List String) (pl : List String) :
    ∀ (es : List FSEnt) (chl : List FNode) (x : String),
      (findChild x chl).isSome = true →
      (findChild x (updAddPhase m ig pl es chl).1).isSome = true := by
  intro es
  induction es with
  | nil => intro chl x h; exact h
  | cons e rest ih =>
    intro chl x h
    rw [updAddPhase]
    split
    · cases hn : newNode pl e with
      | none => exact ih chl x h
      | some nd =>
        exact ih (childInsert nd chl) x
          (findChild_childInsert_isSome nd chl x h)
    · exact ih chl x h

/-- After the add loop, every representable unignored listing entry is
present in the children dict. -/
theorem updAddPhase_adds (m : Meta) (ig : List String) (pl : List String) :
    ∀ (es : List FSEnt) (chl : List FNode) (e : FSEnt), e ∈ es →
      realEnt e = true → ignoreB ig m (fsName e) = false →
      (findChild (fsName e) (updAddPhase m ig pl es chl).1).isSome = true := by
  intro es
  induction es with
  | nil => simp
  | cons e0 rest ih =>
    intro chl e he hr hig
    rcases List.mem_cons.mp he with rfl | he2
    · rw [updAddPhase]
      by_cases hp : (findChild (fsName e) chl).isSome = true
      · split
        · cases hn : newNode pl e with
          | none =>
            obtain ⟨c, hc⟩ := realEnt_newNode pl e hr
            rw [hn] at hc
            exact absurd hc (by simp)
          | some nd =>
            exact updAddPhase_keep m ig pl rest (childInsert nd chl)
              (fsName e) (findChild_childInsert_isSome nd chl _ hp)
        · exact updAddPhase_keep m ig pl rest chl (fsName e) hp
      · rw [if_pos ⟨hig, by
          cases hq : (findChild (fsName e) chl).isSome
          · rfl
          · exact absurd hq hp⟩]
        obtain ⟨c, hc⟩ := realEnt_newNode pl e hr
        rw [hc]
        refine updAddPhase_keep m ig pl rest (childInsert c chl)
          (fsName e) ?_
        have := findChild_childInsert_self c chl
        rw [newNode_name pl e c hc] at this
        rw [this]
        rfl
    · rw [updAddPhase]
      split
      · cases hn : newNode pl e0 with
        | none => exact ih chl e he2 hr hig
        | some nd => exact ih (childInsert nd chl) e he2 hr hig
      · exact ih chl e he2 hr hig

/-- Where children after the add loop come from. -/
theorem mem_updAddPhase (m : Meta) (ig : List String) (pl : List String) :
    ∀ (es : List FSEnt) (chl : List FNode) (c : FNode),
      c ∈ (updAddPhase m ig pl es chl).1 →
      c ∈ chl ∨ ∃ e ∈ es, newNode pl e = some c ∧
        ignoreB ig m (fsName e) = false := by
  intro es
  induction es with
  | nil => intro chl c hc; exact Or.inl hc
  | cons e0 rest ih =>
    intro chl c hc
    rw [updAddPhase] at hc
    split at hc
    · next hcond =>
      cases hn : newNode pl e0 with
      | none =>
        rw [hn] at hc
        rcases ih chl c hc with h | ⟨e, he, h2, h3⟩
        · exact Or.inl h
        · exact Or.inr ⟨e, List.mem_cons_of_mem e0 he, h2, h3⟩
      | some nd =>
        rw [hn] at hc
        rcases ih (childInsert nd chl) c hc with h | ⟨e, he, h2, h3⟩
        · rcases mem_childInsert nd chl c h with rfl | h4
          · exact Or.inr ⟨e0, List.mem_cons_self _ _, hn, hcond.1⟩
          · exact Or.inl h4
        · exact Or.inr ⟨e, List.mem_cons_of_mem e0 he, h2, h3⟩
    · rcases ih chl c hc with h | ⟨e, he, h2, h3⟩
      · exact Or.inl h
      · exact Or.inr ⟨e, List.mem_cons_of_mem e0 he, h2, h3⟩

/-- The add loop is a no-op when every representable unignored entry is
already present. -/
theorem updAddPhase_noop (m : Meta) (ig : List String) (pl : List String) :
    ∀ (es : List FSEnt) (chl : List FNode),
      (∀ e ∈ es, realEnt e = true →
        ignoreB ig m (fsName e) = false →
        (findChild (fsName e) chl).isSome = true) →
      updAddPhase m ig pl es chl = (chl, []) := by
  intro es
  induction es with
  | nil => intro chl _; rfl
  | cons e0 rest ih =>
    intro chl h
    rw [updAddPhase]
    cases hr : realEnt e0 with
    | true =>
      rw [if_neg (by
        rintro ⟨h1, h2⟩
        rw [h e0 (List.mem_cons_self _ _) hr h1] at h2
        exact nomatch h2)]
      exact ih chl (fun e he => h e (List.mem_cons_of_mem e0 he))
    | false =>
      have hn : newNode pl e0 = none := by
        cases e0 with
        | fsOther a => rfl
        | fsSym a b => exact absurd hr (by simp [realEnt])
        | fsFile a b c d => exact absurd hr (by simp [realEnt])
        | fsDir a b => exact absurd hr (by simp [realEnt])
      split
      · rw [hn]
        exact ih chl (fun e he => h e (List.mem_cons_of_mem e0 he))
      · exact ih chl (fun e he => h e (List.mem_cons_of_mem e0 he))

/-- `updateDirF` maps directories to directories, preserving the name,
pathlist, metadata and ignore fields. -/
theorem updateDirF_dir_shape (r f : Bool) (fuel : Nat) (es : List FSEnt)
    (n : String) (pl : List String) (m : Meta) (ig : List String)
    (chl : List FNode) :
    ∃ chl2, (updateDirF r f fuel es (.dir n pl m ig chl)).1 =
      .dir n pl m ig chl2 := by
  cases fuel with
  | zero => exact ⟨chl, rfl⟩
  | succ fuel => exact ⟨_, by rw [updateDirF_dir_eq]⟩

/-- The update loop's dispatch for a symlink child with a symlink on
disk. -/
theorem updStep_sym (r f : Bool) (fuel : Nat) (es : List FSEnt)
    (n2 : String) (pl2 : List String) (m2 : Meta) (t2 : String)
    (fn tgt : String) (hl : fsLookup n2 es = some (.fsSym fn tgt)) :
    updStep r f fuel es (.sym n2 pl2 m2 t2) =
      if tgt ≠ t2 then (.sym n2 pl2 m2 tgt, [Ev.SYMLINK])
      else (.sym n2 pl2 m2 t2, []) := by
  rw [updStep.eq_def]
  dsimp only
  rw [hl]

/-- The update loop's dispatch for a file child with a regular file on
disk. -/
theorem updStep_file (r f : Bool) (fuel : Nat) (es : List FSEnt)
    (n2 : String) (pl2 : List String) (m2 : Meta) (sz ts : Int)
    (ck : String) (fn : String) (s2 mt : Int) (dg : String)
    (hl : fsLookup n2 es = some (.fsFile fn s2 mt dg)) :
    updStep r f fuel es (.file n2 pl2 m2 sz ts ck) =
      (.file n2 pl2 m2 (update_handle_file f sz ts ck ⟨s2, mt⟩ dg).1.1
        (update_handle_file f sz ts ck ⟨s2, mt⟩ dg).1.2.1
        (update_handle_file f sz ts ck ⟨s2, mt⟩ dg).1.2.2,
       (update_handle_file f sz ts ck ⟨s2, mt⟩ dg).2) := by
  rw [updStep.eq_def]
  dsimp only
  rw [hl]

/-- The update loop's dispatch for a directory child with the recurse
option on and a directory on disk. -/
theorem updStep_dir_rec (r f : Bool) (fuel : Nat) (es : List FSEnt)
    (n2 : String) (pl2 : List String) (m2 : Meta) (ig2 : List String)
    (chl2 : List FNode) (fn : String) (sub : List FSEnt)
    (hrec : r = true) (hl : fsLookup n2 es = some (.fsDir fn sub)) :
    updStep r f fuel es (.dir n2 pl2 m2 ig2 chl2) =
      updateDirF r f fuel sub (.dir n2 pl2 m2 ig2 chl2) := by
  rw [updStep.eq_def]
  dsimp only
  rw [if_pos hrec, hl]

/-- The update loop's dispatch never renames a child. -/
theorem updStep_name (r f : Bool) (fuel : Nat) (es : List FSEnt) :
    ∀ c : FNode, ((updStep r f fuel es c).1).name = c.name := by
  intro c
  cases c with
  | sym n2 pl2 m2 t2 =>
    rw [updStep.eq_def]
    dsimp only
    cases fsLookup n2 es with
    | none => rfl
    | some e =>
      cases e with
      | fsSym a b =>
        dsimp only
        split <;> rfl
      | fsFile a b c2 d => rfl
      | fsDir a b => rfl
      | fsOther a => rfl
  | file n2 pl2 m2 sz ts ck =>
    rw [updStep.eq_def]
    dsimp only
    cases fsLookup n2 es with
    | none => rfl
    | some e => cases e <;> rfl
  | dir n2 pl2 m2 ig2 chl2 =>
    rw [updStep.eq_def]
    dsimp only
    cases r with
    | false => rfl
    | true =>
      rw [if_pos rfl]
      cases fsLookup n2 es with
      | none => rfl
      | some e =>
        cases e with
        | fsSym a b => rfl
        | fsFile a b c2 d => rfl
        | fsDir a sub =>
          obtain ⟨chl3, hsh⟩ := updateDirF_dir_shape true f fuel sub
            n2 pl2 m2 ig2 chl2
          dsimp only
          rw [hsh]
          rfl
        | fsOther a => rfl

/-- The update loop's dispatch on a symlink child yields a symlink with
the same name, pathlist and metadata. -/
theorem updStep_kind_sym (r f : Bool) (fuel : Nat) (es : List FSEnt)
    (n2 : String) (pl2 : List String) (m2 : Meta) (t2 : String) :
    ∃ a, (updStep r f fuel es (.sym n2 pl2 m2 t2)).1 =
      .sym n2 pl2 m2 a := by
  rw [updStep.eq_def]
  dsimp only
  cases fsLookup n2 es with
  | none => exact ⟨t2, rfl⟩
  | some e =>
    cases e with
    | fsSym a b =>
      dsimp only
      split
      · exact ⟨b, rfl⟩
      · exact ⟨t2, rfl⟩
    | fsFile a b c2 d => exact ⟨t2, rfl⟩
    | fsDir a b => exact ⟨t2, rfl⟩
    | fsOther a => exact ⟨t2, rfl⟩

/-- The update loop's dispatch on a file child yields a file with the
same name, pathlist and metadata. -/
theorem updStep_kind_file (r f : Bool) (fuel : Nat) (es : List FSEnt)
    (n2 : String) (pl2 : List String) (m2 : Meta) (sz ts : Int)
    (ck : String) :
    ∃ a b c2, (updStep r f fuel es (.file n2 pl2 m2 sz ts ck)).1 =
      .file n2 pl2 m2 a b c2 := by
  rw [updStep.eq_def]
  dsimp only
  cases fsLookup n2 es with
  | none => exact ⟨sz, ts, ck, rfl⟩
  | some e => cases e with
    | fsFile a b c3 d => exact ⟨_, _, _, rfl⟩
    | fsSym a b => exact ⟨sz, ts, ck, rfl⟩
    | fsDir a b => exact ⟨sz, ts, ck, rfl⟩
    | fsOther a => exact ⟨sz, ts, ck, rfl⟩

/-- The update loop's dispatch on a directory child yields a directory
with the same name, pathlist, metadata and ignore patterns. -/
theorem updStep_kind_dir (r f : Bool) (fuel : Nat) (es : List FSEnt)
    (n2 : String) (pl2 : List String) (m2 : Meta) (ig2 : List String)
    (chl2 : List FNode) :
    ∃ a, (updStep r f fuel es (.dir n2 pl2 m2 ig2 chl2)).1 =
      .dir n2 pl2 m2 ig2 a := by
  rw [updStep.eq_def]
  dsimp only
  cases r with
  | false => exact ⟨chl2, rfl⟩
  | true =>
    rw [if_pos rfl]
    cases fsLookup n2 es with
    | none => exact ⟨chl2, rfl⟩
    | some e =>
      cases e with
      | fsSym a b => exact ⟨chl2, rfl⟩
      | fsFile a b c2 d => exact ⟨chl2, rfl⟩
      | fsDir a sub =>
        obtain ⟨chl3, hsh⟩ := updateDirF_dir_shape true f fuel sub
          n2 pl2 m2 ig2 chl2
        dsimp only
        exact ⟨chl3, hsh⟩
      | fsOther a => exact ⟨chl2, rfl⟩

/-- Name lookups ignore a name-preserving transformation of the
children. -/
theorem findChild_map_isSome (g : FNode → FNode)
    (hg : ∀ c, (g c).name = c.name) :
    ∀ (l : List FNode) (x : String),
      (findChild x (l.map g)).isSome = (findChild x l).isSome := by
  intro l
  induction l with
  | nil => intro x; rfl
  | cons d ds ih =>
    intro x
    rw [List.map_cons, findChild, findChild, hg d]
    by_cases hx : d.name = x
    · rw [if_pos hx, if_pos hx]
      rfl
    · rw [if_neg hx, if_neg hx]
      exact ih x

/-- A pointwise-identity map. -/
theorem map_eq_self_of (f : FNode → FNode) :
    ∀ l : List FNode, (∀ c ∈ l, f c = c) → l.map f = l := by
  intro l
  induction l with
  | nil => intro _; rfl
  | cons d ds ih =>
    intro h
    rw [List.map_cons, h d (List.mem_cons_self d ds),
      ih (fun c hc => h c (List.mem_cons_of_mem d hc))]

/-- A pointwise-empty event map joins to no events. -/
theorem join_eq_nil_of (g : FNode → List Ev) :
    ∀ l : List FNode, (∀ c ∈ l, g c = []) → (l.map g).join = [] := by
  intro l
  induction l with
  | nil => intro _; rfl
  | cons d ds ih =>
    intro h
    simp [h d (List.mem_cons_self d ds),
      ih (fun c hc => h c (List.mem_cons_of_mem d hc))]

/-- Running update on a synchronised directory changes nothing and emits
no events. -/
theorem updateDirF_synced_noop (recurse : Bool) :
    ∀ (fuel : Nat) (es : List FSEnt) (t : FNode),
      fsDepthList es < fuel → Synced recurse es t →
      updateDirF recurse false fuel es t = (t, []) := by
  intro fuel
  induction fuel with
  | zero =>
    intro es t h _
    omega
  | succ fuel ih =>
    intro es t h hs
    cases hs with
    | dir es n pl m ig chl hIg hSym hFile hDir hDirSync hCov =>
      have hEx : ∀ c ∈ chl, existsB es c = true := by
        intro c hc
        cases c with
        | sym n2 pl2 m2 t2 =>
          obtain ⟨fn, hl⟩ := hSym _ hc n2 pl2 m2 t2 rfl
          simp [existsB, FNode.name, hl]
        | file n2 pl2 m2 sz ts ck =>
          obtain ⟨fn, s2, mt, dg, hl, -, -, -⟩ :=
            hFile _ hc n2 pl2 m2 sz ts ck rfl
          simp [existsB, FNode.name, hl]
        | dir n2 pl2 m2 ig2 chl2 =>
          obtain ⟨fn, sub, hl⟩ := hDir _ hc n2 pl2 m2 ig2 chl2 rfl
          simp [existsB, FNode.name, hl]
      have hstep : ∀ c ∈ chl, updStep recurse false fuel es c = (c, []) := by
        intro c hc
        cases c with
        | sym n2 pl2 m2 t2 =>
          obtain ⟨fn, hl⟩ := hSym _ hc n2 pl2 m2 t2 rfl
          rw [updStep_sym recurse false fuel es n2 pl2 m2 t2 fn t2 hl,
            if_neg (fun hx => hx rfl)]
        | file n2 pl2 m2 sz ts ck =>
          obtain ⟨fn, s2, mt, dg, hl, hts, hsz, hck⟩ :=
            hFile _ hc n2 pl2 m2 sz ts ck rfl
          have hupd : update_handle_file false sz ts ck ⟨s2, mt⟩ dg =
              ((sz, ts, ck), []) := by
            rw [update_handle_file, if_neg]
            rintro (hx | hx | hx | hx)
            · exact nomatch hx
            · exact hts hx
            · exact hx hsz
            · exact hck hx
          rw [updStep_file recurse false fuel es n2 pl2 m2 sz ts ck
            fn s2 mt dg hl, hupd]
        | dir n2 pl2 m2 ig2 chl2 =>
          obtain ⟨fn, sub, hl⟩ := hDir _ hc n2 pl2 m2 ig2 chl2 rfl
          by_cases hrec : recurse = true
          · rw [updStep_dir_rec recurse false fuel es n2 pl2 m2 ig2 chl2
              fn sub hrec hl]
            have hmem := fsLookup_mem n2 es _ hl
            have hle := fsDepth_le_of_mem es _ hmem
            rw [show fsDepth (.fsDir fn sub) = 1 + fsDepthList sub
              from rfl] at hle
            exact ih sub (.dir n2 pl2 m2 ig2 chl2) (by omega)
              (hDirSync _ hc n2 pl2 m2 ig2 chl2 rfl fn sub hl hrec)
          · rw [updStep.eq_def]
            dsimp only
            rw [if_neg hrec]
      have hdel := updDelPhase_noop es m ig chl
        (fun c hc => ⟨hIg c hc, hEx c hc⟩)
      have hadd := updAddPhase_noop m ig pl es chl hCov
      rw [updateDirF_dir_eq, hdel]
      dsimp only
      rw [hadd]
      dsimp only
      rw [foldl_pair_append (updStep recurse false fuel es) chl ([], [])]
      dsimp only
      rw [map_eq_self_of _ chl (fun c hc => by rw [hstep c hc]),
        join_eq_nil_of _ chl (fun c hc => by rw [hstep c hc])]
      simp

/-- The first run synchronises: after `handle_directory` on any
directory node over a realistic listing, the result is `Synced`. -/
theorem updateDirF_makes_synced (recurse force : Bool) :
    ∀ (fuel : Nat) (es : List FSEnt), fsDepthList es < fuel →
      fsWfL es = true → ∀ (n : String) (pl : List String) (m : Meta)
      (ig : List String) (chl : List FNode),
      Synced recurse es
        (updateDirF recurse force fuel es (.dir n pl m ig chl)).1 := by
  intro fuel
  induction fuel with
  | zero =>
    intro es h
    omega
  | succ fuel ih =>
    intro es h hwf n pl m ig chl
    rw [updateDirF_dir_eq]
    dsimp only
    rw [foldl_pair_append (updStep recurse force fuel es)]
    dsimp only
    rw [List.nil_append]
    generalize hC2 :
      (updAddPhase m ig pl es (updDelPhase es m ig chl).1).1 = chl2
    have hlook : ∀ c ∈ chl2,
        ignoreB ig m c.name = false ∧
        (∀ n2 pl2 m2 t2, c = FNode.sym n2 pl2 m2 t2 →
          ∃ fn tgt, fsLookup n2 es = some (.fsSym fn tgt)) ∧
        (∀ n2 pl2 m2 sz ts ck, c = FNode.file n2 pl2 m2 sz ts ck →
          ∃ fn s2 mt dg, fsLookup n2 es = some (.fsFile fn s2 mt dg)) ∧
        (∀ n2 pl2 m2 ig2 chl0, c = FNode.dir n2 pl2 m2 ig2 chl0 →
          ∃ fn sub, fsLookup n2 es = some (.fsDir fn sub)) := by
      intro c hc
      rw [← hC2] at hc
      rcases mem_updAddPhase m ig pl es _ c hc with hc1 | ⟨e, he, hnew, hige⟩
      · obtain ⟨hmem, hig2, hex⟩ := mem_updDelPhase es m ig chl c hc1
        refine ⟨hig2, ?_, ?_, ?_⟩
        · intro n2 pl2 m2 t2 hceq
          subst hceq
          rw [existsB.eq_def] at hex
          dsimp only [FNode.name] at hex
          cases hq : fsLookup n2 es with
          | none =>
            rw [hq] at hex
            simp at hex
          | some e =>
            rw [hq] at hex
            cases e with
            | fsSym a b => exact ⟨a, b, rfl⟩
            | fsFile a b c2 d => simp at hex
            | fsDir a b => simp at hex
            | fsOther a => simp at hex
        · intro n2 pl2 m2 sz ts ck hceq
          subst hceq
          rw [existsB.eq_def] at hex
          dsimp only [FNode.name] at hex
          cases hq : fsLookup n2 es with
          | none =>
            rw [hq] at hex
            simp at hex
          | some e =>
            rw [hq] at hex
            cases e with
            | fsFile a b c2 d => exact ⟨a, b, c2, d, rfl⟩
            | fsSym a b => simp at hex
            | fsDir a b => simp at hex
            | fsOther a => simp at hex
        · intro n2 pl2 m2 ig2 chl0 hceq
          subst hceq
          rw [existsB.eq_def] at hex
          dsimp only [FNode.name] at hex
          cases hq : fsLookup n2 es with
          | none =>
            rw [hq] at hex
            simp at hex
          | some e =>
            rw [hq] at hex
            cases e with
            | fsDir a b => exact ⟨a, b, rfl⟩
            | fsSym a b => simp at hex
            | fsFile a b c2 d => simp at hex
            | fsOther a => simp at hex
      · have hlk := fsLookup_of_mem_nodup es hwf e he
        cases e with
        | fsSym a b =>
          simp only [newNode, Option.some.injEq] at hnew
          subst hnew
          refine ⟨hige, ?_, ?_, ?_⟩
          · intro n2 pl2 m2 t2 hceq
            injection hceq with i1 i2 i3 i4
            subst i1
            exact ⟨a, b, hlk⟩
          · intro n2 pl2 m2 sz ts ck hceq
            exact absurd hceq (by simp)
          · intro n2 pl2 m2 ig2 chl0 hceq
            exact absurd hceq (by simp)
        | fsFile a b c2 d =>
          simp only [newNode, Option.some.injEq] at hnew
          subst hnew
          refine ⟨hige, ?_, ?_, ?_⟩
          · intro n2 pl2 m2 t2 hceq
            exact absurd hceq (by simp)
          · intro n2 pl2 m2 sz ts ck hceq
            injection hceq with i1 i2 i3 i4 i5 i6
            subst i1
            exact ⟨a, b, c2, d, hlk⟩
          · intro n2 pl2 m2 ig2 chl0 hceq
            exact absurd hceq (by simp)
        | fsDir a sub =>
          simp only [newNode, Option.some.injEq] at hnew
          subst hnew
          refine ⟨hige, ?_, ?_, ?_⟩
          · intro n2 pl2 m2 t2 hceq
            exact absurd hceq (by simp)
          · intro n2 pl2 m2 sz ts ck hceq
            exact absurd hceq (by simp)
          · intro n2 pl2 m2 ig2 chl0 hceq
            injection hceq with i1 i2 i3 i4 i5
            subst i1
            exact ⟨a, sub, hlk⟩
        | fsOther a =>
          simp [newNode] at hnew
    refine Synced.dir es n pl m ig _ ?_ ?_ ?_ ?_ ?_ ?_
    · intro c' hc'
      obtain ⟨c, hc, rfl⟩ := List.mem_map.mp hc'
      rw [updStep_name recurse force fuel es c]
      exact (hlook c hc).1
    · intro c' hc' n2 pl2 m2 t2 hc2
      obtain ⟨c, hc, rfl⟩ := List.mem_map.mp hc'
      cases c with
      | sym n3 pl3 m3 t3 =>
        obtain ⟨fn, tgt, hl⟩ := (hlook _ hc).2.1 n3 pl3 m3 t3 rfl
        rw [updStep_sym recurse force fuel es n3 pl3 m3 t3 fn tgt hl] at hc2
        by_cases hx : tgt = t3
        · rw [if_neg (fun hy => hy hx)] at hc2
          dsimp only at hc2
          injection hc2 with i1 i2 i3 i4
          subst i1
          subst i4
          rw [hx] at hl
          exact ⟨fn, hl⟩
        · rw [if_pos hx] at hc2
          dsimp only at hc2
          injection hc2 with i1 i2 i3 i4
          subst i1
          subst i4
          exact ⟨fn, hl⟩
      | file n3 pl3 m3 sz3 ts3 ck3 =>
        obtain ⟨a, b, c3, hsh⟩ :=
          updStep_kind_file recurse force fuel es n3 pl3 m3 sz3 ts3 ck3
        rw [hsh] at hc2
        exact absurd hc2 (by simp)
      | dir n3 pl3 m3 ig3 chl3 =>
        obtain ⟨a, hsh⟩ :=
          updStep_kind_dir recurse force fuel es n3 pl3 m3 ig3 chl3
        rw [hsh] at hc2
        exact absurd hc2 (by simp)
    · intro c' hc' n2 pl2 m2 sz ts ck hc2
      obtain ⟨c, hc, rfl⟩ := List.mem_map.mp hc'
      cases c with
      | file n3 pl3 m3 sz3 ts3 ck3 =>
        obtain ⟨fn, s2, mt, dg, hl⟩ :=
          (hlook _ hc).2.2.1 n3 pl3 m3 sz3 ts3 ck3 rfl
        have hdg : dg ≠ "" := by
          have := fsWfE_of_mem es hwf _ (fsLookup_mem n3 es _ hl)
          simpa [fsWfE] using this
        rw [updStep_file recurse force fuel es n3 pl3 m3 sz3 ts3 ck3
          fn s2 mt dg hl] at hc2
        rw [update_handle_file] at hc2
        split at hc2
        · dsimp only at hc2
          injection hc2 with i1 i2 i3 i4 i5 i6
          subst i1
          subst i4
          subst i5
          subst i6
          refine ⟨fn, s2, mt, dg, hl, ?_, rfl, hdg⟩
          rw [sub_self, abs_zero, show TIMEDIFF = (2 : Int) from rfl]
          omega
        · next hcond =>
          dsimp only at hc2
          injection hc2 with i1 i2 i3 i4 i5 i6
          subst i1
          subst i4
          subst i5
          subst i6
          refine ⟨fn, s2, mt, dg, hl,
            fun hx => hcond (Or.inr (Or.inl hx)),
            by
              by_contra hx
              exact hcond (Or.inr (Or.inr (Or.inl hx))),
            fun hx => hcond (Or.inr (Or.inr (Or.inr hx)))⟩
      | sym n3 pl3 m3 t3 =>
        obtain ⟨a, hsh⟩ :=
          updStep_kind_sym recurse force fuel es n3 pl3 m3 t3
        rw [hsh] at hc2
        exact absurd hc2 (by simp)
      | dir n3 pl3 m3 ig3 chl3 =>
        obtain ⟨a, hsh⟩ :=
          updStep_kind_dir recurse force fuel es n3 pl3 m3 ig3 chl3
        rw [hsh] at hc2
        exact absurd hc2 (by simp)
    · intro c' hc' n2 pl2 m2 ig2 chl0 hc2
      obtain ⟨c, hc, rfl⟩ := List.mem_map.mp hc'
      cases c with
      | dir n3 pl3 m3 ig3 chl3 =>
        obtain ⟨fn, sub, hl⟩ := (hlook _ hc).2.2.2 n3 pl3 m3 ig3 chl3 rfl
        obtain ⟨a, hsh⟩ :=
          updStep_kind_dir recurse force fuel es n3 pl3 m3 ig3 chl3
        rw [hsh] at hc2
        injection hc2 with i1 i2 i3 i4 i5
        subst i1
        exact ⟨fn, sub, hl⟩
      | sym n3 pl3 m3 t3 =>
        obtain ⟨a, hsh⟩ :=
          updStep_kind_sym recurse force fuel es n3 pl3 m3 t3
        rw [hsh] at hc2
        exact absurd hc2 (by simp)
      | file n3 pl3 m3 sz3 ts3 ck3 =>
        obtain ⟨a, b, c3, hsh⟩ :=
          updStep_kind_file recurse force fuel es n3 pl3 m3 sz3 ts3 ck3
        rw [hsh] at hc2
        exact absurd hc2 (by simp)
    · intro c' hc' n2 pl2 m2 ig2 chl0 hc2 fn sub hl hrec
      obtain ⟨c, hc, rfl⟩ := List.mem_map.mp hc'
      cases c with
      | dir n3 pl3 m3 ig3 chl3 =>
        obtain ⟨fn2, sub2, hl2⟩ := (hlook _ hc).2.2.2 n3 pl3 m3 ig3 chl3 rfl
        rw [updStep_dir_rec recurse force fuel es n3 pl3 m3 ig3 chl3
          fn2 sub2 hrec hl2] at hc2
        obtain ⟨chl4, hsh⟩ :=
          updateDirF_dir_shape recurse force fuel sub2 n3 pl3 m3 ig3 chl3
        rw [hsh] at hc2
        injection hc2 with i1 i2 i3 i4 i5
        subst i1
        subst i2
        subst i3
        subst i4
        subst i5
        have hinj := hl.symm.trans hl2
        injection hinj with hinj2
        injection hinj2 with j1 j2
        subst j2
        have hmem := fsLookup_mem n3 es _ hl2
        have hle := fsDepth_le_of_mem es _ hmem
        rw [show fsDepth (.fsDir fn2 sub) = 1 + fsDepthList sub
          from rfl] at hle
        have hwfs : fsWfL sub = true := by
          have := fsWfE_of_mem es hwf _ hmem
          simpa [fsWfE] using this
        have hsync := ih sub (by omega) hwfs n3 pl3 m3 ig3 chl3
        rw [hsh] at hsync
        exact hsync
      | sym n3 pl3 m3 t3 =>
        obtain ⟨a, hsh⟩ :=
          updStep_kind_sym recurse force fuel es n3 pl3 m3 t3
        rw [hsh] at hc2
        exact absurd hc2 (by simp)
      | file n3 pl3 m3 sz3 ts3 ck3 =>
        obtain ⟨a, b, c3, hsh⟩ :=
          updStep_kind_file recurse force fuel es n3 pl3 m3 sz3 ts3 ck3
        rw [hsh] at hc2
        exact absurd hc2 (by simp)
    · intro e he hre hige
      rw [findChild_map_isSome (fun c => (updStep recurse force fuel es c).1)
        (fun c => updStep_name recurse force fuel es c), ← hC2]
      exact updAddPhase_adds m ig pl es _ e he hre hige

/-- C5: on an unchanged filesystem, a second `update` run emits no
`ADDED`, `DELETED`, `CHECKSUM` or `SYMLINK` events; and if the first run
had left the collection's dirty flag unset, the second leaves it unset
too — vacuously, since `run` unconditionally sets `dirty = True`. -/
theorem update_idempotent (recurse force : Bool) (es : List FSEnt)
    (n : String) (pl : List String) (m : Meta) (ig : List String)
    (chl : List FNode) (hwf : fsWfL es = true) :
    (∀ ev ∈ (runUpdate recurse false es
        (runUpdate recurse force es (.dir n pl m ig chl)).1).2.1,
      ev ≠ Ev.ADDED ∧ ev ≠ Ev.DELETED ∧ ev ≠ Ev.CHECKSUM ∧
        ev ≠ Ev.SYMLINK) ∧
    ((runUpdate recurse force es (.dir n pl m ig chl)).2.2 = false →
      (runUpdate recurse false es
        (runUpdate recurse force es (.dir n pl m ig chl)).1).2.2 = false) := by
  have hA := updateDirF_makes_synced recurse force (fsDepthList es + 1) es
    (by omega) hwf n pl m ig chl
  have hB := updateDirF_synced_noop recurse (fsDepthList es + 1) es _
    (by omega) hA
  constructor
  · intro ev hev
    have hnil : (runUpdate recurse false es
        (runUpdate recurse force es (.dir n pl m ig chl)).1).2.1 = [] := by
      show (updateDirF recurse false (fsDepthList es + 1) es
        (updateDirF recurse force (fsDepthList es + 1) es
          (.dir n pl m ig chl)).1).2 = []
      rw [hB]
    rw [hnil] at hev
    exact absurd hev (by simp)
  · intro hx
    exact absurd (show (true : Bool) = false from hx) (by decide)

/-- Witness for `update_idempotent` at a concrete listing (a file, a
symlink and a subdirectory holding a file). -/
theorem update_idempotent_witness :
    (∀ ev ∈ (runUpdate true false
        [FSEnt.fsDir "d" [FSEnt.fsFile "g" 1 2 "dd"],
         FSEnt.fsFile "f" 5 7 "cc", FSEnt.fsSym "s" "tgt"]
        (runUpdate true false
          [FSEnt.fsDir "d" [FSEnt.fsFile "g" 1 2 "dd"],
           FSEnt.fsFile "f" 5 7 "cc", FSEnt.fsSym "s" "tgt"]
          (.dir "" [] [] [] [])).1).2.1,
      ev ≠ Ev.ADDED ∧ ev ≠ Ev.DELETED ∧ ev ≠ Ev.CHECKSUM ∧
        ev ≠ Ev.SYMLINK) ∧
    ((runUpdate true false
        [FSEnt.fsDir "d" [FSEnt.fsFile "g" 1 2 "dd"],
         FSEnt.fsFile "f" 5 7 "cc", FSEnt.fsSym "s" "tgt"]
        (.dir "" [] [] [] [])).2.2 = false →
      (runUpdate true false
        [FSEnt.fsDir "d" [FSEnt.fsFile "g" 1 2 "dd"],
         FSEnt.fsFile "f" 5 7 "cc", FSEnt.fsSym "s" "tgt"]
        (runUpdate true false
          [FSEnt.fsDir "d" [FSEnt.fsFile "g" 1 2 "dd"],
           FSEnt.fsFile "f" 5 7 "cc", FSEnt.fsSym "s" "tgt"]
          (.dir "" [] [] [] [])).1).2.2 = false) :=
  update_idempotent true false
    [FSEnt.fsDir "d" [FSEnt.fsFile "g" 1 2 "dd"],
     FSEnt.fsFile "f" 5 7 "cc", FSEnt.fsSym "s" "tgt"]
    "" [] [] [] [] (by decide)

end Fcman
